import Mathlib

/-! # xpaint: raster primitives and undo history

A shallow embedding of parts of `src/xpaint.c` (flood fill, the Bresenham line
walk, the undo/redo history, checked pixel writes, rectangles, the region copy,
the tool context and its handlers, the radial menu hit test) together with
theorems about them.

Conventions of the embedding:

* `i32` values are integers; where `xpaint.c` does `i32` arithmetic whose result
  may leave the 32-bit range, the result is wrapped with `wrap32`.
* An `XImage` is its `width`, its `height` and the map from coordinates to
  32-bit pixel values (`XGetPixel` / `XPutPixel` of a depth-32 `ZPixmap`).
* A `stb_ds` dynamic array that is only used through `arrpush`, `arrpop`,
  `arrlast`, `arrlen` and `arrfree` is a list whose head is the last element of
  the array, i.e. the top of the stack.
* A `while` loop is a function with a fuel argument counting the iterations it
  may perform; it returns `none` when the fuel does not suffice. A counting `for`
  loop is a fold over the values of its variable.
* Code that computes in `double` is a parameter of the functions that call it
  (`FloatPrims`, `Libm`).
-/

namespace XPaint

/-! ## Data model -/

/-- A pixel value, `typedef u32 argb`. -/
abbrev argb := Nat

/-- The `Pair` of `types.h`: two `i32` coordinates. -/
structure Pair where
  x : Int
  y : Int
deriving DecidableEq, Repr

/-- The part of Xlib's `XImage` that `xpaint.c` relies on. -/
structure XImage where
  width : Int
  height : Int
  pix : Int → Int → argb

/-- Xlib `XGetPixel`. -/
def XGetPixel (im : XImage) (x y : Int) : argb := im.pix x y

/-- Xlib `XPutPixel`. -/
def XPutPixel (im : XImage) (x y : Int) (col : argb) : XImage :=
  { im with pix := fun a b => if a = x ∧ b = y then col else im.pix a b }

/-- Xlib `XSubImage`: a fresh image holding the `w`×`h` window at `(x, y)`. -/
def XSubImage (im : XImage) (x y w h : Int) : XImage :=
  { width := w, height := h, pix := fun a b => im.pix (x + a) (y + b) }

/-! ## flood_fill (xpaint.c 1597-1634) -/

/-- The tables `d_rows` and `d_cols` of `flood_fill`, zipped. -/
def flood_dirs : List (Int × Int) := [(1, 0), (0, 1), (0, -1), (-1, 0)]

/-- Body of the `for dir` loop of `flood_fill` for one direction `d`, acting on
the image and the worklist. -/
def flood_fill_dir (area_col targ_col : argb) (curr : Pair)
    (st : XImage × List Pair) (d : Int × Int) : XImage × List Pair :=
  let d_curr : Pair := ⟨curr.x + d.1, curr.y + d.2⟩
  if d_curr.x < 0 ∨ d_curr.y < 0 ∨ d_curr.x ≥ st.1.width ∨ d_curr.y ≥ st.1.height then
    st
  else if XGetPixel st.1 d_curr.x d_curr.y = area_col then
    (XPutPixel st.1 d_curr.x d_curr.y targ_col, d_curr :: st.2)
  else
    st

/-- The `while (arrlen(queue_arr))` loop of `flood_fill`. -/
def flood_fill_loop (area_col targ_col : argb) : Nat → XImage → List Pair → Option XImage
  | _, im, [] => some im
  | 0, _, _ :: _ => none
  | fuel + 1, im, curr :: queue_arr =>
    let st := flood_dirs.foldl (flood_fill_dir area_col targ_col curr) (im, queue_arr)
    flood_fill_loop area_col targ_col fuel st.1 st.2

/-- The function `flood_fill(im, targ_col, x, y)`. -/
def flood_fill (fuel : Nat) (im : XImage) (targ_col : argb) (x y : Int) : Option XImage :=
  if x < 0 ∨ y < 0 ∨ x ≥ im.width ∨ y ≥ im.height then
    some im
  else
    let area_col := XGetPixel im x y
    if area_col = targ_col then
      some im
    else
      flood_fill_loop area_col targ_col fuel im [⟨x, y⟩]

/-- Membership of a coordinate in the raster of an image. -/
def XImage.inb (im : XImage) (x y : Int) : Prop :=
  0 ≤ x ∧ 0 ≤ y ∧ x < im.width ∧ y < im.height

instance (im : XImage) (x y : Int) : Decidable (im.inb x y) := by
  unfold XImage.inb; infer_instance

/-- Orthogonal adjacency of two coordinates. -/
def adj4 (a b a' b' : Int) : Prop :=
  (a' = a + 1 ∧ b' = b) ∨ (a' = a ∧ b' = b + 1) ∨ (a' = a ∧ b' = b - 1) ∨ (a' = a - 1 ∧ b' = b)

/-- The 4-connected region of `im` around `(x, y)`: the pixels reachable from
`(x, y)` through orthogonal steps over in-bounds pixels that have the colour of
`(x, y)`. -/
inductive Region (im : XImage) (x y : Int) : Int → Int → Prop
  | start : im.inb x y → Region im x y x y
  | step {a b a' b' : Int} : Region im x y a b → adj4 a b a' b' → im.inb a' b' →
      im.pix a' b' = im.pix x y → Region im x y a' b'

/-- A uniformly coloured image. -/
def XImage.uniform (w h : Int) (c : argb) : XImage := ⟨w, h, fun _ _ => c⟩

/-- The number of pixels of the raster of `im` that have the colour `c`. -/
def XImage.count_col (im : XImage) (c : argb) : Nat :=
  ((Finset.range im.width.toNat ×ˢ Finset.range im.height.toNat).filter
    (fun p => im.pix (p.1 : Int) (p.2 : Int) = c)).card

/-- The invariant of the worklist loop of `flood_fill` relative to the image
`im0` the fill started from: the size is kept, every pixel that differs from
`im0` lies in the region of the start and has the target colour, and every
worklist entry lies in the region. -/
def FloodInv (im0 : XImage) (x y : Int) (targ_col : argb) (st : XImage × List Pair) : Prop :=
  st.1.width = im0.width ∧ st.1.height = im0.height ∧
  (∀ a b, st.1.pix a b ≠ im0.pix a b → Region im0 x y a b ∧ st.1.pix a b = targ_col) ∧
  (∀ p ∈ st.2, Region im0 x y p.x p.y)

/-! ## canvas_line (xpaint.c 1868-1901) -/

/-- Reduction of an integer to the `i32` range (two's complement wrap-around). -/
def wrap32 (n : Int) : Int := (n + 2147483648) % 4294967296 - 2147483648

/-- The libc `abs` on `int`, with the result wrapped to the `i32` range. -/
def abs32 (n : Int) : Int := if n < 0 then wrap32 (-n) else n

/-- Body of the `while` loop of `canvas_line` after the call of `draw`: `none`
when the body leaves the loop through a `break`, else the next `error` and
`from`. -/
def canvas_line_step (to_ : Pair) (dx sx dy sy : Int) (error : Int) (from_ : Pair) :
    Option (Int × Pair) :=
  if from_.x = to_.x ∧ from_.y = to_.y then none
  else
    let e2 := wrap32 (2 * error)
    if e2 ≥ dy then
      if from_.x = to_.x then none
      else
        let error1 := wrap32 (error + dy)
        let from1 : Pair := ⟨wrap32 (from_.x + sx), from_.y⟩
        if e2 ≤ dx then
          if from1.y = to_.y then none
          else some (wrap32 (error1 + dx), ⟨from1.x, wrap32 (from1.y + sy)⟩)
        else some (error1, from1)
    else if e2 ≤ dx then
      if from_.y = to_.y then none
      else some (wrap32 (error + dx), ⟨from_.x, wrap32 (from_.y + sy)⟩)
    else some (error, from_)

/-- The `while` loop of `canvas_line`. The stamp function `draw` acts on the
canvas image; the result is the final image and the points `draw` was invoked
at, in order. -/
def canvas_line_loop (draw : XImage → Pair → XImage) (to_ : Pair) (dx sx dy sy : Int) :
    Nat → XImage → Int → Pair → Option (XImage × List Pair)
  | 0, _, _, _ => none
  | fuel + 1, im, error, from_ =>
    if from_.x ≥ 0 ∧ from_.y ≥ 0 ∧ from_.x < im.width ∧ from_.y < im.height then
      let im1 := draw im from_
      match canvas_line_step to_ dx sx dy sy error from_ with
      | none => some (im1, [from_])
      | some (error1, from1) =>
        (canvas_line_loop draw to_ dx sx dy sy fuel im1 error1 from1).map
          (fun r => (r.1, from_ :: r.2))
    else some (im, [])

/-- The function `canvas_line(ctx, from, to, draw)` on the canvas image. -/
def canvas_line (fuel : Nat) (draw : XImage → Pair → XImage) (im : XImage)
    (from_ to_ : Pair) : Option (XImage × List Pair) :=
  let dx := abs32 (wrap32 (to_.x - from_.x))
  let sx : Int := if from_.x < to_.x then 1 else -1
  let dy := wrap32 (-(abs32 (wrap32 (to_.y - from_.y))))
  let sy : Int := if from_.y < to_.y then 1 else -1
  let error := wrap32 (dx + dy)
  canvas_line_loop draw to_ dx sx dy sy fuel im error from_

/-- A stamp function that keeps the size of the canvas image, as the stamp
functions of `xpaint.c` do (they only write pixels). -/
def KeepsSize (draw : XImage → Pair → XImage) : Prop :=
  ∀ im p, (draw im p).width = im.width ∧ (draw im p).height = im.height

/-- A stamp function that writes the colour `col` at the stamped point. -/
def stamp_pixel (col : argb) (im : XImage) (p : Pair) : XImage := XPutPixel im p.x p.y col

/-- Point reflection through the midpoint of `a` and `b`. -/
def reflect (a b p : Pair) : Pair := ⟨a.x + b.x - p.x, a.y + b.y - p.y⟩

/-- The point at remaining distances `r` from `to_` when the walk runs in the
directions `sx`, `sy`. -/
def walk_pos (to_ : Pair) (sx sy : Int) (r : Int × Int) : Pair :=
  ⟨to_.x - sx * r.1, to_.y - sy * r.2⟩

/-- One iteration of `canvas_line_step` in terms of the remaining distances
`rx`, `ry` to the end point, for a line of extent `a`×`b`. -/
def bres_step (a b : Int) (error rx ry : Int) : Option (Int × Int × Int) :=
  if rx = 0 ∧ ry = 0 then none
  else
    let e2 := wrap32 (2 * error)
    if e2 ≥ -b then
      if rx = 0 then none
      else if e2 ≤ a then
        if ry = 0 then none
        else some (wrap32 (wrap32 (error + -b) + a), rx - 1, ry - 1)
      else some (wrap32 (error + -b), rx - 1, ry)
    else if e2 ≤ a then
      if ry = 0 then none
      else some (wrap32 (error + a), rx, ry - 1)
    else some (error, rx, ry)

/-- The walk of `canvas_line_loop` as the list of remaining distances. -/
def bres_walk (a b : Int) : Nat → Int → Int → Int → Option (List (Int × Int))
  | 0, _, _, _ => none
  | fuel + 1, error, rx, ry =>
    match bres_step a b error rx ry with
    | none => some [(rx, ry)]
    | some (error1, rx1, ry1) =>
      (bres_walk a b fuel error1 rx1 ry1).map (fun t => (rx, ry) :: t)

/-- The images whose sides are at most `2^29`, so that the `i32` arithmetic of
`canvas_line` on points of the raster does not overflow. -/
def XImage.fits_i32 (im : XImage) : Prop :=
  im.width ≤ 536870912 ∧ im.height ≤ 536870912

instance (im : XImage) : Decidable im.fits_i32 := by
  unfold XImage.fits_i32; infer_instance

/-! ## Tool context and input state (xpaint.c 71-87, 132-240, 670-714) -/

/-- The macro `NIL`. -/
def NIL : Int := -1

/-- The macro `PNIL`, the absent point. -/
def PNIL : Pair := ⟨NIL, NIL⟩

/-- The `enum ToolTag`. -/
inductive ToolTag where
  | Tool_Selection
  | Tool_Pencil
  | Tool_Fill
  | Tool_Picker
  | Tool_Brush
  | Tool_Figure
deriving DecidableEq, Repr

/-- The `enum FigureType`. -/
inductive FigureType where
  | Figure_Circle
  | Figure_Rectangle
  | Figure_Triangle
deriving DecidableEq, Repr

/-- The `struct ToolSharedData`; `colarr` is the palette in array order. -/
structure ToolSharedData where
  colarr : List argb
  curr_col : Nat
  prev_col : Nat
  line_w : Nat
  anchor : Pair
deriving DecidableEq

/-- The `struct SelectionData`; the members `begin` and `end` are `begin_` and
`end_`. -/
structure SelectionData where
  begin_ : Pair
  end_ : Pair
  drag_from : Pair
  drag_to : Pair
deriving DecidableEq

/-- The values of the member `fn` of `struct DrawerData`. -/
inductive DrawFn where
  | canvas_draw_fn_pencil
  | canvas_draw_fn_brush
deriving DecidableEq, Repr

/-- The `struct DrawerData`. -/
structure DrawerData where
  fn : DrawFn
deriving DecidableEq

/-- The `struct FigureData`. -/
structure FigureData where
  curr : FigureType
  fill : Bool
deriving DecidableEq

/-- The `union ToolData`: the member last written, or `zero` for the union as
the initializer of `tc_set_tool` leaves it, with all bytes zero. -/
inductive ToolData where
  | zero
  | sel (d : SelectionData)
  | drawer (d : DrawerData)
  | fig (d : FigureData)
deriving DecidableEq

/-- The member `d.sel` of the union; a zeroed union reads as four `(0, 0)` pairs.
The code reads it only when the tag is `Tool_Selection`. -/
def ToolData.get_sel : ToolData → SelectionData
  | .sel d => d
  | _ => ⟨⟨0, 0⟩, ⟨0, 0⟩, ⟨0, 0⟩, ⟨0, 0⟩⟩

/-- The member `d.fig` of the union; a zeroed union reads as `Figure_Circle`
(the enumerator 0) with `fill = False`. The code reads it only when the tag is
`Tool_Figure`. -/
def ToolData.get_fig : ToolData → FigureData
  | .fig d => d
  | _ => ⟨.Figure_Circle, false⟩

/-- The handlers a tool context can hold in `on_press`. -/
inductive PressHandler where
  | tool_selection_on_press
  | tool_drawer_on_press
deriving DecidableEq, Repr

/-- The handlers a tool context can hold in `on_release`. -/
inductive ReleaseHandler where
  | tool_selection_on_release
  | tool_drawer_on_release
  | tool_fill_on_release
  | tool_picker_on_release
  | tool_figure_on_release
deriving DecidableEq, Repr

/-- The handlers a tool context can hold in `on_drag`. -/
inductive DragHandler where
  | tool_selection_on_drag
  | tool_drawer_on_drag
  | tool_figure_on_drag
deriving DecidableEq, Repr

/-- The `struct ToolCtx`; a null handler is `none`. The member `on_move`, which
no tool sets, is left out. -/
structure ToolCtx where
  on_press : Option PressHandler
  on_release : Option ReleaseHandler
  on_drag : Option DragHandler
  sdata : ToolSharedData
  t : ToolTag
  d : ToolData
deriving DecidableEq

/-- The function `tc_set_tool(tc, type)`: the tool context after the call. The
shared data moves to the new context, everything the `switch` does not set is
zero. -/
def tc_set_tool (tc : ToolCtx) (type : ToolTag) : ToolCtx :=
  let new_tc : ToolCtx :=
    { on_press := none, on_release := none, on_drag := none,
      sdata := tc.sdata, t := type, d := .zero }
  match type with
  | .Tool_Selection =>
    { new_tc with
      on_press := some .tool_selection_on_press
      on_release := some .tool_selection_on_release
      on_drag := some .tool_selection_on_drag
      d := .sel { begin_ := PNIL, end_ := PNIL, drag_from := PNIL, drag_to := PNIL } }
  | .Tool_Brush =>
    { new_tc with
      on_press := some .tool_drawer_on_press
      on_release := some .tool_drawer_on_release
      on_drag := some .tool_drawer_on_drag
      d := .drawer { fn := .canvas_draw_fn_brush } }
  | .Tool_Pencil =>
    { new_tc with
      on_press := some .tool_drawer_on_press
      on_release := some .tool_drawer_on_release
      on_drag := some .tool_drawer_on_drag
      d := .drawer { fn := .canvas_draw_fn_pencil } }
  | .Tool_Fill => { new_tc with on_release := some .tool_fill_on_release }
  | .Tool_Picker => { new_tc with on_release := some .tool_picker_on_release }
  | .Tool_Figure =>
    { new_tc with
      on_press := some .tool_drawer_on_press
      on_release := some .tool_figure_on_release
      on_drag := some .tool_figure_on_drag }

/-- The macro `HAS_SELECTION`. -/
def HAS_SELECTION (tc : ToolCtx) : Bool :=
  decide (tc.t = .Tool_Selection) && decide (tc.d.get_sel.end_.x ≠ NIL)
    && decide (tc.d.get_sel.end_.y ≠ NIL) && decide (tc.d.get_sel.begin_.x ≠ NIL)
    && decide (tc.d.get_sel.begin_.y ≠ NIL)
    && decide (tc.d.get_sel.end_.x ≠ tc.d.get_sel.begin_.x)
    && decide (tc.d.get_sel.end_.y ≠ tc.d.get_sel.begin_.y)

/-- The macro `SELECTION_DRAGGING`. -/
def SELECTION_DRAGGING (tc : ToolCtx) : Bool :=
  decide (tc.t = .Tool_Selection) && decide (tc.d.get_sel.drag_from.x ≠ NIL)
    && decide (tc.d.get_sel.drag_from.y ≠ NIL)

/-- The function `tc_curr_col`, read: the palette entry at `curr_col`. -/
def tc_curr_col (tc : ToolCtx) : argb := tc.sdata.colarr.getD tc.sdata.curr_col 0

/-- An assignment through `tc_curr_col`: the palette entry at `curr_col` is
replaced. -/
def tc_set_curr_col (tc : ToolCtx) (col : argb) : ToolCtx :=
  { tc with sdata := { tc.sdata with colarr := tc.sdata.colarr.set tc.sdata.curr_col col } }

/-- The members of `struct Input` the tool handlers read. -/
structure Input where
  holding_button : Nat
  is_holding : Bool
  is_dragging : Bool
deriving DecidableEq

/-- The button event fields the handlers read (`XButtonEvent`). -/
structure XButtonEvent where
  x : Int
  y : Int
  state : Nat
  button : Nat
deriving DecidableEq

/-- The motion event fields the handlers read (`XMotionEvent`). -/
structure XMotionEvent where
  x : Int
  y : Int
  state : Nat
deriving DecidableEq

/-- The macro `XLeftMouseBtn`, X11 `Button1`. -/
def XLeftMouseBtn : Nat := 1

/-- The X11 modifier bit `ShiftMask`. -/
def ShiftMask : Nat := 1

/-! ## History (xpaint.c 1664-1720) -/

/-- The `struct History`: one snapshot of the canvas image. -/
structure History where
  im : XImage

/-- The `struct Canvas`, reduced to its image. -/
structure Canvas where
  im : XImage

/-- The `struct DrawCtx`, reduced to the canvas. -/
structure DrawCtx where
  cv : Canvas

/-- The `struct Ctx`, reduced to the canvas, the two history stacks, the input
state and the current tool context `CURR_TC(ctx)`, here the member `tc`. -/
structure Ctx where
  dc : DrawCtx
  hist_prevarr : List History
  hist_nextarr : List History
  input : Input := { holding_button := 0, is_holding := false, is_dragging := false }
  tc : ToolCtx :=
    { on_press := none, on_release := none, on_drag := none,
      sdata := { colarr := [], curr_col := 0, prev_col := 0, line_w := 0, anchor := ⟨0, 0⟩ },
      t := .Tool_Pencil, d := .zero }

/-- The function `history_clone`. -/
def history_clone (hist : History) : History :=
  { im := XSubImage hist.im 0 0 hist.im.width hist.im.height }

/-- The function `history_apply`: the snapshot becomes the canvas image. -/
def history_apply (ctx : Ctx) (hist : History) : Ctx :=
  { ctx with dc := { ctx.dc with cv := { ctx.dc.cv with im := hist.im } } }

/-- The function `history_push`, with `to_prev` telling whether the argument
`hist` points to `hist_prevarr` (else to `hist_nextarr`). -/
def history_push (to_prev : Bool) (ctx : Ctx) : Ctx :=
  if to_prev then
    { ctx with hist_prevarr := history_clone { im := ctx.dc.cv.im } :: ctx.hist_prevarr }
  else
    { ctx with hist_nextarr := history_clone { im := ctx.dc.cv.im } :: ctx.hist_nextarr }

/-- The function `historyarr_clear`: every snapshot is destroyed and the array is
freed, which leaves it empty. -/
def historyarr_clear (_histarr : List History) : List History := []

/-- The function `history_forward`. -/
def history_forward (ctx : Ctx) : Ctx :=
  history_push true { ctx with hist_nextarr := historyarr_clear ctx.hist_nextarr }

/-- The function `history_move`: the returned `Bool` and the context after the
call. -/
def history_move (ctx : Ctx) (forward : Bool) : Bool × Ctx :=
  match (if forward then ctx.hist_prevarr else ctx.hist_nextarr) with
  | [] => (false, ctx)
  | curr :: rest =>
    let ctx1 : Ctx :=
      if forward then { ctx with hist_prevarr := rest } else { ctx with hist_nextarr := rest }
    let ctx2 := history_push (!forward) ctx1
    (true, history_apply ctx2 curr)

/-- The function `history_restore`: the returned `Bool` and the context after the
call. -/
def history_restore (ctx : Ctx) : Bool × Ctx :=
  match ctx.hist_prevarr with
  | [] => (false, ctx)
  | last :: _ => (true, history_apply ctx (history_clone last))

/-- The context `ctx` with the canvas image replaced by `im`, the effect of
drawing on the canvas in place. -/
def Ctx.with_canvas (ctx : Ctx) (im : XImage) : Ctx :=
  { ctx with dc := { ctx.dc with cv := { ctx.dc.cv with im := im } } }

/-! ## Checked pixel writes and rectangles (xpaint.c 1722-1729, 1814-1839) -/

/-- Conversion of an `i32` value to `u32`. -/
def to_u32 (n : Int) : Int := n % 4294967296

/-- The values of a C `int`. -/
def is_i32 (n : Int) : Prop := -2147483648 ≤ n ∧ n < 2147483648

instance (n : Int) : Decidable (is_i32 n) := by
  unfold is_i32; infer_instance

/-- The images whose `width` and `height` are non-negative C `int`s. -/
def XImage.int_sized (im : XImage) : Prop :=
  0 ≤ im.width ∧ im.width < 2147483648 ∧ 0 ≤ im.height ∧ im.height < 2147483648

instance (im : XImage) : Decidable im.int_sized := by
  unfold XImage.int_sized; infer_instance

/-- The function `ximage_put_checked(im, x, y, col)`; `x` and `y` are the `u32`
parameter values. The result is the returned `Bool` and the image after the
call. -/
def ximage_put_checked (im : XImage) (x y : Int) (col : argb) : Bool × XImage :=
  if x ≥ to_u32 im.width ∨ y ≥ to_u32 im.height then (false, im)
  else (true, XPutPixel im (wrap32 x) (wrap32 y) col)

/-- A counting loop `for (i32 v = lo; v < hi; ++v) body`, over the state `σ`. -/
def for_range {σ : Type} (lo hi : Int) (body : σ → Int → σ) (s : σ) : σ :=
  ((List.range (hi - lo).toNat).map (fun k : Nat => lo + (k : Int))).foldl body s

/-- The function `canvas_fill_rect(ctx, c, dims, col)` on the canvas image. -/
def canvas_fill_rect (im : XImage) (c dims : Pair) (col : argb) : XImage :=
  let nx : Bool := decide (dims.x < 0)
  let ny : Bool := decide (dims.y < 0)
  for_range (wrap32 (c.x + (if nx then dims.x else 0))) (wrap32 (c.x + (if nx then 0 else dims.x)))
    (fun im x =>
      for_range (wrap32 (c.y + (if ny then dims.y else 0)))
        (wrap32 (c.y + (if ny then 0 else dims.y)))
        (fun im y => (ximage_put_checked im (to_u32 x) (to_u32 y) col).2) im)
    im

/-- The values the loop variable of `for_range lo hi` takes, in order. -/
def int_range (lo hi : Int) : List Int :=
  (List.range (hi - lo).toNat).map (fun k : Nat => lo + (k : Int))

/-! ## canvas_copy_region (xpaint.c 1936-1974) -/

/-- The constant `CANVAS.background_argb` of `config.h`. -/
def CANVAS_background_argb : argb := 0xFFAA0000

/-- Body of the innermost loop of `canvas_copy_region`, acting on the canvas
image and the staging buffer `region_dyn`, which is a map from indices to pixel
values. -/
def canvas_copy_region_body (w : Int) (from_ to_ : Pair) (clear_source : Bool)
    (get_or_set : Int) (st : XImage × (Int → argb)) (y x : Int) : XImage × (Int → argb) :=
  let idx := wrap32 (wrap32 (y * w) + x)
  if get_or_set ≠ 0 then
    let v := XGetPixel st.1 (wrap32 (from_.x + x)) (wrap32 (from_.y + y))
    let region_dyn : Int → argb := fun i => if i = idx then v else st.2 i
    if clear_source then
      ((ximage_put_checked st.1 (to_u32 (wrap32 (from_.x + x))) (to_u32 (wrap32 (from_.y + y)))
          CANVAS_background_argb).2, region_dyn)
    else (st.1, region_dyn)
  else
    ((ximage_put_checked st.1 (to_u32 (wrap32 (to_.x + x))) (to_u32 (wrap32 (to_.y + y)))
        (st.2 idx)).2, st.2)

/-- The function `canvas_copy_region(ctx, from, dims, to, clear_source)` on the
canvas image; the staging buffer starts zeroed (`ecalloc`). -/
def canvas_copy_region (im : XImage) (from_ dims to_ : Pair) (clear_source : Bool) : XImage :=
  let w := im.width
  (([1, 0] : List Int).foldl
    (fun st get_or_set =>
      for_range 0 dims.y
        (fun st y =>
          for_range 0 dims.x
            (fun st x => canvas_copy_region_body w from_ to_ clear_source get_or_set st y x) st)
        st)
    (im, fun _ => 0)).1

/-- A 7×5 test image whose pixel at `(x, y)` has the value `10 * y + x + 1`. -/
def XImage.pattern : XImage := ⟨7, 5, fun x y => (10 * y + x + 1).toNat⟩

/-! ## Tool handlers and figures (xpaint.c 787-790, 1471-1595, 1647-1662, 1747-1866) -/

/-- The alpha functions `canvas_circle` is called with. -/
inductive CircleAlpha where
  | canvas_brush_get_a
  | canvas_figure_circle_get_a_fill
  | canvas_figure_circle_get_a
deriving DecidableEq, Repr

/-- The parts of `xpaint.c` that compute in `double`, taken as parameters:
`point_from_scr_to_cv_xy` for the zoom and scroll of the canvas (which the
handlers below do not change), `canvas_circle` on the canvas image,
`figure_diameter dx dy` for `(u32)sqrt(dx * dx + dy * dy)` in `canvas_figure`, and
`canvas_fill_triangle` on the canvas image. -/
structure FloatPrims where
  point_from_scr_to_cv_xy : Int → Int → Pair
  canvas_circle : XImage → Pair → Int → argb → CircleAlpha → XImage
  figure_diameter : Int → Int → Int
  canvas_fill_triangle : XImage → Pair → Pair → argb → XImage

/-- The parameters for a canvas shown unzoomed and unscrolled, where the
conversion of screen to canvas coordinates is the identity. Circles and filled
triangles are not drawn by this stand-in. -/
def FloatPrims.unzoomed : FloatPrims :=
  { point_from_scr_to_cv_xy := fun x y => ⟨x, y⟩
    canvas_circle := fun im _ _ _ _ => im
    figure_diameter := fun _ _ => 0
    canvas_fill_triangle := fun im _ _ _ => im }

/-- The function `point_in_rect`. -/
def point_in_rect (p a1 a2 : Pair) : Bool :=
  decide (min a1.x a2.x < p.x) && decide (p.x < max a1.x a2.x)
    && decide (min a1.y a2.y < p.y) && decide (p.y < max a1.y a2.y)

/-- The macro `CLAMP`. -/
def CLAMP (x l h : Int) : Int := if x < l then l else if x > h then h else x

/-- The function `tool_picker_on_release`. -/
def tool_picker_on_release (P : FloatPrims) (ctx : Ctx) (event : XButtonEvent) : Ctx :=
  let pointer := P.point_from_scr_to_cv_xy event.x event.y
  if point_in_rect pointer ⟨0, 0⟩ ⟨ctx.dc.cv.im.width, ctx.dc.cv.im.height⟩ then
    { ctx with tc := tc_set_curr_col ctx.tc (XGetPixel ctx.dc.cv.im pointer.x pointer.y) }
  else ctx

/-- The selection data with all four points absent. -/
def SelectionData.unselected : SelectionData :=
  { begin_ := PNIL, end_ := PNIL, drag_from := PNIL, drag_to := PNIL }

/-- The function `tool_selection_on_release`. The calls of `XSetSelectionOwner`
and `trace` act outside the context and are left out. -/
def tool_selection_on_release (P : FloatPrims) (ctx : Ctx) (event : XButtonEvent) : Ctx :=
  if event.button ≠ XLeftMouseBtn then ctx
  else
    let sd := ctx.tc.d.get_sel
    if SELECTION_DRAGGING ctx.tc then
      let pointer := P.point_from_scr_to_cv_xy event.x event.y
      let move_vec : Pair :=
        ⟨wrap32 (pointer.x - sd.drag_from.x), wrap32 (pointer.y - sd.drag_from.y)⟩
      let area : Pair := ⟨min sd.begin_.x sd.end_.x, min sd.begin_.y sd.end_.y⟩
      let im := canvas_copy_region ctx.dc.cv.im area
        ⟨wrap32 (max sd.begin_.x sd.end_.x - area.x), wrap32 (max sd.begin_.y sd.end_.y - area.y)⟩
        ⟨wrap32 (area.x + move_vec.x), wrap32 (area.y + move_vec.y)⟩
        (decide (Nat.land event.state ShiftMask = 0))
      { ctx.with_canvas im with tc := { ctx.tc with d := .sel SelectionData.unselected } }
    else if ctx.input.is_dragging then ctx
    else { ctx with tc := { ctx.tc with d := .sel SelectionData.unselected } }

/-- The function `tool_selection_on_drag`. -/
def tool_selection_on_drag (P : FloatPrims) (ctx : Ctx) (event : XMotionEvent) : Ctx :=
  if ctx.input.holding_button ≠ XLeftMouseBtn then ctx
  else
    let pointer := P.point_from_scr_to_cv_xy event.x event.y
    if SELECTION_DRAGGING ctx.tc then
      { ctx with tc := { ctx.tc with d := .sel { ctx.tc.d.get_sel with drag_to := pointer } } }
    else if ctx.input.is_holding then
      { ctx with tc := { ctx.tc with d := .sel { ctx.tc.d.get_sel with
          end_ := ⟨CLAMP pointer.x 0 ctx.dc.cv.im.width,
                   CLAMP pointer.y 0 ctx.dc.cv.im.height⟩ } } }
    else ctx

/-- The function `canvas_draw_fn_pencil` on the canvas image, for the tool
context `tc`. -/
def canvas_draw_fn_pencil (tc : ToolCtx) (im : XImage) (c : Pair) : XImage :=
  let w : Int := wrap32 tc.sdata.line_w
  canvas_fill_rect im ⟨wrap32 (c.x - Int.tdiv w 2), wrap32 (c.y - Int.tdiv w 2)⟩ ⟨w, w⟩
    (tc_curr_col tc)

/-- The function `canvas_draw_fn_brush` on the canvas image, for the tool
context `tc`. -/
def canvas_draw_fn_brush (P : FloatPrims) (tc : ToolCtx) (im : XImage) (c : Pair) : XImage :=
  P.canvas_circle im c tc.sdata.line_w (tc_curr_col tc) .canvas_brush_get_a

/-- A call through the function pointer `tc->d.drawer.fn`. -/
def run_draw_fn (P : FloatPrims) (tc : ToolCtx) : DrawFn → XImage → Pair → XImage
  | .canvas_draw_fn_pencil => canvas_draw_fn_pencil tc
  | .canvas_draw_fn_brush => canvas_draw_fn_brush P tc

/-- The context `ctx` with the anchor of the tool context set to `p`. -/
def Ctx.with_anchor (ctx : Ctx) (p : Pair) : Ctx :=
  { ctx with tc := { ctx.tc with sdata := { ctx.tc.sdata with anchor := p } } }

/-- The function `tool_drawer_on_release`. It has no result (`none`) when the
line walk runs out of fuel, or when the union holds no stamp function to call. -/
def tool_drawer_on_release (fuel : Nat) (P : FloatPrims) (ctx : Ctx) (event : XButtonEvent) :
    Option Ctx :=
  if event.button ≠ XLeftMouseBtn ∨ ctx.input.is_dragging = true then some ctx
  else
    let pointer := P.point_from_scr_to_cv_xy event.x event.y
    match ctx.tc.d with
    | .drawer dd =>
      let drawn : Option XImage :=
        if Nat.land event.state ShiftMask ≠ 0 then
          (canvas_line fuel (run_draw_fn P ctx.tc dd.fn) ctx.dc.cv.im ctx.tc.sdata.anchor
            pointer).map Prod.fst
        else some (run_draw_fn P ctx.tc dd.fn ctx.dc.cv.im pointer)
      drawn.map (fun im =>
        (ctx.with_canvas im).with_anchor (P.point_from_scr_to_cv_xy event.x event.y))
    | _ => none

/-- The function `canvas_rect` on the canvas image. -/
def canvas_rect (im : XImage) (c dims : Pair) (col : argb) (w : Nat) : XImage :=
  let wi : Int := wrap32 w
  let cap : Pair := ⟨if dims.x < 0 then wi else 0, if dims.y < 0 then wi else 0⟩
  let c1 : Pair := ⟨wrap32 (c.x - cap.x), wrap32 (c.y - cap.y)⟩
  let c2 : Pair :=
    ⟨wrap32 (wrap32 (c.x + dims.x) + cap.x), wrap32 (wrap32 (c.y + dims.y) + cap.y)⟩
  let im1 := canvas_fill_rect im c1 ⟨wrap32 (dims.x + cap.x), wi⟩ col
  let im2 := canvas_fill_rect im1 c1 ⟨wi, wrap32 (dims.y + cap.y)⟩ col
  let im3 := canvas_fill_rect im2 c2 ⟨wrap32 (wrap32 (-dims.x) - cap.x), wrap32 (-wi)⟩ col
  let im4 := canvas_fill_rect im3 c2 ⟨wrap32 (-wi), wrap32 (wrap32 (-dims.y) - cap.y)⟩ col
  if dims.x < 0 ∧ dims.y < 0 then
    let im5 := canvas_fill_rect im4 c1 ⟨wi, wi⟩ col
    canvas_fill_rect im5 c2 ⟨wrap32 (-wi), wrap32 (-wi)⟩ col
  else im4

/-- The function `canvas_triangle` on the canvas image, for the tool context
`tc`; it has no result when a line walk runs out of fuel. The parameters `col`
and `w` are not used by the code. -/
def canvas_triangle (fuel : Nat) (tc : ToolCtx) (im : XImage) (c dims : Pair) : Option XImage :=
  let e0 : Pair := ⟨wrap32 (c.x + Int.tdiv dims.x 2), c.y⟩
  let e1 : Pair := ⟨c.x, wrap32 (c.y + dims.y)⟩
  let e2 : Pair := ⟨wrap32 (c.x + dims.x), wrap32 (c.y + dims.y)⟩
  (canvas_line fuel (canvas_draw_fn_pencil tc) im e0 e1).bind fun r1 =>
  (canvas_line fuel (canvas_draw_fn_pencil tc) r1.1 e1 e2).bind fun r2 =>
  (canvas_line fuel (canvas_draw_fn_pencil tc) r2.1 e0 e2).map Prod.fst

/-- The function `canvas_figure(ctx, p1, p2)` on the canvas image, for the tool
context `tc`. -/
def canvas_figure (fuel : Nat) (P : FloatPrims) (tc : ToolCtx) (im : XImage) (p1 p2 : Pair) :
    Option XImage :=
  if tc.t ≠ .Tool_Figure then some im
  else
    let fig := tc.d.get_fig
    let col := tc_curr_col tc
    let dx := wrap32 (p1.x - p2.x)
    let dy := wrap32 (p1.y - p2.y)
    match fig.curr with
    | .Figure_Circle =>
      some (P.canvas_circle im
        ⟨Int.tdiv (wrap32 (p1.x + p2.x)) 2, Int.tdiv (wrap32 (p1.y + p2.y)) 2⟩
        (P.figure_diameter dx dy) col
        (if fig.fill then .canvas_figure_circle_get_a_fill else .canvas_figure_circle_get_a))
    | .Figure_Rectangle =>
      if fig.fill then some (canvas_fill_rect im p2 ⟨dx, dy⟩ col)
      else some (canvas_rect im p2 ⟨dx, dy⟩ col tc.sdata.line_w)
    | .Figure_Triangle =>
      if fig.fill then some (P.canvas_fill_triangle im p2 ⟨dx, dy⟩ col)
      else canvas_triangle fuel tc im p2 ⟨dx, dy⟩

/-- The function `tool_figure_on_release`. -/
def tool_figure_on_release (fuel : Nat) (P : FloatPrims) (ctx : Ctx) (event : XButtonEvent) :
    Option Ctx :=
  if event.button ≠ XLeftMouseBtn ∨ ctx.input.is_dragging = true then some ctx
  else
    let pointer := P.point_from_scr_to_cv_xy event.x event.y
    (canvas_figure fuel P ctx.tc ctx.dc.cv.im pointer ctx.tc.sdata.anchor).map ctx.with_canvas

/-- A tool context of the variant `type` with a one-colour palette of colour 7,
stroke width 1 and the anchor `anchor`. -/
def ToolCtx.sample (type : ToolTag) (anchor : Pair) : ToolCtx :=
  tc_set_tool
    { on_press := none, on_release := none, on_drag := none,
      sdata := { colarr := [7], curr_col := 0, prev_col := 0, line_w := 1, anchor := anchor },
      t := type, d := .zero } type

/-- A dragging selection on the 7×5 pattern image: the selection (1,1)-(4,4),
picked up at (2,2), with the last processed drag at (3,2). -/
def Ctx.sample_selection : Ctx :=
  { dc := ⟨⟨XImage.pattern⟩⟩, hist_prevarr := [⟨XImage.pattern⟩], hist_nextarr := []
    input := { holding_button := XLeftMouseBtn, is_holding := true, is_dragging := true }
    tc := { ToolCtx.sample .Tool_Selection ⟨0, 0⟩ with
      d := .sel { begin_ := ⟨1, 1⟩, end_ := ⟨4, 4⟩, drag_from := ⟨2, 2⟩, drag_to := ⟨3, 2⟩ } } }

/-- A blank 5×5 canvas with the tool context `tc`, the anchor at (1,1) and the
main button held, dragging or not. -/
def Ctx.sample_blank (tc : ToolCtx) (is_dragging : Bool) : Ctx :=
  { dc := ⟨⟨XImage.uniform 5 5 0⟩⟩, hist_prevarr := [⟨XImage.uniform 5 5 0⟩], hist_nextarr := []
    input := { holding_button := XLeftMouseBtn, is_holding := true, is_dragging := is_dragging }
    tc := tc }

/-- The Figure tool context set to a filled rectangle, anchor at (1,1). -/
def ToolCtx.sample_filled_rect : ToolCtx :=
  { ToolCtx.sample .Tool_Figure ⟨1, 1⟩ with
    d := .fig { curr := .Figure_Rectangle, fill := true } }

/-! ## Radial menu hit test (xpaint.c 1424-1448, config.h 36-50)

The hit test computes in `double`. Here a `double` is a rational number and the
arithmetic on it is exact; the two libm functions are parameters. -/

/-- The `struct SelectionCircle`, reduced to the members the hit test reads. -/
structure SelectionCircle where
  is_active : Bool
  x : Int
  y : Int
  item_count : Nat
deriving DecidableEq

/-- The libm functions of `sel_circ_curr_item` as parameters: `sqrt n` for
`sqrt` of the `double` of the `i32` value `n`, and `atan_div y x` for
`atan(y * 1.0 / x)` with `i32` values `y`, `x` (for `x = 0` the quotient is
infinite). -/
structure Libm where
  sqrt : Int → ℚ
  atan_div : Int → Int → ℚ

/-- The macro `PI`. -/
def PI : ℚ := 3141 / 1000

/-- The constant `SELECTION_CIRCLE.outer_r_px` of `config.h`. -/
def SELECTION_CIRCLE_outer_r_px : Nat := 225

/-- The constant `SELECTION_CIRCLE.inner_r_px` of `config.h`. -/
def SELECTION_CIRCLE_inner_r_px : Nat := 40

/-- The conversion `(i32)d` of a `double`, which truncates towards zero. -/
def double_to_i32 (d : ℚ) : Int := if 0 ≤ d then Rat.floor d else -Rat.floor (-d)

/-- The function `sel_circ_curr_item(sc, x, y)`. -/
def sel_circ_curr_item (L : Libm) (sc : SelectionCircle) (x y : Int) : Int :=
  let pointer_x_rel := wrap32 (x - sc.x)
  let pointer_y_rel := wrap32 (y - sc.y)
  if pointer_x_rel = 0 ∧ pointer_y_rel = 0 then NIL
  else
    let segment_rad : ℚ := PI * 2 / ((max 1 sc.item_count : Nat) : ℚ)
    let segment_deg : ℚ := segment_rad / PI * 180
    let pointer_r : ℚ :=
      L.sqrt (wrap32 (wrap32 (pointer_x_rel * pointer_x_rel)
        + wrap32 (pointer_y_rel * pointer_y_rel)))
    if pointer_r > (SELECTION_CIRCLE_outer_r_px : ℚ)
        ∨ pointer_r < (SELECTION_CIRCLE_inner_r_px : ℚ) then NIL
    else
      let angle : ℚ := -(L.atan_div pointer_y_rel pointer_x_rel) / PI * 180
      let angle : ℚ :=
        if pointer_x_rel < 0 then angle + 180
        else if pointer_y_rel ≥ 0 then angle + 360
        else angle
      double_to_i32 (angle / segment_deg)

/-- The contract of the libm `sqrt` that the hit test relies on: compared with
the two radii, the square root of an `i32` value behaves like the exact square
root (the IEEE `sqrt` is correctly rounded, and 40 and 225 are `double`s). -/
def Libm.sqrt_exact_at_radii (L : Libm) : Prop :=
  ∀ n : Int, 0 ≤ n →
    (L.sqrt n < (SELECTION_CIRCLE_inner_r_px : ℚ) ↔ n < 1600) ∧
    ((SELECTION_CIRCLE_outer_r_px : ℚ) < L.sqrt n ↔ 50625 < n)

/-- The contract of the libm `atan` that the hit test relies on at angle 0:
`atan(0.0 / x)` is zero for `x ≠ 0`. -/
def Libm.atan_zero (L : Libm) : Prop := ∀ x : Int, x ≠ 0 → L.atan_div 0 x = 0

/-- A computable stand-in for libm: the integer square root, plus one half for
a value that is no perfect square, and a rational approximation of `atan` that
is exact at 0. -/
def Libm.sample : Libm :=
  { sqrt := fun n =>
      (Nat.sqrt n.toNat : ℚ)
        + (if Nat.sqrt n.toNat * Nat.sqrt n.toNat = n.toNat then 0 else 1 / 2)
    atan_div := fun y x =>
      if y = 0 then 0
      else if x = 0 then (if 0 < y then 1 else -1) * (3141 / 2000)
      else if |y| ≤ |x| then ((y : ℚ) / x) / (1 + 28 / 100 * ((y : ℚ) / x) ^ 2)
      else (if 0 < (y : ℚ) / x then 1 else -1) * (3141 / 2000)
        - ((y : ℚ) / x) / (((y : ℚ) / x) ^ 2 + 28 / 100) }

/-! ## Alpha blending (`blend_background`, xpaint.c 849-866) -/

/-- A `u32` value: arithmetic on `u32` is taken modulo `2^32`. -/
def u32 (n : Nat) : Nat := n % 4294967296

/-- The subtraction `a - b` of two `u32` values, modulo `2^32`. -/
def u32_sub (a b : Nat) : Nat := (a + 4294967296 - b % 4294967296) % 4294967296

/-- The alpha byte of a pixel, `(c >> 24) & 0xFF`. -/
def argb_alpha (c : argb) : Nat := (c >>> 24) &&& 0xFF

/-- The red byte of a pixel, `(c >> 16) & 0xFF`. -/
def argb_red (c : argb) : Nat := (c >>> 16) &&& 0xFF

/-- The green byte of a pixel, `(c >> 8) & 0xFF`. -/
def argb_green (c : argb) : Nat := (c >>> 8) &&& 0xFF

/-- The blue byte of a pixel, `c & 0xFF`. -/
def argb_blue (c : argb) : Nat := c &&& 0xFF

/-- The function `blend_background(fg, bg, a)`: every operand is a `u32`, so sums,
products and left shifts are reduced modulo `2^32`. -/
def blend_background (fg bg : argb) (a : Nat) : argb :=
  let fgr := (fg >>> 16) &&& 0xFF
  let fgg := (fg >>> 8) &&& 0xFF
  let fgb := fg &&& 0xFF
  let bgr := (bg >>> 16) &&& 0xFF
  let bgg := (bg >>> 8) &&& 0xFF
  let bgb := bg &&& 0xFF
  let alpha := u32 (a + 1)
  let inv_alpha := u32_sub 256 a
  let red := u32 (alpha * fgr + inv_alpha * bgr) >>> 8
  let green := u32 (alpha * fgg + inv_alpha * bgg) >>> 8
  let blue := u32 (alpha * fgb + inv_alpha * bgb) >>> 8
  u32 (0xFF <<< 24) ||| u32 (red <<< 16) ||| u32 (green <<< 8) ||| blue

/-! ## flood_fill with a record of the worklist pushes -/

/-- Body of the `for dir` loop of `flood_fill` for one direction `d`, acting on
the image, the worklist and the record of all `arrpush` calls made so far (oldest
first). -/
def flood_fill_dir_log (area_col targ_col : argb) (curr : Pair)
    (st : (XImage × List Pair) × List Pair) (d : Int × Int) :
    (XImage × List Pair) × List Pair :=
  let d_curr : Pair := ⟨curr.x + d.1, curr.y + d.2⟩
  if d_curr.x < 0 ∨ d_curr.y < 0 ∨ d_curr.x ≥ st.1.1.width ∨ d_curr.y ≥ st.1.1.height then
    st
  else if XGetPixel st.1.1 d_curr.x d_curr.y = area_col then
    ((XPutPixel st.1.1 d_curr.x d_curr.y targ_col, d_curr :: st.1.2), st.2 ++ [d_curr])
  else
    st

/-- The `while (arrlen(queue_arr))` loop of `flood_fill`, with the record of the
pushes. -/
def flood_fill_loop_log (area_col targ_col : argb) :
    Nat → XImage → List Pair → List Pair → Option (XImage × List Pair)
  | _, im, [], pushed => some (im, pushed)
  | 0, _, _ :: _, _ => none
  | fuel + 1, im, curr :: queue_arr, pushed =>
    let st := flood_dirs.foldl (flood_fill_dir_log area_col targ_col curr)
      ((im, queue_arr), pushed)
    flood_fill_loop_log area_col targ_col fuel st.1.1 st.1.2 st.2

/-- The function `flood_fill(im, targ_col, x, y)`, returning the image together
with the record of all coordinates pushed onto `queue_arr`, oldest first. -/
def flood_fill_log (fuel : Nat) (im : XImage) (targ_col : argb) (x y : Int) :
    Option (XImage × List Pair) :=
  if x < 0 ∨ y < 0 ∨ x ≥ im.width ∨ y ≥ im.height then
    some (im, [])
  else
    let area_col := XGetPixel im x y
    if area_col = targ_col then
      some (im, [])
    else
      flood_fill_loop_log area_col targ_col fuel im [⟨x, y⟩] [⟨x, y⟩]

/-- The function `tool_figure_on_drag`; the return value of `history_restore` is
dropped, as in the source. -/
def tool_figure_on_drag (fuel : Nat) (P : FloatPrims) (ctx : Ctx) (event : XMotionEvent) :
    Option Ctx :=
  if ctx.input.holding_button ≠ XLeftMouseBtn then some ctx
  else
    let ctx1 := (history_restore ctx).2
    let pointer := P.point_from_scr_to_cv_xy event.x event.y
    (canvas_figure fuel P ctx1.tc ctx1.dc.cv.im pointer ctx1.tc.sdata.anchor).map
      ctx1.with_canvas

/-! ## Radial menu items (xpaint.c 1392-1418, 2884-2888) -/

/-- The functions stored in the member `on_select` of the menu items. -/
inductive ItemCallback where
  | sel_circ_figure_set_circle
  | sel_circ_figure_set_rectangle
  | sel_circ_figure_set_triangle
  | sel_circ_figure_toggle_fill
  | sel_circ_set_tool_selection
  | sel_circ_set_tool_pencil
  | sel_circ_set_tool_fill
  | sel_circ_set_tool_picker
  | sel_circ_set_tool_brush
  | sel_circ_set_tool_figure
deriving DecidableEq, Repr

/-- The enumerators of `enum Icon` that the menu items use. -/
inductive Icon where
  | I_Select
  | I_Pencil
  | I_Fill
  | I_Picker
  | I_Brush
  | I_Figure
deriving DecidableEq, Repr

/-- The `struct Item` of the radial menu. -/
structure Item where
  on_select : ItemCallback
  icon : Icon
deriving DecidableEq, Repr

/-- The two `callbacks` arrays of `sel_circ_init`, chosen by the tag of the current
tool. -/
def sel_circ_callbacks (t : ToolTag) : List Item :=
  if t = .Tool_Figure then
    [⟨.sel_circ_figure_set_circle, .I_Figure⟩,
     ⟨.sel_circ_figure_set_rectangle, .I_Figure⟩,
     ⟨.sel_circ_figure_set_triangle, .I_Figure⟩,
     ⟨.sel_circ_figure_toggle_fill, .I_Fill⟩,
     ⟨.sel_circ_set_tool_pencil, .I_Pencil⟩]
  else
    [⟨.sel_circ_set_tool_selection, .I_Select⟩,
     ⟨.sel_circ_set_tool_pencil, .I_Pencil⟩,
     ⟨.sel_circ_set_tool_fill, .I_Fill⟩,
     ⟨.sel_circ_set_tool_picker, .I_Picker⟩,
     ⟨.sel_circ_set_tool_brush, .I_Brush⟩,
     ⟨.sel_circ_set_tool_figure, .I_Figure⟩]

/-- The function `sel_circ_init(ctx, x, y)`: the menu state it stores in `ctx->sc`,
with the array `items` as the second component. -/
def sel_circ_init (ctx : Ctx) (x y : Int) : SelectionCircle × List Item :=
  (⟨true, x, y, (sel_circ_callbacks ctx.tc.t).length⟩, sel_circ_callbacks ctx.tc.t)

/-- The item that `button_release_hdlr` reads on a secondary-button release at
`(x, y)`: `none` when the hit test returns `NIL`, else the array access
`items[selected_item]`, which is `some none` when the index is outside the array. -/
def button_release_item (L : Libm) (sc : SelectionCircle × List Item) (x y : Int) :
    Option (Option Item) :=
  let selected_item := sel_circ_curr_item L sc.1 x y
  if selected_item ≠ NIL then
    some (if selected_item < 0 then none else sc.2.get? selected_item.toNat)
  else none

/-! ## canvas_fill_triangle (xpaint.c 1841-1855)

The row count of a column is computed in `double`. The value of the `double`
expression is a parameter; the cast to `i32` is `double_to_i32`. -/

/-- The contract of the `double` expression `a * ((double)i / b)` that the loops of
`canvas_fill_triangle` rely on: for `0 ≤ i < b` and `0 ≤ a` its value lies between
0 and `a` (the quotient is below 1 and IEEE rounding is monotone). -/
def scale_in_range (D : Int → Int → Int → ℚ) : Prop :=
  ∀ a i b : Int, 0 ≤ a → 0 ≤ i → i < b → 0 ≤ D a i b ∧ D a i b ≤ (a : ℚ)

/-- A computable stand-in for the `double` expression `a * ((double)i / b)`: the
exact rational value. It is the IEEE value wherever quotient and product are
representable, as for `3 * (1.0 / 2)`. -/
def scale_exact (a i b : Int) : ℚ := (a : ℚ) * ((i : ℚ) / (b : ℚ))

/-- The function `canvas_fill_triangle(ctx, c, dims, col)` on the canvas image; `D a
i b` is the value of the `double` expression `a * ((double)i / b)`. -/
def canvas_fill_triangle (D : Int → Int → Int → ℚ) (im : XImage) (c dims : Pair)
    (col : argb) : XImage :=
  for_range 0 (abs32 dims.x)
    (fun im i =>
      let line_w := double_to_i32 (D (abs32 dims.y) i (abs32 dims.x))
      for_range 0 line_w
        (fun im j =>
          (ximage_put_checked im
            (to_u32 (wrap32 (c.x + (if dims.x > 0 then i else wrap32 (-i)))))
            (to_u32 (wrap32 (c.y + (if dims.y > 0 then j else wrap32 (-j))))) col).2) im)
    im

/-! # Theorems -/

/-! ## flood_fill -/

theorem flood_fill_dir_inv (im0 : XImage) (x y : Int) (targ_col : argb)
    (hne : im0.pix x y ≠ targ_col) (curr : Pair) (hcurr : Region im0 x y curr.x curr.y)
    (d : Int × Int) (hd : adj4 curr.x curr.y (curr.x + d.1) (curr.y + d.2))
    (st : XImage × List Pair) (hinv : FloodInv im0 x y targ_col st) :
    FloodInv im0 x y targ_col (flood_fill_dir (im0.pix x y) targ_col curr st d) := by
  obtain ⟨hw, hh, hpix, hq⟩ := hinv
  unfold flood_fill_dir
  simp only []
  split_ifs with hb hc
  · exact ⟨hw, hh, hpix, hq⟩
  · have horig : im0.pix (curr.x + d.1) (curr.y + d.2) = im0.pix x y := by
      by_contra hcon
      have hdiff : st.1.pix (curr.x + d.1) (curr.y + d.2) ≠ im0.pix (curr.x + d.1) (curr.y + d.2) := by
        intro h
        exact hcon (h ▸ hc)
      have := (hpix _ _ hdiff).2
      exact hne (by rw [← hc]; exact this)
    have hinb : im0.inb (curr.x + d.1) (curr.y + d.2) := by
      unfold XImage.inb
      rw [← hw, ← hh]
      omega
    have hreg : Region im0 x y (curr.x + d.1) (curr.y + d.2) :=
      Region.step hcurr hd hinb horig
    refine ⟨hw, hh, ?_, ?_⟩
    · intro a b hab
      simp only [XPutPixel] at hab ⊢
      by_cases hpt : a = curr.x + d.1 ∧ b = curr.y + d.2
      · obtain ⟨rfl, rfl⟩ := hpt
        simp only [and_self, if_true]
        exact ⟨hreg, trivial⟩
      · rw [if_neg hpt] at hab ⊢
        exact hpix a b hab
    · intro p hp
      simp only [List.mem_cons] at hp
      rcases hp with rfl | hp
      · exact hreg
      · exact hq p hp
  · exact ⟨hw, hh, hpix, hq⟩

theorem flood_dirs_fold_inv (im0 : XImage) (x y : Int) (targ_col : argb)
    (hne : im0.pix x y ≠ targ_col) (curr : Pair) (hcurr : Region im0 x y curr.x curr.y)
    (st : XImage × List Pair) (hinv : FloodInv im0 x y targ_col st) :
    FloodInv im0 x y targ_col
      (flood_dirs.foldl (flood_fill_dir (im0.pix x y) targ_col curr) st) := by
  simp only [flood_dirs, List.foldl]
  apply flood_fill_dir_inv im0 x y targ_col hne curr hcurr _ (by simp [adj4]; omega)
  apply flood_fill_dir_inv im0 x y targ_col hne curr hcurr _ (by simp [adj4]; omega)
  apply flood_fill_dir_inv im0 x y targ_col hne curr hcurr _ (by simp [adj4])
  apply flood_fill_dir_inv im0 x y targ_col hne curr hcurr _ (by simp [adj4])
  exact hinv

theorem flood_fill_loop_inv (im0 : XImage) (x y : Int) (targ_col : argb)
    (hne : im0.pix x y ≠ targ_col) :
    ∀ (fuel : Nat) (im : XImage) (queue_arr : List Pair) (res : XImage),
      FloodInv im0 x y targ_col (im, queue_arr) →
      flood_fill_loop (im0.pix x y) targ_col fuel im queue_arr = some res →
      FloodInv im0 x y targ_col (res, []) := by
  intro fuel
  induction fuel with
  | zero =>
    intro im queue_arr res hinv hres
    cases queue_arr with
    | nil =>
      simp only [flood_fill_loop, Option.some.injEq] at hres
      subst hres
      exact hinv
    | cons c q => simp [flood_fill_loop] at hres
  | succ n ih =>
    intro im queue_arr res hinv hres
    cases queue_arr with
    | nil =>
      simp only [flood_fill_loop, Option.some.injEq] at hres
      subst hres
      exact hinv
    | cons c q =>
      simp only [flood_fill_loop] at hres
      have hc : Region im0 x y c.x c.y := hinv.2.2.2 c (List.mem_cons_self _ _)
      have hinv' : FloodInv im0 x y targ_col (im, q) :=
        ⟨hinv.1, hinv.2.1, hinv.2.2.1, fun p hp => hinv.2.2.2 p (List.mem_cons_of_mem _ hp)⟩
      exact ih _ _ res (flood_dirs_fold_inv im0 x y targ_col hne c hc (im, q) hinv') hres

theorem count_col_put_lt (im : XImage) (a b : Int) (area_col targ_col : argb)
    (hinb : im.inb a b) (hcol : im.pix a b = area_col) (hne : area_col ≠ targ_col) :
    (XPutPixel im a b targ_col).count_col area_col < im.count_col area_col := by
  unfold XImage.count_col
  apply Finset.card_lt_card
  obtain ⟨h0a, h0b, haw, hbh⟩ := hinb
  rw [Finset.ssubset_iff_of_subset]
  · refine ⟨(a.toNat, b.toNat), ?_, ?_⟩
    · simp only [Finset.mem_filter, Finset.mem_product, Finset.mem_range]
      refine ⟨⟨by omega, by omega⟩, ?_⟩
      rw [Int.toNat_of_nonneg h0a, Int.toNat_of_nonneg h0b]
      exact hcol
    · simp only [Finset.mem_filter, Finset.mem_product, Finset.mem_range, XPutPixel, not_and]
      intro _
      rw [Int.toNat_of_nonneg h0a, Int.toNat_of_nonneg h0b]
      simp only [and_self, if_true]
      exact fun h => hne h.symm
  · intro p hp
    simp only [Finset.mem_filter, Finset.mem_product, Finset.mem_range, XPutPixel] at hp ⊢
    refine ⟨hp.1, ?_⟩
    have h2 := hp.2
    split_ifs at h2 with hpt
    · exact absurd h2.symm hne
    · exact h2

theorem flood_fill_dir_measure (area_col targ_col : argb) (hne : area_col ≠ targ_col)
    (curr : Pair) (d : Int × Int) (st : XImage × List Pair) :
    (flood_fill_dir area_col targ_col curr st d).1.count_col area_col
        + (flood_fill_dir area_col targ_col curr st d).2.length
      ≤ st.1.count_col area_col + st.2.length := by
  unfold flood_fill_dir
  simp only []
  split_ifs with hb hc
  · exact le_refl _
  · have hinb : st.1.inb (curr.x + d.1) (curr.y + d.2) := by
      unfold XImage.inb
      omega
    have := count_col_put_lt st.1 _ _ area_col targ_col hinb hc hne
    simp only [List.length_cons]
    omega
  · exact le_refl _

theorem flood_dirs_fold_measure (area_col targ_col : argb) (hne : area_col ≠ targ_col)
    (curr : Pair) (st : XImage × List Pair) :
    (flood_dirs.foldl (flood_fill_dir area_col targ_col curr) st).1.count_col area_col
        + (flood_dirs.foldl (flood_fill_dir area_col targ_col curr) st).2.length
      ≤ st.1.count_col area_col + st.2.length := by
  simp only [flood_dirs, List.foldl]
  refine le_trans (flood_fill_dir_measure area_col targ_col hne curr _ _) ?_
  refine le_trans (flood_fill_dir_measure area_col targ_col hne curr _ _) ?_
  refine le_trans (flood_fill_dir_measure area_col targ_col hne curr _ _) ?_
  exact flood_fill_dir_measure area_col targ_col hne curr _ _

/-- The worklist loop of `flood_fill` ends: fuel for as many iterations as there
are pixels of the area colour plus worklist entries suffices. -/
theorem flood_fill_loop_terminates (area_col targ_col : argb) (hne : area_col ≠ targ_col) :
    ∀ (fuel : Nat) (im : XImage) (queue_arr : List Pair),
      im.count_col area_col + queue_arr.length ≤ fuel →
      ∃ res, flood_fill_loop area_col targ_col fuel im queue_arr = some res := by
  intro fuel
  induction fuel with
  | zero =>
    intro im queue_arr hle
    cases queue_arr with
    | nil => exact ⟨im, by simp [flood_fill_loop]⟩
    | cons c q => simp at hle
  | succ n ih =>
    intro im queue_arr hle
    cases queue_arr with
    | nil => exact ⟨im, by simp [flood_fill_loop]⟩
    | cons c q =>
      simp only [flood_fill_loop]
      apply ih
      have := flood_dirs_fold_measure area_col targ_col hne c (im, q)
      simp only [List.length_cons] at hle
      simp only [] at this
      omega

/-- C1 (the code departs from the claim): on a 1×1 buffer of colour 0, filling
at (0,0) with colour 1 returns with the start pixel, which is its own region,
still of colour 0. -/
theorem flood_fill_isolated_start_unfilled :
    Region (XImage.uniform 1 1 0) 0 0 0 0 ∧
    ∀ fuel : Nat, (flood_fill (fuel + 1) (XImage.uniform 1 1 0) 1 0 0).map
      (fun im => im.pix 0 0) = some 0 := by
  refine ⟨Region.start (by decide), ?_⟩
  intro fuel
  simp [flood_fill, flood_fill_loop, flood_dirs, flood_fill_dir, XImage.uniform, XGetPixel]

/-- C2: `flood_fill` returns, and it changes no pixel outside the 4-connected
region of pixels of the start pixel's original colour around the start; a pixel
that changes gets the target colour; the size of the buffer is kept. -/
theorem flood_fill_frame (im : XImage) (targ_col : argb) (x y : Int) :
    (∃ fuel res, flood_fill fuel im targ_col x y = some res) ∧
    ∀ fuel res, flood_fill fuel im targ_col x y = some res →
      res.width = im.width ∧ res.height = im.height ∧
      ∀ a b, res.pix a b ≠ im.pix a b → Region im x y a b ∧ res.pix a b = targ_col := by
  by_cases hb : x < 0 ∨ y < 0 ∨ x ≥ im.width ∨ y ≥ im.height
  · have hff : ∀ fuel, flood_fill fuel im targ_col x y = some im := by
      intro fuel
      simp only [flood_fill, if_pos hb]
    refine ⟨⟨0, im, hff 0⟩, ?_⟩
    intro fuel res hres
    rw [hff fuel, Option.some.injEq] at hres
    subst hres
    exact ⟨rfl, rfl, fun a b h => absurd rfl h⟩
  by_cases hc : XGetPixel im x y = targ_col
  · have hff : ∀ fuel, flood_fill fuel im targ_col x y = some im := by
      intro fuel
      simp only [flood_fill, if_neg hb, if_pos hc]
    refine ⟨⟨0, im, hff 0⟩, ?_⟩
    intro fuel res hres
    rw [hff fuel, Option.some.injEq] at hres
    subst hres
    exact ⟨rfl, rfl, fun a b h => absurd rfl h⟩
  · have hff : ∀ fuel, flood_fill fuel im targ_col x y
        = flood_fill_loop (XGetPixel im x y) targ_col fuel im [⟨x, y⟩] := by
      intro fuel
      simp only [flood_fill, if_neg hb, if_neg hc]
    constructor
    · obtain ⟨res, hres⟩ := flood_fill_loop_terminates (XGetPixel im x y) targ_col hc
        (im.count_col (XGetPixel im x y) + 1) im [⟨x, y⟩] (by simp)
      exact ⟨_, res, (hff _).trans hres⟩
    · intro fuel res hres
      rw [hff fuel] at hres
      have hstart : im.inb x y := by unfold XImage.inb; omega
      have hinv0 : FloodInv im x y targ_col (im, [⟨x, y⟩]) := by
        refine ⟨rfl, rfl, fun a b h => absurd rfl h, ?_⟩
        intro p hp
        simp only [List.mem_singleton] at hp
        subst hp
        exact Region.start hstart
      have := flood_fill_loop_inv im x y targ_col hc fuel im [⟨x, y⟩] res hinv0 hres
      exact ⟨this.1, this.2.1, this.2.2.1⟩

/-- C3: `flood_fill` with a target colour equal to the colour at the start
returns the buffer unchanged. -/
theorem flood_fill_same_colour_noop (fuel : Nat) (im : XImage) (x y : Int) :
    flood_fill fuel im (XGetPixel im x y) x y = some im := by
  simp [flood_fill]

/-! ## canvas_line -/

theorem stamp_pixel_keeps_size (col : argb) : KeepsSize (stamp_pixel col) :=
  fun _ _ => ⟨rfl, rfl⟩

theorem wrap32_id (n : Int) (h1 : -2147483648 ≤ n) (h2 : n < 2147483648) : wrap32 n = n := by
  unfold wrap32
  omega

/-- The loop body of `canvas_line` agrees with `bres_step` on points between the
current point and `to_`. -/
theorem canvas_line_step_eq (to_ : Pair) (a b sx sy : Int)
    (hsx : sx = 1 ∨ sx = -1) (hsy : sy = 1 ∨ sy = -1)
    (error rx ry : Int) (hrx : 0 ≤ rx) (hry : 0 ≤ ry)
    (htx : 0 ≤ to_.x ∧ to_.x < 2147483648) (hty : 0 ≤ to_.y ∧ to_.y < 2147483648)
    (hpx : 0 ≤ to_.x - sx * rx ∧ to_.x - sx * rx < 2147483648)
    (hpy : 0 ≤ to_.y - sy * ry ∧ to_.y - sy * ry < 2147483648) :
    canvas_line_step to_ a sx (-b) sy error (walk_pos to_ sx sy (rx, ry))
      = (bres_step a b error rx ry).map
          (fun r => (r.1, walk_pos to_ sx sy (r.2.1, r.2.2))) := by
  have hx0 : to_.x - sx * rx = to_.x ↔ rx = 0 := by
    rcases hsx with rfl | rfl <;> constructor <;> intro h <;> omega
  have hy0 : to_.y - sy * ry = to_.y ↔ ry = 0 := by
    rcases hsy with rfl | rfl <;> constructor <;> intro h <;> omega
  have hwx : rx ≠ 0 → wrap32 (to_.x - sx * rx + sx) = to_.x - sx * (rx - 1) := by
    intro h
    have : to_.x - sx * rx + sx = to_.x - sx * (rx - 1) := by ring
    rw [this]
    apply wrap32_id <;> rcases hsx with rfl | rfl <;> omega
  have hwy : ry ≠ 0 → wrap32 (to_.y - sy * ry + sy) = to_.y - sy * (ry - 1) := by
    intro h
    have : to_.y - sy * ry + sy = to_.y - sy * (ry - 1) := by ring
    rw [this]
    apply wrap32_id <;> rcases hsy with rfl | rfl <;> omega
  simp only [canvas_line_step, bres_step, walk_pos, hx0, hy0]
  split_ifs <;> simp_all

theorem bres_step_le (a b error rx ry : Int) (hrx : 0 ≤ rx) (hry : 0 ≤ ry)
    (r : Int × Int × Int) (h : bres_step a b error rx ry = some r) :
    0 ≤ r.2.1 ∧ r.2.1 ≤ rx ∧ 0 ≤ r.2.2 ∧ r.2.2 ≤ ry := by
  unfold bres_step at h
  simp only [] at h
  split_ifs at h <;> simp only [Option.some.injEq] at h <;> subst h <;> simp only [] <;> omega

/-- A point at smaller remaining distances lies between the current point and
`to_`, so inside the raster when those two do. -/
theorem walk_pos_between (to_ : Pair) (sx sy : Int)
    (hsx : sx = 1 ∨ sx = -1) (hsy : sy = 1 ∨ sy = -1) (W H : Int)
    (rx ry rx1 ry1 : Int) (h1 : 0 ≤ rx1 ∧ rx1 ≤ rx) (h2 : 0 ≤ ry1 ∧ ry1 ≤ ry)
    (hto : 0 ≤ to_.x ∧ to_.x < W ∧ 0 ≤ to_.y ∧ to_.y < H)
    (hp : 0 ≤ to_.x - sx * rx ∧ to_.x - sx * rx < W ∧ 0 ≤ to_.y - sy * ry ∧ to_.y - sy * ry < H) :
    0 ≤ to_.x - sx * rx1 ∧ to_.x - sx * rx1 < W ∧
      0 ≤ to_.y - sy * ry1 ∧ to_.y - sy * ry1 < H := by
  rcases hsx with rfl | rfl <;> rcases hsy with rfl | rfl <;> omega

/-- The loop of `canvas_line` started between two points of the raster stamps
the points of `bres_walk`. -/
theorem canvas_line_loop_eq (draw : XImage → Pair → XImage) (hdraw : KeepsSize draw)
    (to_ : Pair) (a b sx sy : Int) (hsx : sx = 1 ∨ sx = -1) (hsy : sy = 1 ∨ sy = -1)
    (W H : Int) (hW : W ≤ 2147483648) (hH : H ≤ 2147483648)
    (hto : 0 ≤ to_.x ∧ to_.x < W ∧ 0 ≤ to_.y ∧ to_.y < H) :
    ∀ (fuel : Nat) (im : XImage) (error rx ry : Int), 0 ≤ rx → 0 ≤ ry →
      im.width = W → im.height = H →
      (0 ≤ to_.x - sx * rx ∧ to_.x - sx * rx < W ∧
        0 ≤ to_.y - sy * ry ∧ to_.y - sy * ry < H) →
      canvas_line_loop draw to_ a sx (-b) sy fuel im error (walk_pos to_ sx sy (rx, ry))
        = (bres_walk a b fuel error rx ry).map
            (fun t => ((t.map (walk_pos to_ sx sy)).foldl draw im, t.map (walk_pos to_ sx sy))) := by
  intro fuel
  induction fuel with
  | zero =>
    intro im error rx ry _ _ _ _ _
    simp [canvas_line_loop, bres_walk]
  | succ n ih =>
    intro im error rx ry hrx hry hw hh hp
    have hstep := canvas_line_step_eq to_ a b sx sy hsx hsy error rx ry hrx hry
      ⟨hto.1, by omega⟩ ⟨hto.2.2.1, by omega⟩ ⟨hp.1, by omega⟩ ⟨hp.2.2.1, by omega⟩
    have hin : (walk_pos to_ sx sy (rx, ry)).x ≥ 0 ∧ (walk_pos to_ sx sy (rx, ry)).y ≥ 0 ∧
        (walk_pos to_ sx sy (rx, ry)).x < im.width ∧
        (walk_pos to_ sx sy (rx, ry)).y < im.height := by
      simp only [walk_pos, hw, hh]
      omega
    simp only [canvas_line_loop, bres_walk, if_pos hin, hstep]
    cases hbs : bres_step a b error rx ry with
    | none => simp
    | some r =>
      obtain ⟨e1, rx1, ry1⟩ := r
      have hle := bres_step_le a b error rx ry hrx hry _ hbs
      simp only [] at hle
      have hp1 := walk_pos_between to_ sx sy hsx hsy W H rx ry rx1 ry1
        ⟨hle.1, hle.2.1⟩ ⟨hle.2.2.1, hle.2.2.2⟩ hto hp
      have hd := hdraw im (walk_pos to_ sx sy (rx, ry))
      simp only [Option.map_some']
      rw [ih (draw im (walk_pos to_ sx sy (rx, ry))) e1 rx1 ry1 hle.1 hle.2.2.1
        (hd.1.trans hw) (hd.2.trans hh) hp1]
      cases bres_walk a b n e1 rx1 ry1 <;> simp

/-- The distance between two coordinates of a raster of side at most `2^31`, as
`canvas_line` computes it. -/
theorem abs32_dist (p q W : Int) (hW : W ≤ 2147483648) (hp : 0 ≤ p ∧ p < W) (hq : 0 ≤ q ∧ q < W) :
    abs32 (wrap32 (q - p)) = |q - p| := by
  rw [wrap32_id _ (by omega) (by omega)]
  unfold abs32
  split_ifs with h
  · rw [wrap32_id _ (by omega) (by omega), abs_of_neg h]
  · rw [abs_of_nonneg (by omega)]

/-- The function `canvas_line` between two points of the raster stamps the points
of `bres_walk`. -/
theorem canvas_line_eq_walk (draw : XImage → Pair → XImage) (hdraw : KeepsSize draw)
    (im : XImage) (hW : im.width ≤ 2147483648) (hH : im.height ≤ 2147483648)
    (from_ to_ : Pair) (hfrom : im.inb from_.x from_.y) (hto : im.inb to_.x to_.y) (fuel : Nat) :
    canvas_line fuel draw im from_ to_
      = (bres_walk |to_.x - from_.x| |to_.y - from_.y| fuel
            (|to_.x - from_.x| - |to_.y - from_.y|) |to_.x - from_.x| |to_.y - from_.y|).map
          (fun t =>
            ((t.map (walk_pos to_ (if from_.x < to_.x then 1 else -1)
                (if from_.y < to_.y then 1 else -1))).foldl draw im,
              t.map (walk_pos to_ (if from_.x < to_.x then 1 else -1)
                (if from_.y < to_.y then 1 else -1)))) := by
  obtain ⟨hf1, hf2, hf3, hf4⟩ := hfrom
  obtain ⟨ht1, ht2, ht3, ht4⟩ := hto
  have hdx := abs32_dist from_.x to_.x im.width hW ⟨hf1, hf3⟩ ⟨ht1, ht3⟩
  have hdy := abs32_dist from_.y to_.y im.height hH ⟨hf2, hf4⟩ ⟨ht2, ht4⟩
  have hax : |to_.x - from_.x| = (if from_.x < to_.x then 1 else -1) * (to_.x - from_.x) := by
    split_ifs with h
    · rw [abs_of_nonneg (by omega)]; ring
    · rw [abs_of_nonpos (by omega)]; ring
  have hay : |to_.y - from_.y| = (if from_.y < to_.y then 1 else -1) * (to_.y - from_.y) := by
    split_ifs with h
    · rw [abs_of_nonneg (by omega)]; ring
    · rw [abs_of_nonpos (by omega)]; ring
  have hsx : (if from_.x < to_.x then (1 : Int) else -1) = 1 ∨
      (if from_.x < to_.x then (1 : Int) else -1) = -1 := by
    split_ifs <;> simp
  have hsy : (if from_.y < to_.y then (1 : Int) else -1) = 1 ∨
      (if from_.y < to_.y then (1 : Int) else -1) = -1 := by
    split_ifs <;> simp
  have hpx : to_.x - (if from_.x < to_.x then 1 else -1) * |to_.x - from_.x| = from_.x := by
    rw [hax]
    split_ifs <;> ring
  have hpy : to_.y - (if from_.y < to_.y then 1 else -1) * |to_.y - from_.y| = from_.y := by
    rw [hay]
    split_ifs <;> ring
  have hpos : walk_pos to_ (if from_.x < to_.x then 1 else -1)
      (if from_.y < to_.y then 1 else -1) (|to_.x - from_.x|, |to_.y - from_.y|) = from_ := by
    simp only [walk_pos, hpx, hpy]
  have hax0 : 0 ≤ |to_.x - from_.x| := abs_nonneg _
  have hay0 : 0 ≤ |to_.y - from_.y| := abs_nonneg _
  have haxW : |to_.x - from_.x| < im.width := by
    rw [abs_lt]; constructor <;> omega
  have hayH : |to_.y - from_.y| < im.height := by
    rw [abs_lt]; constructor <;> omega
  have key := canvas_line_loop_eq draw hdraw to_ |to_.x - from_.x| |to_.y - from_.y| _ _
    hsx hsy im.width im.height hW hH ⟨ht1, ht3, ht2, ht4⟩ fuel im
    (|to_.x - from_.x| - |to_.y - from_.y|) |to_.x - from_.x| |to_.y - from_.y|
    hax0 hay0 rfl rfl (by rw [hpx, hpy]; exact ⟨hf1, hf3, hf2, hf4⟩)
  rw [hpos] at key
  rw [← key]
  simp only [canvas_line, hdx, hdy]
  rw [wrap32_id (-|to_.y - from_.y|) (by omega) (by omega),
    wrap32_id (|to_.x - from_.x| + -|to_.y - from_.y|) (by omega) (by omega)]
  rfl

/-- The invariant of the Bresenham walk: the error term is determined by the
remaining distances and stays within one and a half extents. -/
theorem bres_step_inv (a b : Int) (ha : 3 * a < 2147483648) (hb : 3 * b < 2147483648)
    (error rx ry : Int) (hrx : 0 ≤ rx ∧ rx ≤ a) (hry : 0 ≤ ry ∧ ry ≤ b)
    (he : error = a - b + rx * b - ry * a) (hlo : -(3 * b) ≤ 2 * error)
    (hhi : 2 * error ≤ 3 * a) :
    (bres_step a b error rx ry = none → rx = 0 ∧ ry = 0) ∧
    (∀ r, bres_step a b error rx ry = some r →
      (0 ≤ r.2.1 ∧ r.2.1 ≤ a) ∧ (0 ≤ r.2.2 ∧ r.2.2 ≤ b) ∧
      r.2.1 + r.2.2 + 1 ≤ rx + ry ∧
      r.1 = a - b + r.2.1 * b - r.2.2 * a ∧ -(3 * b) ≤ 2 * r.1 ∧ 2 * r.1 ≤ 3 * a) := by
  have hP : rx ≠ 0 → b ≤ rx * b := by
    intro h
    have h1 : 1 ≤ rx := by omega
    nlinarith
  have hQ : ry ≠ 0 → a ≤ ry * a := by
    intro h
    have h1 : 1 ≤ ry := by omega
    nlinarith
  have h2e : wrap32 (2 * error) = 2 * error := wrap32_id _ (by omega) (by omega)
  have hfx : a - b + (rx - 1) * b - ry * a = error + -b := by rw [he]; ring
  have hfy : a - b + rx * b - (ry - 1) * a = error + a := by rw [he]; ring
  have hfxy : a - b + (rx - 1) * b - (ry - 1) * a = error + -b + a := by rw [he]; ring
  unfold bres_step
  simp only [h2e]
  constructor
  · intro h
    split_ifs at h with h0 h1 h2 h3 h4 h5 h6
    · exact h0
    · -- x branch entered with rx = 0
      exfalso
      have hry0 : ry ≠ 0 := fun h => h0 ⟨h2, h⟩
      have := hQ hry0
      rw [h2] at he
      have hb1 : 1 ≤ b := by omega
      omega
    · exfalso
      have := hP h2
      rw [h4] at he
      have ha1 : 1 ≤ a := by omega
      omega
    · exfalso
      have hrx0 : rx ≠ 0 := fun h => h0 ⟨h, h6⟩
      have := hP hrx0
      rw [h6] at he
      have ha1 : 1 ≤ a := by omega
      omega
  · intro r h
    split_ifs at h with h0 h1 h2 h3 h4 h5 h6
    · simp only [Option.some.injEq] at h
      subst h
      have hw1 : wrap32 (error + -b) = error + -b := wrap32_id _ (by omega) (by omega)
      rw [hw1]
      have hw2 : wrap32 (error + -b + a) = error + -b + a := wrap32_id _ (by omega) (by omega)
      rw [hw2]
      simp only []
      rw [hfxy]
      refine ⟨by omega, by omega, by omega, rfl, by omega, by omega⟩
    · simp only [Option.some.injEq] at h
      subst h
      have hw1 : wrap32 (error + -b) = error + -b := wrap32_id _ (by omega) (by omega)
      rw [hw1]
      simp only []
      rw [hfx]
      refine ⟨by omega, by omega, by omega, rfl, by omega, by omega⟩
    · simp only [Option.some.injEq] at h
      subst h
      have hw1 : wrap32 (error + a) = error + a := wrap32_id _ (by omega) (by omega)
      rw [hw1]
      simp only []
      rw [hfy]
      refine ⟨by omega, by omega, by omega, rfl, by omega, by omega⟩
    · exfalso
      omega

/-- The Bresenham walk reaches remaining distance `(0, 0)` and stops there. -/
theorem bres_walk_reaches (a b : Int) (ha : 3 * a < 2147483648) (hb : 3 * b < 2147483648) :
    ∀ (n fuel : Nat) (error rx ry : Int), 0 ≤ rx ∧ rx ≤ a → 0 ≤ ry ∧ ry ≤ b →
      rx + ry ≤ n → error = a - b + rx * b - ry * a →
      -(3 * b) ≤ 2 * error → 2 * error ≤ 3 * a → n + 1 ≤ fuel →
      ∃ init, bres_walk a b fuel error rx ry = some (init ++ [(0, 0)]) ∧
        (0, 0) ∉ init ∧ (init ++ [((0 : Int), (0 : Int))]).head? = some (rx, ry) := by
  intro n
  induction n with
  | zero =>
    intro fuel error rx ry hrx hry hn he hlo hhi hfuel
    obtain ⟨f, rfl⟩ : ∃ f, fuel = f + 1 := ⟨fuel - 1, by omega⟩
    have hinv := bres_step_inv a b ha hb error rx ry hrx hry he hlo hhi
    have h0x : rx = 0 := by omega
    have h0y : ry = 0 := by push_cast at hn; omega
    subst h0x h0y
    refine ⟨[], ?_, by simp, by simp⟩
    simp [bres_walk, bres_step]
  | succ n ih =>
    intro fuel error rx ry hrx hry hn he hlo hhi hfuel
    obtain ⟨f, rfl⟩ : ∃ f, fuel = f + 1 := ⟨fuel - 1, by omega⟩
    have hinv := bres_step_inv a b ha hb error rx ry hrx hry he hlo hhi
    simp only [bres_walk]
    cases hbs : bres_step a b error rx ry with
    | none =>
      obtain ⟨h0x, h0y⟩ := hinv.1 hbs
      subst h0x h0y
      exact ⟨[], by simp, by simp, by simp⟩
    | some r =>
      obtain ⟨e1, rx1, ry1⟩ := r
      obtain ⟨h1, h2, h3, h4, h5, h6⟩ := hinv.2 _ hbs
      simp only [] at h1 h2 h3 h4 h5 h6
      obtain ⟨init, hw, hni, _⟩ := ih f e1 rx1 ry1 h1 h2 (by push_cast at hn; omega) h4 h5 h6
        (by omega)
      refine ⟨(rx, ry) :: init, ?_, ?_, by simp⟩
      · simp only [hw, Option.map_some', List.cons_append]
      · simp only [List.mem_cons, not_or]
        refine ⟨?_, hni⟩
        intro h
        simp only [Prod.mk.injEq] at h
        omega

theorem bres_walk_bounds (a b : Int) :
    ∀ (fuel : Nat) (error rx ry : Int) (t : List (Int × Int)), 0 ≤ rx → 0 ≤ ry →
      bres_walk a b fuel error rx ry = some t →
      ∀ r ∈ t, (0 ≤ r.1 ∧ r.1 ≤ rx) ∧ (0 ≤ r.2 ∧ r.2 ≤ ry) := by
  intro fuel
  induction fuel with
  | zero =>
    intro error rx ry t _ _ h
    simp [bres_walk] at h
  | succ n ih =>
    intro error rx ry t hrx hry h
    simp only [bres_walk] at h
    cases hbs : bres_step a b error rx ry with
    | none =>
      rw [hbs] at h
      simp only [Option.some.injEq] at h
      subst h
      intro r hr
      simp only [List.mem_singleton] at hr
      subst hr
      simp only []
      omega
    | some r1 =>
      obtain ⟨e1, rx1, ry1⟩ := r1
      rw [hbs] at h
      have hle := bres_step_le a b error rx ry hrx hry _ hbs
      simp only [] at hle h
      cases hw : bres_walk a b n e1 rx1 ry1 with
      | none => rw [hw] at h; simp at h
      | some t1 =>
        rw [hw] at h
        simp only [Option.map_some', Option.some.injEq] at h
        subst h
        intro r hr
        simp only [List.mem_cons] at hr
        rcases hr with rfl | hr
        · simp only []; omega
        · have := ih e1 rx1 ry1 t1 hle.1 hle.2.2.1 hw r hr
          omega

/-- The walk of a horizontal line: the remaining distance in `x` counts down to
zero, one step per iteration. -/
theorem bres_walk_horizontal (a : Int) (ha : a < 1073741824) :
    ∀ (n fuel : Nat), (n : Int) ≤ a → n + 1 ≤ fuel →
      bres_walk a 0 fuel a n 0
        = some ((List.range (n + 1)).map (fun k : Nat => ((n : Int) - (k : Int), (0 : Int)))) := by
  intro n
  induction n with
  | zero =>
    intro fuel _ hfuel
    obtain ⟨f, rfl⟩ : ∃ f, fuel = f + 1 := ⟨fuel - 1, by omega⟩
    simp [bres_walk, bres_step]
    rfl
  | succ n ih =>
    intro fuel hn hfuel
    obtain ⟨f, rfl⟩ : ∃ f, fuel = f + 1 := ⟨fuel - 1, by omega⟩
    push_cast at hn
    have h2e : wrap32 (2 * a) = 2 * a := wrap32_id _ (by omega) (by omega)
    have hea : wrap32 (a + -0) = a := by
      rw [show a + -0 = a by ring]
      exact wrap32_id _ (by omega) (by omega)
    have hstep : bres_step a 0 a ((n : Int) + 1) 0 = some (a, (n : Int), 0) := by
      unfold bres_step
      simp only [h2e, hea]
      rw [if_neg (by omega), if_pos (by omega), if_neg (by omega), if_neg (by omega)]
      simp
    simp only [bres_walk, Nat.cast_add, Nat.cast_one, hstep]
    rw [ih f (by omega) (by omega)]
    rw [List.range_succ_eq_map (n + 1)]
    simp only [Option.map_some', List.map_cons, List.map_map, Nat.cast_zero, sub_zero]
    congr 2
    apply List.map_congr_left
    intro k _
    simp only [Function.comp, Nat.succ_eq_add_one, Nat.cast_add, Nat.cast_one, Prod.mk.injEq,
      and_true]
    ring

/-- The walk of a vertical line: the remaining distance in `y` counts down to
zero, one step per iteration. -/
theorem bres_walk_vertical (b : Int) (hb : b < 1073741824) :
    ∀ (n fuel : Nat), (n : Int) ≤ b → n + 1 ≤ fuel →
      bres_walk 0 b fuel (-b) 0 n
        = some ((List.range (n + 1)).map (fun k : Nat => ((0 : Int), (n : Int) - (k : Int)))) := by
  intro n
  induction n with
  | zero =>
    intro fuel _ hfuel
    obtain ⟨f, rfl⟩ : ∃ f, fuel = f + 1 := ⟨fuel - 1, by omega⟩
    simp [bres_walk, bres_step]
    rfl
  | succ n ih =>
    intro fuel hn hfuel
    obtain ⟨f, rfl⟩ : ∃ f, fuel = f + 1 := ⟨fuel - 1, by omega⟩
    push_cast at hn
    have h2e : wrap32 (2 * -b) = 2 * -b := wrap32_id _ (by omega) (by omega)
    have hea : wrap32 (-b + 0) = -b := by
      rw [show -b + 0 = -b by ring]
      exact wrap32_id _ (by omega) (by omega)
    have hstep : bres_step 0 b (-b) 0 ((n : Int) + 1) = some (-b, 0, (n : Int)) := by
      unfold bres_step
      simp only [h2e, hea]
      rw [if_neg (by omega), if_neg (by omega), if_pos (by omega), if_neg (by omega)]
      simp
    simp only [bres_walk, Nat.cast_add, Nat.cast_one, hstep]
    rw [ih f (by omega) (by omega)]
    rw [List.range_succ_eq_map (n + 1)]
    simp only [Option.map_some', List.map_cons, List.map_map, Nat.cast_zero, sub_zero]
    congr 2
    apply List.map_congr_left
    intro k _
    simp only [Function.comp, Nat.succ_eq_add_one, Nat.cast_add, Nat.cast_one, Prod.mk.injEq,
      true_and]
    ring

/-- Reversing a list indexed by `0, ..., n` is indexing it by `n, ..., 0`. -/
theorem map_range_reverse {α : Type} (f : Nat → α) (n : Nat) :
    ((List.range (n + 1)).map f).reverse = (List.range (n + 1)).map (fun k => f (n - k)) := by
  rw [← List.map_reverse, List.range_eq_range', List.reverse_range', List.map_map,
    ← List.range_eq_range']
  apply List.map_congr_left
  intro k _
  simp only [Function.comp]
  congr 1
  omega

/-- C4: a horizontal line from `(x0, y)` to `(x1, y)` with `x0 ≤ x1` inside the
canvas stamps exactly `(x0, y), (x0 + 1, y), ..., (x1, y)`, in that order, once
each. -/
theorem canvas_line_horizontal (draw : XImage → Pair → XImage) (hdraw : KeepsSize draw)
    (im : XImage) (hfit : im.fits_i32) (x0 x1 y : Int) (hle : x0 ≤ x1)
    (h0 : im.inb x0 y) (h1 : im.inb x1 y) :
    ∃ n : Nat, ∀ fuel : Nat, n ≤ fuel →
      canvas_line fuel draw im ⟨x0, y⟩ ⟨x1, y⟩
        = some (((List.range (x1 - x0 + 1).toNat).map
                  (fun k : Nat => (⟨x0 + (k : Int), y⟩ : Pair))).foldl draw im,
                (List.range (x1 - x0 + 1).toNat).map
                  (fun k : Nat => (⟨x0 + (k : Int), y⟩ : Pair))) := by
  obtain ⟨hw, hh⟩ := hfit
  obtain ⟨a0, a1, a2, a3⟩ := h0
  obtain ⟨b0, b1, b2, b3⟩ := h1
  refine ⟨(x1 - x0).toNat + 1, ?_⟩
  intro fuel hfuel
  rw [canvas_line_eq_walk draw hdraw im (by omega) (by omega) ⟨x0, y⟩ ⟨x1, y⟩
    ⟨a0, a1, a2, a3⟩ ⟨b0, b1, b2, b3⟩ fuel]
  simp only [sub_self, abs_zero, sub_zero]
  have habs : |x1 - x0| = ((x1 - x0).toNat : Int) := by
    rw [abs_of_nonneg (by omega), Int.toNat_of_nonneg (by omega)]
  have hwalk := bres_walk_horizontal |x1 - x0| (by rw [habs]; omega) (x1 - x0).toNat fuel
    (by rw [habs]) hfuel
  rw [← habs] at hwalk
  rw [hwalk]
  have hn : (x1 - x0 + 1).toNat = (x1 - x0).toNat + 1 := by omega
  have hpts : List.map (walk_pos ⟨x1, y⟩ (if x0 < x1 then 1 else -1) (if y < y then 1 else -1))
      (List.map (fun k : Nat => (|x1 - x0| - (k : Int), (0 : Int)))
        (List.range ((x1 - x0).toNat + 1)))
      = (List.range (x1 - x0 + 1).toNat).map (fun k : Nat => (⟨x0 + (k : Int), y⟩ : Pair)) := by
    rw [hn, List.map_map]
    apply List.map_congr_left
    intro k hk
    rw [List.mem_range] at hk
    simp only [Function.comp, walk_pos, mul_zero, sub_zero, Pair.mk.injEq, and_true]
    rw [abs_of_nonneg (by omega)]
    split_ifs with hlt
    · ring
    · omega
  simp only [Option.map_some', hpts]

/-- The line from (0,0) to (3,0) on a 5×5 canvas, an instance of C4. -/
theorem canvas_line_horizontal_witness :
    KeepsSize (stamp_pixel 1) ∧ (XImage.uniform 5 5 0).fits_i32 ∧ (0 : Int) ≤ 3 ∧
    (XImage.uniform 5 5 0).inb 0 0 ∧ (XImage.uniform 5 5 0).inb 3 0 ∧
    ∃ n : Nat, ∀ fuel : Nat, n ≤ fuel →
      canvas_line fuel (stamp_pixel 1) (XImage.uniform 5 5 0) ⟨0, 0⟩ ⟨3, 0⟩
        = some (((List.range ((3 : Int) - 0 + 1).toNat).map
                  (fun k : Nat => (⟨0 + (k : Int), 0⟩ : Pair))).foldl
                    (stamp_pixel 1) (XImage.uniform 5 5 0),
                (List.range ((3 : Int) - 0 + 1).toNat).map
                  (fun k : Nat => (⟨0 + (k : Int), 0⟩ : Pair))) :=
  ⟨stamp_pixel_keeps_size 1, by decide, by decide, by decide, by decide,
    canvas_line_horizontal (stamp_pixel 1) (stamp_pixel_keeps_size 1) (XImage.uniform 5 5 0)
      (by decide) 0 3 0 (by decide) (by decide) (by decide)⟩

/-- C6: between two points of the canvas, the points `canvas_line` stamps start
with `from` and end with `to`, and `to` is stamped only as the last point. -/
theorem canvas_line_ends_at_to (draw : XImage → Pair → XImage) (hdraw : KeepsSize draw)
    (im : XImage) (hfit : im.fits_i32) (from_ to_ : Pair)
    (hfrom : im.inb from_.x from_.y) (hto : im.inb to_.x to_.y) :
    ∃ n : Nat, ∀ fuel : Nat, n ≤ fuel →
      ∃ init, canvas_line fuel draw im from_ to_
          = some ((init ++ [to_]).foldl draw im, init ++ [to_]) ∧
        to_ ∉ init ∧ (init ++ [to_]).head? = some from_ := by
  obtain ⟨hw, hh⟩ := hfit
  have hfrom' := hfrom
  have hto' := hto
  obtain ⟨a0, a1, a2, a3⟩ := hfrom'
  obtain ⟨b0, b1, b2, b3⟩ := hto'
  have hax0 : 0 ≤ |to_.x - from_.x| := abs_nonneg _
  have hay0 : 0 ≤ |to_.y - from_.y| := abs_nonneg _
  have haxW : |to_.x - from_.x| < im.width := by
    rw [abs_lt]; constructor <;> omega
  have hayH : |to_.y - from_.y| < im.height := by
    rw [abs_lt]; constructor <;> omega
  refine ⟨(|to_.x - from_.x| + |to_.y - from_.y|).toNat + 1, ?_⟩
  intro fuel hfuel
  rw [canvas_line_eq_walk draw hdraw im (by omega) (by omega) from_ to_ hfrom hto fuel]
  obtain ⟨init, hwalk, hni, hhead⟩ := bres_walk_reaches |to_.x - from_.x| |to_.y - from_.y|
    (by omega) (by omega) (|to_.x - from_.x| + |to_.y - from_.y|).toNat fuel
    (|to_.x - from_.x| - |to_.y - from_.y|) |to_.x - from_.x| |to_.y - from_.y|
    ⟨hax0, le_refl _⟩ ⟨hay0, le_refl _⟩ (by omega) (by ring) (by omega) (by omega) hfuel
  rw [hwalk]
  have hsx : (if from_.x < to_.x then (1 : Int) else -1) = 1 ∨
      (if from_.x < to_.x then (1 : Int) else -1) = -1 := by
    split_ifs <;> simp
  have hsy : (if from_.y < to_.y then (1 : Int) else -1) = 1 ∨
      (if from_.y < to_.y then (1 : Int) else -1) = -1 := by
    split_ifs <;> simp
  have hp0 : walk_pos to_ (if from_.x < to_.x then 1 else -1)
      (if from_.y < to_.y then 1 else -1) (0, 0) = to_ := by
    simp [walk_pos]
  have hpfrom : walk_pos to_ (if from_.x < to_.x then 1 else -1)
      (if from_.y < to_.y then 1 else -1) (|to_.x - from_.x|, |to_.y - from_.y|) = from_ := by
    have e1 : to_.x - (if from_.x < to_.x then 1 else -1) * |to_.x - from_.x| = from_.x := by
      split_ifs with h
      · rw [abs_of_nonneg (by omega)]; ring
      · rw [abs_of_nonpos (by omega)]; ring
    have e2 : to_.y - (if from_.y < to_.y then 1 else -1) * |to_.y - from_.y| = from_.y := by
      split_ifs with h
      · rw [abs_of_nonneg (by omega)]; ring
      · rw [abs_of_nonpos (by omega)]; ring
    simp only [walk_pos, e1, e2]
  refine ⟨init.map (walk_pos to_ (if from_.x < to_.x then 1 else -1)
      (if from_.y < to_.y then 1 else -1)), ?_, ?_, ?_⟩
  · simp only [Option.map_some', List.map_append, List.map_cons, List.map_nil, hp0]
  · intro hmem
    rw [List.mem_map] at hmem
    obtain ⟨r, hr, hpr⟩ := hmem
    have hr0 : r = (0, 0) := by
      obtain ⟨r1, r2⟩ := r
      have hx : to_.x - (if from_.x < to_.x then 1 else -1) * r1 = to_.x := by
        have := congrArg Pair.x hpr
        simpa [walk_pos] using this
      have hy : to_.y - (if from_.y < to_.y then 1 else -1) * r2 = to_.y := by
        have := congrArg Pair.y hpr
        simpa [walk_pos] using this
      have h1 : r1 = 0 := by
        rcases hsx with h | h <;> rw [h] at hx <;> omega
      have h2 : r2 = 0 := by
        rcases hsy with h | h <;> rw [h] at hy <;> omega
      rw [h1, h2]
    exact hni (hr0 ▸ hr)
  · have hh2 : (List.map (walk_pos to_ (if from_.x < to_.x then 1 else -1)
        (if from_.y < to_.y then 1 else -1)) (init ++ [(0, 0)])).head? = some from_ := by
      rw [List.head?_map, hhead, Option.map_some', hpfrom]
    simpa only [List.map_append, List.map_cons, List.map_nil, hp0] using hh2

/-- The line from (4,1) to (0,3) on a 5×5 canvas, an instance of C6. -/
theorem canvas_line_ends_at_to_witness :
    KeepsSize (stamp_pixel 1) ∧ (XImage.uniform 5 5 0).fits_i32 ∧
    (XImage.uniform 5 5 0).inb 4 1 ∧ (XImage.uniform 5 5 0).inb 0 3 ∧
    ∃ n : Nat, ∀ fuel : Nat, n ≤ fuel →
      ∃ init, canvas_line fuel (stamp_pixel 1) (XImage.uniform 5 5 0) ⟨4, 1⟩ ⟨0, 3⟩
          = some ((init ++ [⟨0, 3⟩]).foldl (stamp_pixel 1) (XImage.uniform 5 5 0),
              init ++ [⟨0, 3⟩]) ∧
        (⟨0, 3⟩ : Pair) ∉ init ∧ (init ++ [(⟨0, 3⟩ : Pair)]).head? = some ⟨4, 1⟩ :=
  ⟨stamp_pixel_keeps_size 1, by decide, by decide, by decide,
    canvas_line_ends_at_to (stamp_pixel 1) (stamp_pixel_keeps_size 1) (XImage.uniform 5 5 0)
      (by decide) ⟨4, 1⟩ ⟨0, 3⟩ (by decide) (by decide)⟩

/-- On an axis, the point `n - k` steps before `p` in the walk towards `p` is the
point `k` steps before `q` in the walk towards `q`, when `n` is the distance of
`p` and `q`. -/
theorem axis_mirror (p q : Int) (n k : Nat) (hn : (n : Int) = |q - p|) (hk : k ≤ n) :
    p - (if q < p then 1 else -1) * ((n : Int) - (k : Int))
      = q - (if p < q then 1 else -1) * ((n : Int) - ((n - k : Nat) : Int)) := by
  have hc : ((n - k : Nat) : Int) = (n : Int) - (k : Int) := by omega
  rw [hc]
  by_cases hlt : p < q
  · rw [if_pos hlt, if_neg (by omega)]
    rw [abs_of_nonneg (by omega)] at hn
    linarith
  · by_cases hgt : q < p
    · rw [if_neg hlt, if_pos hgt]
      rw [abs_of_nonpos (by omega)] at hn
      linarith
    · have hpq : q - p = 0 := by omega
      rw [hpq, abs_zero] at hn
      have hk0 : (k : Int) = 0 := by omega
      rw [if_neg hlt, if_neg hgt, hn, hk0]
      omega

/-- C5 as stated fails: on a 3×2 canvas the walk from (0,0) to (2,1) stamps
(1,1), the walk from (2,1) to (0,0) stamps (1,0) instead. -/
theorem canvas_line_reverse_differs :
    (canvas_line 8 (stamp_pixel 1) (XImage.uniform 3 2 0) ⟨0, 0⟩ ⟨2, 1⟩).map Prod.snd
      = some [⟨0, 0⟩, ⟨1, 1⟩, ⟨2, 1⟩] ∧
    (canvas_line 8 (stamp_pixel 1) (XImage.uniform 3 2 0) ⟨2, 1⟩ ⟨0, 0⟩).map Prod.snd
      = some [⟨2, 1⟩, ⟨1, 0⟩, ⟨0, 0⟩] ∧
    ¬ (∀ p : Pair, p ∈ [(⟨0, 0⟩ : Pair), ⟨1, 1⟩, ⟨2, 1⟩] ↔ p ∈ [(⟨2, 1⟩ : Pair), ⟨1, 0⟩, ⟨0, 0⟩]) := by
  refine ⟨by decide, by decide, ?_⟩
  intro h
  exact absurd ((h ⟨1, 1⟩).1 (by decide)) (by decide)

/-- C5, amended: between two points `a`, `b` of the canvas, the walk from `b` to
`a` stamps the point reflections through the midpoint of `a` and `b` of the
points the walk from `a` to `b` stamps, in the same order; for a horizontal or
vertical line these are the points of the walk from `a` to `b` in reverse order,
so the same set of points. -/
theorem canvas_line_reverse_reflect (draw : XImage → Pair → XImage) (hdraw : KeepsSize draw)
    (im : XImage) (hfit : im.fits_i32) (a b : Pair)
    (ha : im.inb a.x a.y) (hb : im.inb b.x b.y) :
    ∃ n : Nat, ∀ fuel : Nat, n ≤ fuel →
      ∃ t, canvas_line fuel draw im a b = some (t.foldl draw im, t) ∧
        canvas_line fuel draw im b a
          = some ((t.map (reflect a b)).foldl draw im, t.map (reflect a b)) ∧
        ((a.x = b.x ∨ a.y = b.y) → t.map (reflect a b) = t.reverse) := by
  obtain ⟨hw, hh⟩ := hfit
  have ha' := ha
  have hb' := hb
  obtain ⟨a0, a1, a2, a3⟩ := ha'
  obtain ⟨b0, b1, b2, b3⟩ := hb'
  have hax0 : 0 ≤ |b.x - a.x| := abs_nonneg _
  have hay0 : 0 ≤ |b.y - a.y| := abs_nonneg _
  have haxW : |b.x - a.x| < im.width := by
    rw [abs_lt]; constructor <;> omega
  have hayH : |b.y - a.y| < im.height := by
    rw [abs_lt]; constructor <;> omega
  refine ⟨(|b.x - a.x| + |b.y - a.y|).toNat + 1, ?_⟩
  intro fuel hfuel
  rw [canvas_line_eq_walk draw hdraw im (by omega) (by omega) a b ha hb fuel,
    canvas_line_eq_walk draw hdraw im (by omega) (by omega) b a hb ha fuel,
    abs_sub_comm a.x b.x, abs_sub_comm a.y b.y]
  obtain ⟨init, hwalk, _, _⟩ := bres_walk_reaches |b.x - a.x| |b.y - a.y|
    (by omega) (by omega) (|b.x - a.x| + |b.y - a.y|).toNat fuel
    (|b.x - a.x| - |b.y - a.y|) |b.x - a.x| |b.y - a.y|
    ⟨hax0, le_refl _⟩ ⟨hay0, le_refl _⟩ (by omega) (by ring) (by omega) (by omega) hfuel
  have hbd := bres_walk_bounds |b.x - a.x| |b.y - a.y| fuel (|b.x - a.x| - |b.y - a.y|)
    |b.x - a.x| |b.y - a.y| _ hax0 hay0 hwalk
  rw [hwalk]
  have hmap : List.map (walk_pos a (if b.x < a.x then 1 else -1) (if b.y < a.y then 1 else -1))
      (init ++ [(0, 0)])
      = List.map (reflect a b) (List.map (walk_pos b (if a.x < b.x then 1 else -1)
          (if a.y < b.y then 1 else -1)) (init ++ [(0, 0)])) := by
    rw [List.map_map]
    apply List.map_congr_left
    intro r hr
    obtain ⟨⟨h1, h2⟩, h3, h4⟩ := hbd r hr
    simp only [Function.comp, walk_pos, reflect, Pair.mk.injEq]
    constructor
    · by_cases hlt : a.x < b.x
      · rw [if_pos hlt, if_neg (by omega)]; ring
      · by_cases hgt : b.x < a.x
        · rw [if_neg hlt, if_pos hgt]; ring
        · have : |b.x - a.x| = 0 := by rw [abs_eq_zero]; omega
          have : r.1 = 0 := by omega
          rw [this]; ring
    · by_cases hlt : a.y < b.y
      · rw [if_pos hlt, if_neg (by omega)]; ring
      · by_cases hgt : b.y < a.y
        · rw [if_neg hlt, if_pos hgt]; ring
        · have : |b.y - a.y| = 0 := by rw [abs_eq_zero]; omega
          have : r.2 = 0 := by omega
          rw [this]; ring
  refine ⟨List.map (walk_pos b (if a.x < b.x then 1 else -1) (if a.y < b.y then 1 else -1))
    (init ++ [(0, 0)]), ?_, ?_, ?_⟩
  · simp only [Option.map_some']
  · simp only [Option.map_some', hmap]
  · intro haxis
    rw [← hmap]
    rcases haxis with hx | hy
    · -- vertical line
      have hzero : |b.x - a.x| = 0 := by rw [abs_eq_zero]; omega
      have hcast : ((|b.y - a.y|).toNat : Int) = |b.y - a.y| := Int.toNat_of_nonneg hay0
      have hv := bres_walk_vertical |b.y - a.y| (by omega) (|b.y - a.y|).toNat fuel
        (by rw [hcast]) (by omega)
      rw [hzero, zero_sub] at hwalk
      rw [hcast, hwalk, Option.some.injEq] at hv
      rw [hv, List.map_map, List.map_map, map_range_reverse]
      apply List.map_congr_left
      intro k hk
      rw [List.mem_range] at hk
      simp only [Function.comp, walk_pos, mul_zero, sub_zero, Pair.mk.injEq]
      refine ⟨hx, ?_⟩
      have hm := axis_mirror a.y b.y (|b.y - a.y|).toNat k hcast (by omega)
      rw [hcast] at hm
      exact hm
    · -- horizontal line
      have hzero : |b.y - a.y| = 0 := by rw [abs_eq_zero]; omega
      have hcast : ((|b.x - a.x|).toNat : Int) = |b.x - a.x| := Int.toNat_of_nonneg hax0
      have hv := bres_walk_horizontal |b.x - a.x| (by omega) (|b.x - a.x|).toNat fuel
        (by rw [hcast]) (by omega)
      rw [hzero, sub_zero] at hwalk
      rw [hcast, hwalk, Option.some.injEq] at hv
      rw [hv, List.map_map, List.map_map, map_range_reverse]
      apply List.map_congr_left
      intro k hk
      rw [List.mem_range] at hk
      simp only [Function.comp, walk_pos, mul_zero, sub_zero, Pair.mk.injEq]
      refine ⟨?_, hy⟩
      have hm := axis_mirror a.x b.x (|b.x - a.x|).toNat k hcast (by omega)
      rw [hcast] at hm
      exact hm

/-- The lines between (0,0) and (2,1) on a 3×2 canvas, an instance of the amended
C5. -/
theorem canvas_line_reverse_reflect_witness :
    KeepsSize (stamp_pixel 1) ∧ (XImage.uniform 3 2 0).fits_i32 ∧
    (XImage.uniform 3 2 0).inb 0 0 ∧ (XImage.uniform 3 2 0).inb 2 1 ∧
    ∃ n : Nat, ∀ fuel : Nat, n ≤ fuel →
      ∃ t, canvas_line fuel (stamp_pixel 1) (XImage.uniform 3 2 0) ⟨0, 0⟩ ⟨2, 1⟩
          = some (t.foldl (stamp_pixel 1) (XImage.uniform 3 2 0), t) ∧
        canvas_line fuel (stamp_pixel 1) (XImage.uniform 3 2 0) ⟨2, 1⟩ ⟨0, 0⟩
          = some ((t.map (reflect ⟨0, 0⟩ ⟨2, 1⟩)).foldl (stamp_pixel 1) (XImage.uniform 3 2 0),
              t.map (reflect ⟨0, 0⟩ ⟨2, 1⟩)) ∧
        (((0 : Int) = 2 ∨ (0 : Int) = 1) → t.map (reflect ⟨0, 0⟩ ⟨2, 1⟩) = t.reverse) :=
  ⟨stamp_pixel_keeps_size 1, by decide, by decide, by decide,
    canvas_line_reverse_reflect (stamp_pixel 1) (stamp_pixel_keeps_size 1) (XImage.uniform 3 2 0)
      (by decide) ⟨0, 0⟩ ⟨2, 1⟩ (by decide) (by decide)⟩

/-! ## History -/

theorem XSubImage_full (im : XImage) : XSubImage im 0 0 im.width im.height = im := by
  simp [XSubImage]

theorem history_clone_eq (hist : History) : history_clone hist = hist := by
  simp [history_clone, XSubImage_full]

/-- C7: undo after `history_forward` taken at canvas `s1` and a mutation to `s2`
succeeds, restores `s1` and leaves `s2` on top of the redo stack; the redo that
follows succeeds and restores `s2`. -/
theorem history_undo_redo_round_trip (ctx : Ctx) (s2 : XImage) :
    (history_move ((history_forward ctx).with_canvas s2) true).1 = true ∧
    (history_move ((history_forward ctx).with_canvas s2) true).2.dc.cv.im = ctx.dc.cv.im ∧
    (history_move ((history_forward ctx).with_canvas s2) true).2.hist_nextarr.head?
      = some { im := s2 } ∧
    (history_move (history_move ((history_forward ctx).with_canvas s2) true).2 false).1 = true ∧
    (history_move (history_move ((history_forward ctx).with_canvas s2) true).2 false).2.dc.cv.im
      = s2 := by
  simp [history_move, history_forward, history_push, history_apply, historyarr_clear,
    Ctx.with_canvas, history_clone_eq]

/-- C8: after a successful undo a redo would succeed, but `history_forward`
empties the redo stack, pushes a snapshot equal to the canvas onto the undo stack
and keeps the canvas; the redo that follows fails and changes nothing. -/
theorem history_forward_invalidates_redo (ctx : Ctx) (hundo : (history_move ctx true).1 = true) :
    (history_move (history_move ctx true).2 false).1 = true ∧
    (history_forward (history_move ctx true).2).hist_nextarr = [] ∧
    (history_forward (history_move ctx true).2).hist_prevarr
      = { im := (history_move ctx true).2.dc.cv.im } :: (history_move ctx true).2.hist_prevarr ∧
    (history_forward (history_move ctx true).2).dc.cv.im = (history_move ctx true).2.dc.cv.im ∧
    history_move (history_forward (history_move ctx true).2) false
      = (false, history_forward (history_move ctx true).2) := by
  refine ⟨?_, by simp [history_move, history_forward, history_push, historyarr_clear,
    history_clone_eq]⟩
  cases hp : ctx.hist_prevarr with
  | nil => simp [history_move, hp] at hundo
  | cons c r => simp [history_move, hp, history_push, history_apply]

/-- An instance of C8 with one snapshot on the undo stack. -/
theorem history_forward_invalidates_redo_witness :
    (history_move
      { dc := ⟨⟨XImage.uniform 2 2 7⟩⟩, hist_prevarr := [⟨XImage.uniform 2 2 0⟩],
        hist_nextarr := [] } true).1 = true ∧
    (history_forward
      (history_move
        { dc := ⟨⟨XImage.uniform 2 2 7⟩⟩, hist_prevarr := [⟨XImage.uniform 2 2 0⟩],
          hist_nextarr := [] } true).2).hist_nextarr
      = [] :=
  ⟨rfl, (history_forward_invalidates_redo
    { dc := ⟨⟨XImage.uniform 2 2 7⟩⟩, hist_prevarr := [⟨XImage.uniform 2 2 0⟩],
      hist_nextarr := [] } rfl).2.1⟩

/-- C9: `history_move` fails exactly when its source stack is empty, and a
failing call leaves the context as it was. -/
theorem history_move_fails_iff (ctx : Ctx) (forward : Bool) :
    ((history_move ctx forward).1 = false ↔
      (if forward then ctx.hist_prevarr else ctx.hist_nextarr) = []) ∧
    ((history_move ctx forward).1 = false → (history_move ctx forward).2 = ctx) := by
  unfold history_move
  cases h : (if forward = true then ctx.hist_prevarr else ctx.hist_nextarr) with
  | nil => simp
  | cons c r => simp

/-- C10: `history_restore` with a snapshot on the undo stack succeeds, makes the
canvas equal to the top snapshot and keeps both stacks; with an empty undo stack
it fails and keeps the context. -/
theorem history_restore_peek (ctx : Ctx) :
    (∀ top rest, ctx.hist_prevarr = top :: rest →
      (history_restore ctx).1 = true ∧ (history_restore ctx).2.dc.cv.im = top.im ∧
      (history_restore ctx).2.hist_prevarr = ctx.hist_prevarr ∧
      (history_restore ctx).2.hist_nextarr = ctx.hist_nextarr) ∧
    (ctx.hist_prevarr = [] → history_restore ctx = (false, ctx)) := by
  unfold history_restore
  constructor
  · intro top rest h
    rw [h]
    simp [history_apply, history_clone_eq, h]
  · intro h
    rw [h]

/-! ## Checked pixel writes and rectangles -/

/-- A checked write at `i32` coordinates: it writes when the point is in the
raster and is dropped otherwise. -/
theorem ximage_put_checked_i32 (im : XImage) (hwf : im.int_sized) (x y : Int)
    (hx : is_i32 x) (hy : is_i32 y) (col : argb) :
    ximage_put_checked im (to_u32 x) (to_u32 y) col
      = if im.inb x y then (true, XPutPixel im x y col) else (false, im) := by
  obtain ⟨w0, w1, h0, h1⟩ := hwf
  obtain ⟨x0, x1⟩ := hx
  obtain ⟨y0, y1⟩ := hy
  unfold ximage_put_checked XImage.inb
  have hw : to_u32 im.width = im.width := by unfold to_u32; omega
  have hh : to_u32 im.height = im.height := by unfold to_u32; omega
  rw [hw, hh]
  by_cases hin : 0 ≤ x ∧ 0 ≤ y ∧ x < im.width ∧ y < im.height
  · have hxu : to_u32 x = x := by unfold to_u32; omega
    have hyu : to_u32 y = y := by unfold to_u32; omega
    rw [if_pos hin, hxu, hyu, if_neg (by omega), wrap32_id x (by omega) (by omega),
      wrap32_id y (by omega) (by omega)]
  · rw [if_neg hin, if_pos]
    unfold to_u32
    omega

/-- C12: a checked pixel write at coordinates outside the raster, negative ones
included, reports failure and leaves the image as it was. -/
theorem ximage_put_checked_out_of_bounds (im : XImage) (hwf : im.int_sized) (x y : Int)
    (hx : is_i32 x) (hy : is_i32 y) (col : argb) (hout : ¬ im.inb x y) :
    ximage_put_checked im (to_u32 x) (to_u32 y) col = (false, im) := by
  rw [ximage_put_checked_i32 im hwf x y hx hy col, if_neg hout]

/-- A write at (-1, 2) on a 5×5 image, an instance of C12. -/
theorem ximage_put_checked_out_of_bounds_witness :
    (XImage.uniform 5 5 0).int_sized ∧ is_i32 (-1) ∧ is_i32 2 ∧
    ¬ (XImage.uniform 5 5 0).inb (-1) 2 ∧
    ximage_put_checked (XImage.uniform 5 5 0) (to_u32 (-1)) (to_u32 2) 9
      = (false, XImage.uniform 5 5 0) :=
  ⟨by decide, by decide, by decide, by decide,
    ximage_put_checked_out_of_bounds (XImage.uniform 5 5 0) (by decide) (-1) 2
      (by decide) (by decide) 9 (by decide)⟩

theorem for_range_eq_foldl {σ : Type} (lo hi : Int) (body : σ → Int → σ) (s : σ) :
    for_range lo hi body s = (int_range lo hi).foldl body s := rfl

theorem mem_int_range (lo hi a : Int) : a ∈ int_range lo hi ↔ lo ≤ a ∧ a < hi := by
  unfold int_range
  rw [List.mem_map]
  constructor
  · rintro ⟨k, hk, rfl⟩
    rw [List.mem_range] at hk
    omega
  · intro h
    refine ⟨(a - lo).toNat, ?_, ?_⟩
    · rw [List.mem_range]; omega
    · omega

/-- Two nested loops are one loop over the pairs of their values. -/
theorem foldl_nested_eq_product {σ α β : Type} (f : σ → α → β → σ) (l2 : List β) :
    ∀ (l1 : List α) (s : σ),
      l1.foldl (fun s a => l2.foldl (fun s b => f s a b) s) s
        = (l1 ×ˢ l2).foldl (fun s p => f s p.1 p.2) s := by
  intro l1
  induction l1 with
  | nil => intro s; rfl
  | cons a l ih =>
    intro s
    rw [List.product_cons, List.foldl_append, List.foldl_cons, ih, List.foldl_map]

/-- A sequence of checked writes of one colour at the `i32` points `l` colours
exactly the points of `l` that are in the raster. -/
theorem foldl_put_checked (col : argb) :
    ∀ (l : List (Int × Int)) (im : XImage), im.int_sized →
      (∀ p ∈ l, is_i32 p.1 ∧ is_i32 p.2) →
      (l.foldl (fun im p => (ximage_put_checked im (to_u32 p.1) (to_u32 p.2) col).2) im).width
          = im.width ∧
      (l.foldl (fun im p => (ximage_put_checked im (to_u32 p.1) (to_u32 p.2) col).2) im).height
          = im.height ∧
      ∀ a b,
        (l.foldl (fun im p => (ximage_put_checked im (to_u32 p.1) (to_u32 p.2) col).2) im).pix a b
          = if im.inb a b ∧ (a, b) ∈ l then col else im.pix a b := by
  intro l
  induction l with
  | nil =>
    intro im _ _
    simp
  | cons p l ih =>
    intro im hwf hl
    have hp := hl p (List.mem_cons_self _ _)
    have hstep := ximage_put_checked_i32 im hwf p.1 p.2 hp.1 hp.2 col
    have hwf' : (ximage_put_checked im (to_u32 p.1) (to_u32 p.2) col).2.int_sized := by
      rw [hstep]
      split_ifs <;> exact hwf
    have hsize : (ximage_put_checked im (to_u32 p.1) (to_u32 p.2) col).2.width = im.width ∧
        (ximage_put_checked im (to_u32 p.1) (to_u32 p.2) col).2.height = im.height := by
      rw [hstep]
      split_ifs <;> exact ⟨rfl, rfl⟩
    obtain ⟨h1, h2, h3⟩ := ih _ hwf' (fun q hq => hl q (List.mem_cons_of_mem _ hq))
    rw [List.foldl_cons]
    refine ⟨h1.trans hsize.1, h2.trans hsize.2, ?_⟩
    intro a b
    rw [h3 a b]
    have hinb : (ximage_put_checked im (to_u32 p.1) (to_u32 p.2) col).2.inb a b ↔ im.inb a b := by
      unfold XImage.inb
      rw [hsize.1, hsize.2]
    simp only [hinb, List.mem_cons]
    rw [hstep]
    by_cases hab : im.inb a b
    · by_cases hmem : (a, b) ∈ l
      · simp [hab, hmem]
      · by_cases hpe : (a, b) = p
        · subst hpe
          simp [hab, hmem, XPutPixel]
        · have hne : ¬ (a = p.1 ∧ b = p.2) := fun h => hpe (Prod.ext h.1 h.2)
          simp only [hab, hmem, hpe, or_self, and_false, if_false]
          split_ifs <;> simp [XPutPixel, hne]
    · have hpix : (if im.inb p.1 p.2 then (true, XPutPixel im p.1 p.2 col) else (false, im)).2.pix a b
          = im.pix a b := by
        split_ifs with hpin
        · have hne : ¬ (a = p.1 ∧ b = p.2) := fun h => hab (h.1 ▸ h.2 ▸ hpin)
          simp [XPutPixel, hne]
        · rfl
      simp only [hab, false_and, if_false]
      exact hpix

/-- The pixels after `canvas_fill_rect`: the colour `col` on the raster inside the
normalized span of `c` and `c + dims`, the old pixel elsewhere; the size is kept. -/
theorem canvas_fill_rect_span (im : XImage) (hwf : im.int_sized) (c dims : Pair)
    (col : argb) (hcx : is_i32 c.x) (hcy : is_i32 c.y)
    (hdx : is_i32 (c.x + dims.x)) (hdy : is_i32 (c.y + dims.y)) :
    (canvas_fill_rect im c dims col).width = im.width ∧
    (canvas_fill_rect im c dims col).height = im.height ∧
    ∀ x y, (canvas_fill_rect im c dims col).pix x y
      = if im.inb x y ∧ min c.x (c.x + dims.x) ≤ x ∧ x < max c.x (c.x + dims.x) ∧
            min c.y (c.y + dims.y) ≤ y ∧ y < max c.y (c.y + dims.y)
        then col else im.pix x y := by
  obtain ⟨cx0, cx1⟩ := hcx
  obtain ⟨cy0, cy1⟩ := hcy
  obtain ⟨dx0, dx1⟩ := hdx
  obtain ⟨dy0, dy1⟩ := hdy
  have hxlo : wrap32 (c.x + (if decide (dims.x < 0) = true then dims.x else 0))
      = min c.x (c.x + dims.x) := by
    by_cases h : dims.x < 0
    · simp only [h, decide_True, if_true]
      rw [wrap32_id _ (by omega) (by omega)]; omega
    · simp only [h, decide_False, Bool.false_eq_true, if_false, add_zero]
      rw [wrap32_id _ (by omega) (by omega)]; omega
  have hxhi : wrap32 (c.x + (if decide (dims.x < 0) = true then 0 else dims.x))
      = max c.x (c.x + dims.x) := by
    by_cases h : dims.x < 0
    · simp only [h, decide_True, if_true, add_zero]
      rw [wrap32_id _ (by omega) (by omega)]; omega
    · simp only [h, decide_False, Bool.false_eq_true, if_false]
      rw [wrap32_id _ (by omega) (by omega)]; omega
  have hylo : wrap32 (c.y + (if decide (dims.y < 0) = true then dims.y else 0))
      = min c.y (c.y + dims.y) := by
    by_cases h : dims.y < 0
    · simp only [h, decide_True, if_true]
      rw [wrap32_id _ (by omega) (by omega)]; omega
    · simp only [h, decide_False, Bool.false_eq_true, if_false, add_zero]
      rw [wrap32_id _ (by omega) (by omega)]; omega
  have hyhi : wrap32 (c.y + (if decide (dims.y < 0) = true then 0 else dims.y))
      = max c.y (c.y + dims.y) := by
    by_cases h : dims.y < 0
    · simp only [h, decide_True, if_true, add_zero]
      rw [wrap32_id _ (by omega) (by omega)]; omega
    · simp only [h, decide_False, Bool.false_eq_true, if_false]
      rw [wrap32_id _ (by omega) (by omega)]; omega
  have heq : canvas_fill_rect im c dims col
      = ((int_range (min c.x (c.x + dims.x)) (max c.x (c.x + dims.x))) ×ˢ
          (int_range (min c.y (c.y + dims.y)) (max c.y (c.y + dims.y)))).foldl
          (fun im p => (ximage_put_checked im (to_u32 p.1) (to_u32 p.2) col).2) im := by
    unfold canvas_fill_rect
    simp only [hxlo, hxhi, hylo, hyhi, for_range_eq_foldl]
    exact foldl_nested_eq_product
      (fun im x y => (ximage_put_checked im (to_u32 x) (to_u32 y) col).2) _ _ im
  have hpts : ∀ p ∈ (int_range (min c.x (c.x + dims.x)) (max c.x (c.x + dims.x))) ×ˢ
      (int_range (min c.y (c.y + dims.y)) (max c.y (c.y + dims.y))),
      is_i32 p.1 ∧ is_i32 p.2 := by
    intro p hp
    obtain ⟨p1, p2⟩ := p
    rw [List.mem_product, mem_int_range, mem_int_range] at hp
    unfold is_i32
    simp only []
    omega
  obtain ⟨h1, h2, h3⟩ := foldl_put_checked col _ im hwf hpts
  rw [heq]
  refine ⟨h1, h2, ?_⟩
  intro x y
  rw [h3 x y]
  apply if_congr _ rfl rfl
  rw [List.mem_product, mem_int_range, mem_int_range]
  constructor
  · rintro ⟨ha, ⟨hb, hc⟩, hd, he⟩
    exact ⟨ha, hb, hc, hd, he⟩
  · rintro ⟨ha, hb, hc, hd, he⟩
    exact ⟨ha, ⟨hb, hc⟩, hd, he⟩

/-- C20: `canvas_fill_rect` colours exactly the pixels of the raster in the
normalized span of `c` and `c + dims`, whatever the signs of `dims`, and keeps
every other pixel and the size of the image. -/
theorem canvas_fill_rect_normalized_span (im : XImage) (hwf : im.int_sized) (c dims : Pair)
    (col : argb) (hcx : is_i32 c.x) (hcy : is_i32 c.y)
    (hdx : is_i32 (c.x + dims.x)) (hdy : is_i32 (c.y + dims.y)) :
    (canvas_fill_rect im c dims col).width = im.width ∧
    (canvas_fill_rect im c dims col).height = im.height ∧
    ∀ x y, (canvas_fill_rect im c dims col).pix x y
      = if im.inb x y ∧ min c.x (c.x + dims.x) ≤ x ∧ x < max c.x (c.x + dims.x) ∧
            min c.y (c.y + dims.y) ≤ y ∧ y < max c.y (c.y + dims.y)
        then col else im.pix x y :=
  canvas_fill_rect_span im hwf c dims col hcx hcy hdx hdy

/-- A rectangle dragged from (3,3) to the upper left by (-2,-2) on a 5×5 image,
an instance of C20. -/
theorem canvas_fill_rect_normalized_span_witness :
    (XImage.uniform 5 5 0).int_sized ∧ is_i32 3 ∧ is_i32 (3 + -2) ∧
    (canvas_fill_rect (XImage.uniform 5 5 0) ⟨3, 3⟩ ⟨-2, -2⟩ 9).pix 1 2 = 9 ∧
    (canvas_fill_rect (XImage.uniform 5 5 0) ⟨3, 3⟩ ⟨-2, -2⟩ 9).pix 3 3 = 0 := by
  have h := canvas_fill_rect_normalized_span (XImage.uniform 5 5 0) (by decide) ⟨3, 3⟩ ⟨-2, -2⟩ 9
    (by decide) (by decide) (by decide) (by decide)
  refine ⟨by decide, by decide, by decide, ?_, ?_⟩
  · rw [h.2.2 1 2]; decide
  · rw [h.2.2 3 3]; decide

/-! ## canvas_copy_region -/

/-- Row-major indices of a raster of width `w` determine the row and the
column. -/
theorem row_major_inj (w y x y' x' : Int) (hx : 0 ≤ x ∧ x < w) (hx' : 0 ≤ x' ∧ x' < w)
    (h : y * w + x = y' * w + x') : y = y' ∧ x = x' := by
  rcases lt_trichotomy y y' with hlt | heq | hgt
  · exfalso
    have : 0 ≤ (y' - y - 1) * w := mul_nonneg (by omega) (by omega)
    nlinarith
  · subst heq
    exact ⟨rfl, by omega⟩
  · exfalso
    have : 0 ≤ (y - y' - 1) * w := mul_nonneg (by omega) (by omega)
    nlinarith

/-- Row-major indices of a raster of fewer than `2^31` pixels are `i32` values. -/
theorem row_major_i32 (w h y x : Int) (hwh : w * h < 2147483648) (hx : 0 ≤ x ∧ x < w)
    (hy : 0 ≤ y ∧ y < h) : wrap32 (wrap32 (y * w) + x) = y * w + x := by
  have h1 : 0 ≤ y * w := mul_nonneg hy.1 (by omega)
  have h2 : 0 ≤ (h - 1 - y) * w := mul_nonneg (by omega) (by omega)
  have h3 : y * w + w ≤ w * h := by nlinarith
  rw [wrap32_id (y * w) (by omega) (by omega), wrap32_id _ (by omega) (by omega)]

/-- A checked write at the sum of an `i32` offset and a loop index: it writes
when the sum is in the raster and is dropped otherwise, also when the sum leaves
the `i32` range. -/
theorem ximage_put_checked_offset (im : XImage) (hwf : im.int_sized) (t u x y : Int)
    (ht : is_i32 t) (hu : is_i32 u) (hx : 0 ≤ x ∧ x < 2147483648) (hy : 0 ≤ y ∧ y < 2147483648)
    (col : argb) :
    ximage_put_checked im (to_u32 (wrap32 (t + x))) (to_u32 (wrap32 (u + y))) col
      = if im.inb (t + x) (u + y) then (true, XPutPixel im (t + x) (u + y) col)
        else (false, im) := by
  have hwf' := hwf
  obtain ⟨w0, w1, h0, h1⟩ := hwf'
  obtain ⟨t0, t1⟩ := ht
  obtain ⟨u0, u1⟩ := hu
  rw [ximage_put_checked_i32 im hwf _ _ (by unfold is_i32 wrap32; omega)
    (by unfold is_i32 wrap32; omega) col]
  by_cases hin : im.inb (t + x) (u + y)
  · have hin' := hin
    obtain ⟨a0, a1, a2, a3⟩ := hin'
    rw [wrap32_id (t + x) (by omega) (by omega), wrap32_id (u + y) (by omega) (by omega)]
  · rw [if_neg hin, if_neg]
    unfold XImage.inb at hin ⊢
    unfold wrap32
    omega

/-- One iteration of the read pass of `canvas_copy_region` at a point of a source
rectangle inside the image. -/
theorem copy_region_read_step (im0 : XImage) (hwf : im0.int_sized)
    (hwh : im0.width * im0.height < 2147483648) (from_ dims to_ : Pair)
    (hfx : 0 ≤ from_.x) (hfy : 0 ≤ from_.y) (hfw : from_.x + dims.x ≤ im0.width)
    (hfh : from_.y + dims.y ≤ im0.height) (st : XImage × (Int → argb))
    (hsw : st.1.width = im0.width) (hsh : st.1.height = im0.height) (y x : Int)
    (hy : 0 ≤ y ∧ y < dims.y) (hx : 0 ≤ x ∧ x < dims.x) :
    canvas_copy_region_body im0.width from_ to_ true 1 st y x
      = (XPutPixel st.1 (from_.x + x) (from_.y + y) CANVAS_background_argb,
          fun i => if i = y * im0.width + x then st.1.pix (from_.x + x) (from_.y + y)
            else st.2 i) := by
  have hwf' := hwf
  obtain ⟨w0, w1, h0, h1⟩ := hwf'
  have hidx := row_major_i32 im0.width im0.height y x hwh ⟨hx.1, by omega⟩ ⟨hy.1, by omega⟩
  have hwx : wrap32 (from_.x + x) = from_.x + x := wrap32_id _ (by omega) (by omega)
  have hwy : wrap32 (from_.y + y) = from_.y + y := wrap32_id _ (by omega) (by omega)
  have hswf : st.1.int_sized := by
    unfold XImage.int_sized; rw [hsw, hsh]; exact hwf
  have hput := ximage_put_checked_i32 st.1 hswf (from_.x + x) (from_.y + y)
    (by unfold is_i32; omega) (by unfold is_i32; omega) CANVAS_background_argb
  have hin : st.1.inb (from_.x + x) (from_.y + y) := by
    unfold XImage.inb; rw [hsw, hsh]; omega
  rw [if_pos hin] at hput
  unfold canvas_copy_region_body
  simp only [hidx, hwx, hwy, hput, XGetPixel, ne_eq, one_ne_zero, not_false_eq_true, if_true]

/-- One iteration of the write pass of `canvas_copy_region`. -/
theorem copy_region_write_step (im0 : XImage) (hwf : im0.int_sized)
    (hwh : im0.width * im0.height < 2147483648) (from_ dims to_ : Pair)
    (hfx : 0 ≤ from_.x) (hfy : 0 ≤ from_.y) (hfw : from_.x + dims.x ≤ im0.width)
    (hfh : from_.y + dims.y ≤ im0.height) (htx : is_i32 to_.x) (hty : is_i32 to_.y)
    (clear_source : Bool) (st : XImage × (Int → argb))
    (hsw : st.1.width = im0.width) (hsh : st.1.height = im0.height) (y x : Int)
    (hy : 0 ≤ y ∧ y < dims.y) (hx : 0 ≤ x ∧ x < dims.x) :
    canvas_copy_region_body im0.width from_ to_ clear_source 0 st y x
      = (if st.1.inb (to_.x + x) (to_.y + y)
          then XPutPixel st.1 (to_.x + x) (to_.y + y) (st.2 (y * im0.width + x)) else st.1,
          st.2) := by
  have hwf' := hwf
  obtain ⟨w0, w1, h0, h1⟩ := hwf'
  have hidx := row_major_i32 im0.width im0.height y x hwh ⟨hx.1, by omega⟩ ⟨hy.1, by omega⟩
  have hswf : st.1.int_sized := by
    unfold XImage.int_sized; rw [hsw, hsh]; exact hwf
  have hput := ximage_put_checked_offset st.1 hswf to_.x to_.y x y htx hty
    ⟨hx.1, by omega⟩ ⟨hy.1, by omega⟩ (st.2 (y * im0.width + x))
  unfold canvas_copy_region_body
  simp only [hidx, hput, ne_eq, not_true_eq_false, if_false]
  split_ifs <;> rfl

/-- The read pass of `canvas_copy_region` with `clear_source`: the source pixels
visited are set to the background colour, and the staging buffer holds their
original values. -/
theorem copy_region_read_pass (im0 : XImage) (hwf : im0.int_sized)
    (hwh : im0.width * im0.height < 2147483648) (from_ dims to_ : Pair)
    (hfx : 0 ≤ from_.x) (hfy : 0 ≤ from_.y) (hfw : from_.x + dims.x ≤ im0.width)
    (hfh : from_.y + dims.y ≤ im0.height) (r0 : Int → argb) :
    ∀ (l : List (Int × Int)), l.Nodup →
      (∀ p ∈ l, (0 ≤ p.1 ∧ p.1 < dims.y) ∧ (0 ≤ p.2 ∧ p.2 < dims.x)) →
      ∀ s, s = l.foldl
          (fun st p => canvas_copy_region_body im0.width from_ to_ true 1 st p.1 p.2) (im0, r0) →
        s.1.width = im0.width ∧ s.1.height = im0.height ∧
        (∀ a b, s.1.pix a b
          = if (b - from_.y, a - from_.x) ∈ l then CANVAS_background_argb else im0.pix a b) ∧
        (∀ p ∈ l, s.2 (p.1 * im0.width + p.2) = im0.pix (from_.x + p.2) (from_.y + p.1)) := by
  intro l
  induction l using List.reverseRecOn with
  | nil =>
    intro _ _ s hs
    subst hs
    simp
  | append_singleton l p ih =>
    intro hnd hl s hs
    rw [List.nodup_append] at hnd
    obtain ⟨hndl, _, hdisj⟩ := hnd
    have hpl : p ∉ l := fun h => hdisj h (List.mem_singleton_self p)
    have hp := hl p (by simp)
    obtain ⟨i1, i2, i3, i4⟩ := ih hndl (fun q hq => hl q (List.mem_append_left _ hq)) _ rfl
    rw [List.foldl_append, List.foldl_cons, List.foldl_nil,
      copy_region_read_step im0 hwf hwh from_ dims to_ hfx hfy hfw hfh _ i1 i2 p.1 p.2
        hp.1 hp.2] at hs
    subst hs
    refine ⟨i1, i2, ?_, ?_⟩
    · intro a b
      simp only [XPutPixel]
      rw [i3 a b]
      by_cases hab : a = from_.x + p.2 ∧ b = from_.y + p.1
      · have : (b - from_.y, a - from_.x) = p := by
          obtain ⟨ha, hb⟩ := hab
          apply Prod.ext <;> simp only [] <;> omega
        rw [if_pos hab, if_pos (by rw [this]; simp)]
      · have hne : (b - from_.y, a - from_.x) ≠ p := by
          intro h
          apply hab
          have h1 := congrArg Prod.fst h
          have h2 := congrArg Prod.snd h
          simp only [] at h1 h2
          constructor <;> omega
        rw [if_neg hab]
        simp only [List.mem_append, List.mem_singleton, hne, or_false]
    · intro q hq
      simp only [List.mem_append, List.mem_singleton] at hq
      rcases hq with hq | rfl
      · have hqb := hl q (List.mem_append_left _ hq)
        have hne : ¬ (q.1 * im0.width + q.2 = p.1 * im0.width + p.2) := by
          intro h
          have := row_major_inj im0.width q.1 q.2 p.1 p.2 ⟨hqb.2.1, by omega⟩
            ⟨hp.2.1, by omega⟩ h
          exact hpl (by rw [← Prod.ext this.1 this.2]; exact hq)
        simp only [hne, if_false]
        exact i4 q hq
      · simp only [if_true]
        rw [i3]
        have : (from_.y + q.1 - from_.y, from_.x + q.2 - from_.x) = q := by
          apply Prod.ext <;> simp only [] <;> omega
        rw [this, if_neg hpl]

/-- The write pass of `canvas_copy_region`: the destination pixels of the raster
get the staged values, the other pixels are kept. -/
theorem copy_region_write_pass (im0 : XImage) (hwf : im0.int_sized)
    (hwh : im0.width * im0.height < 2147483648) (from_ dims to_ : Pair)
    (hfx : 0 ≤ from_.x) (hfy : 0 ≤ from_.y) (hfw : from_.x + dims.x ≤ im0.width)
    (hfh : from_.y + dims.y ≤ im0.height) (htx : is_i32 to_.x) (hty : is_i32 to_.y)
    (clear_source : Bool) (r1 : Int → argb) :
    ∀ (l : List (Int × Int)),
      (∀ p ∈ l, (0 ≤ p.1 ∧ p.1 < dims.y) ∧ (0 ≤ p.2 ∧ p.2 < dims.x)) →
      ∀ (im1 : XImage), im1.width = im0.width → im1.height = im0.height →
      ∀ s, s = l.foldl
          (fun st p => canvas_copy_region_body im0.width from_ to_ clear_source 0 st p.1 p.2)
          (im1, r1) →
        s.1.width = im0.width ∧ s.1.height = im0.height ∧ s.2 = r1 ∧
        (∀ a b, s.1.pix a b
          = if im0.inb a b ∧ (b - to_.y, a - to_.x) ∈ l
            then r1 ((b - to_.y) * im0.width + (a - to_.x)) else im1.pix a b) := by
  intro l
  induction l using List.reverseRecOn with
  | nil =>
    intro _ im1 h1 h2 s hs
    subst hs
    simp [h1, h2]
  | append_singleton l p ih =>
    intro hl im1 h1 h2 s hs
    have hp := hl p (by simp)
    obtain ⟨i1, i2, i3, i4⟩ := ih (fun q hq => hl q (List.mem_append_left _ hq)) im1 h1 h2 _ rfl
    rw [List.foldl_append, List.foldl_cons, List.foldl_nil,
      copy_region_write_step im0 hwf hwh from_ dims to_ hfx hfy hfw hfh htx hty clear_source
        _ i1 i2 p.1 p.2 hp.1 hp.2] at hs
    subst hs
    have hinb : ∀ a b, (List.foldl
        (fun st p => canvas_copy_region_body im0.width from_ to_ clear_source 0 st p.1 p.2)
        (im1, r1) l).1.inb a b ↔ im0.inb a b := by
      intro a b
      unfold XImage.inb
      rw [i1, i2]
    refine ⟨?_, ?_, i3, ?_⟩
    · simp only []
      split_ifs <;> simp [XPutPixel, i1]
    · simp only []
      split_ifs <;> simp [XPutPixel, i2]
    · intro a b
      simp only [hinb, i3]
      by_cases hab : a = to_.x + p.2 ∧ b = to_.y + p.1
      · obtain ⟨ha, hb⟩ := hab
        have hpe : (b - to_.y, a - to_.x) = p := by
          apply Prod.ext <;> simp only [] <;> omega
        have e1 : b - to_.y = p.1 := by omega
        have e2 : a - to_.x = p.2 := by omega
        by_cases hin : im0.inb a b
        · have hin' : im0.inb (to_.x + p.2) (to_.y + p.1) := by rw [← ha, ← hb]; exact hin
          rw [if_pos hin', if_pos ⟨hin, by rw [hpe]; simp⟩, e1, e2]
          simp [XPutPixel, ha, hb]
        · have hin' : ¬ im0.inb (to_.x + p.2) (to_.y + p.1) := by rw [← ha, ← hb]; exact hin
          rw [if_neg hin', if_neg (fun h => hin h.1), i4 a b, if_neg (fun h => hin h.1)]
      · have hne : (b - to_.y, a - to_.x) ≠ p := by
          intro h
          apply hab
          have h1 := congrArg Prod.fst h
          have h2 := congrArg Prod.snd h
          simp only [] at h1 h2
          constructor <;> omega
        have hpix : (if im0.inb (to_.x + p.2) (to_.y + p.1) then
            XPutPixel (List.foldl
              (fun st p => canvas_copy_region_body im0.width from_ to_ clear_source 0 st p.1 p.2)
              (im1, r1) l).1 (to_.x + p.2) (to_.y + p.1) (r1 (p.1 * im0.width + p.2))
            else (List.foldl
              (fun st p => canvas_copy_region_body im0.width from_ to_ clear_source 0 st p.1 p.2)
              (im1, r1) l).1).pix a b
            = (List.foldl
              (fun st p => canvas_copy_region_body im0.width from_ to_ clear_source 0 st p.1 p.2)
              (im1, r1) l).1.pix a b := by
          split_ifs
          · simp [XPutPixel, hab]
          · rfl
        rw [hpix, i4 a b]
        simp only [List.mem_append, List.mem_singleton, hne, or_false]

theorem int_range_nodup (lo hi : Int) : (int_range lo hi).Nodup := by
  unfold int_range
  apply List.Nodup.map _ (List.nodup_range _)
  intro a b h
  simp only [] at h
  omega

/-- The function `canvas_copy_region` as its read pass followed by its write
pass, each a loop over the pairs `(y, x)` of the rectangle. -/
theorem canvas_copy_region_eq_passes (im : XImage) (from_ dims to_ : Pair)
    (clear_source : Bool) :
    canvas_copy_region im from_ dims to_ clear_source
      = ((int_range 0 dims.y ×ˢ int_range 0 dims.x).foldl
          (fun st p => canvas_copy_region_body im.width from_ to_ clear_source 0 st p.1 p.2)
          ((int_range 0 dims.y ×ˢ int_range 0 dims.x).foldl
            (fun st p => canvas_copy_region_body im.width from_ to_ clear_source 1 st p.1 p.2)
            (im, fun _ => 0))).1 := by
  unfold canvas_copy_region
  simp only [List.foldl_cons, List.foldl_nil, for_range_eq_foldl]
  rw [foldl_nested_eq_product
      (fun st y x => canvas_copy_region_body im.width from_ to_ clear_source 1 st y x),
    foldl_nested_eq_product
      (fun st y x => canvas_copy_region_body im.width from_ to_ clear_source 0 st y x)]

/-- C11: moving a rectangle that lies inside the buffer with `canvas_copy_region`
and `clear_source` puts the original source pixels at the destination pixels of
the raster, sets the source pixels outside the destination rectangle to the
background colour, and keeps the pixels outside both rectangles and the size. -/
theorem canvas_copy_region_move (im : XImage) (hwf : im.int_sized)
    (hwh : im.width * im.height < 2147483648) (from_ dims to_ : Pair)
    (hfx : 0 ≤ from_.x) (hfy : 0 ≤ from_.y) (hfw : from_.x + dims.x ≤ im.width)
    (hfh : from_.y + dims.y ≤ im.height) (htx : is_i32 to_.x) (hty : is_i32 to_.y) :
    ((canvas_copy_region im from_ dims to_ true).width = im.width ∧
      (canvas_copy_region im from_ dims to_ true).height = im.height) ∧
    (∀ x y, 0 ≤ x → x < dims.x → 0 ≤ y → y < dims.y → im.inb (to_.x + x) (to_.y + y) →
      (canvas_copy_region im from_ dims to_ true).pix (to_.x + x) (to_.y + y)
        = im.pix (from_.x + x) (from_.y + y)) ∧
    (∀ x y, 0 ≤ x → x < dims.x → 0 ≤ y → y < dims.y →
      ¬ (to_.x ≤ from_.x + x ∧ from_.x + x < to_.x + dims.x ∧
          to_.y ≤ from_.y + y ∧ from_.y + y < to_.y + dims.y) →
      (canvas_copy_region im from_ dims to_ true).pix (from_.x + x) (from_.y + y)
        = CANVAS_background_argb) ∧
    (∀ a b,
      ¬ (from_.x ≤ a ∧ a < from_.x + dims.x ∧ from_.y ≤ b ∧ b < from_.y + dims.y) →
      ¬ (to_.x ≤ a ∧ a < to_.x + dims.x ∧ to_.y ≤ b ∧ b < to_.y + dims.y) →
      (canvas_copy_region im from_ dims to_ true).pix a b = im.pix a b) := by
  have hmem : ∀ p : Int × Int, p ∈ int_range 0 dims.y ×ˢ int_range 0 dims.x ↔
      (0 ≤ p.1 ∧ p.1 < dims.y) ∧ (0 ≤ p.2 ∧ p.2 < dims.x) := by
    intro p
    obtain ⟨p1, p2⟩ := p
    rw [List.mem_product, mem_int_range, mem_int_range]
  have hnd : (int_range 0 dims.y ×ˢ int_range 0 dims.x).Nodup :=
    List.Nodup.product (int_range_nodup _ _) (int_range_nodup _ _)
  obtain ⟨r1, r2, r3, r4⟩ := copy_region_read_pass im hwf hwh from_ dims to_ hfx hfy hfw hfh
    (fun _ => 0) _ hnd (fun p hp => (hmem p).1 hp) _ rfl
  obtain ⟨w1, w2, w3, w4⟩ := copy_region_write_pass im hwf hwh from_ dims to_ hfx hfy hfw hfh
    htx hty true _ _ (fun p hp => (hmem p).1 hp) _ r1 r2 _ rfl
  rw [canvas_copy_region_eq_passes]
  refine ⟨⟨w1, w2⟩, ?_, ?_, ?_⟩
  · intro x y hx0 hx1 hy0 hy1 hin
    rw [w4]
    have hp : (to_.y + y - to_.y, to_.x + x - to_.x) ∈ int_range 0 dims.y ×ˢ int_range 0 dims.x := by
      rw [hmem]; simp only []; omega
    rw [if_pos ⟨hin, hp⟩]
    have e1 : to_.y + y - to_.y = y := by omega
    have e2 : to_.x + x - to_.x = x := by omega
    rw [e1, e2]
    exact r4 (y, x) (by rw [hmem]; simp only []; omega)
  · intro x y hx0 hx1 hy0 hy1 hout
    rw [w4]
    have hp : ¬ (from_.y + y - to_.y, from_.x + x - to_.x)
        ∈ int_range 0 dims.y ×ˢ int_range 0 dims.x := by
      rw [hmem]; simp only []; omega
    rw [if_neg (fun h => hp h.2), r3]
    have hq : (from_.y + y - from_.y, from_.x + x - from_.x)
        ∈ int_range 0 dims.y ×ˢ int_range 0 dims.x := by
      rw [hmem]; simp only []; omega
    rw [if_pos hq]
  · intro a b hs hd
    rw [w4]
    have hp : ¬ (b - to_.y, a - to_.x) ∈ int_range 0 dims.y ×ˢ int_range 0 dims.x := by
      rw [hmem]; simp only []; omega
    rw [if_neg (fun h => hp h.2), r3]
    have hq : ¬ (b - from_.y, a - from_.x) ∈ int_range 0 dims.y ×ˢ int_range 0 dims.x := by
      rw [hmem]; simp only []; omega
    rw [if_neg hq]

/-- The rectangle (1,1)-(4,4) of the 7×5 pattern image moved by (2,0), an
instance of C11: the pixel (3,1) gets the original pixel (1,1), the pixel (1,1)
gets the background colour. -/
theorem canvas_copy_region_move_witness :
    XImage.pattern.int_sized ∧ XImage.pattern.width * XImage.pattern.height < 2147483648 ∧
    (0 : Int) ≤ 1 ∧ (1 : Int) + 3 ≤ XImage.pattern.width ∧
    (1 : Int) + 3 ≤ XImage.pattern.height ∧ is_i32 3 ∧ is_i32 1 ∧
    (canvas_copy_region XImage.pattern ⟨1, 1⟩ ⟨3, 3⟩ ⟨3, 1⟩ true).pix (3 + 0) (1 + 0)
      = XImage.pattern.pix (1 + 0) (1 + 0) ∧
    (canvas_copy_region XImage.pattern ⟨1, 1⟩ ⟨3, 3⟩ ⟨3, 1⟩ true).pix (1 + 0) (1 + 0)
      = CANVAS_background_argb := by
  have h := canvas_copy_region_move XImage.pattern (by decide) (by decide) ⟨1, 1⟩ ⟨3, 3⟩ ⟨3, 1⟩
    (by decide) (by decide) (by decide) (by decide) (by decide) (by decide)
  have h1 := h.2.1 0 0 (by decide) (by decide) (by decide) (by decide) (by decide)
  have h2 := h.2.2.1 0 0 (by decide) (by decide) (by decide) (by decide) (by decide)
  dsimp only at h1 h2
  exact ⟨by decide, by decide, by decide, by decide, by decide, by decide, by decide, h1, h2⟩

/-! ## Tool context -/

/-- C15: `tc_set_tool` yields, for every tool context and every target variant,
a context of that variant with the shared data of the old one and the default
variant state: for Selection all four points absent (no selection present, none
dragging), for Figure the shape Circle, not filled, for Pencil and Brush their
stamp function; the handlers are those of the variant. -/
theorem tc_set_tool_preserves_shared (tc : ToolCtx) (type : ToolTag) :
    (tc_set_tool tc type).t = type ∧ (tc_set_tool tc type).sdata = tc.sdata ∧
    ((tc_set_tool tc .Tool_Selection).d
        = .sel { begin_ := PNIL, end_ := PNIL, drag_from := PNIL, drag_to := PNIL } ∧
      HAS_SELECTION (tc_set_tool tc .Tool_Selection) = false ∧
      SELECTION_DRAGGING (tc_set_tool tc .Tool_Selection) = false) ∧
    (tc_set_tool tc .Tool_Figure).d.get_fig = { curr := .Figure_Circle, fill := false } ∧
    (tc_set_tool tc .Tool_Pencil).d = .drawer { fn := .canvas_draw_fn_pencil } ∧
    (tc_set_tool tc .Tool_Brush).d = .drawer { fn := .canvas_draw_fn_brush } ∧
    (tc_set_tool tc .Tool_Fill).d = .zero ∧ (tc_set_tool tc .Tool_Picker).d = .zero ∧
    ((tc_set_tool tc type).on_press, (tc_set_tool tc type).on_release,
        (tc_set_tool tc type).on_drag)
      = (match type with
        | .Tool_Selection => (some .tool_selection_on_press, some .tool_selection_on_release,
            some .tool_selection_on_drag)
        | .Tool_Pencil => (some .tool_drawer_on_press, some .tool_drawer_on_release,
            some .tool_drawer_on_drag)
        | .Tool_Brush => (some .tool_drawer_on_press, some .tool_drawer_on_release,
            some .tool_drawer_on_drag)
        | .Tool_Fill => (none, some .tool_fill_on_release, none)
        | .Tool_Picker => (none, some .tool_picker_on_release, none)
        | .Tool_Figure => (some .tool_drawer_on_press, some .tool_figure_on_release,
            some .tool_figure_on_drag)) := by
  refine ⟨?_, ?_, ⟨rfl, ?_, ?_⟩, rfl, rfl, rfl, rfl, rfl, ?_⟩
  · cases type <;> rfl
  · cases type <;> rfl
  · simp [HAS_SELECTION, tc_set_tool, ToolData.get_sel, PNIL]
  · simp [SELECTION_DRAGGING, tc_set_tool, ToolData.get_sel, PNIL]
  · cases type <;> rfl

/-! ## Termination of canvas_line for bounded coordinates -/

/-- The loop body of `canvas_line` agrees with `bres_step` on `i32` points
between the current point and `to_`, inside the canvas or not. -/
theorem canvas_line_step_eq_i32 (to_ : Pair) (a b sx sy : Int)
    (hsx : sx = 1 ∨ sx = -1) (hsy : sy = 1 ∨ sy = -1)
    (error rx ry : Int) (hrx : 0 ≤ rx) (hry : 0 ≤ ry)
    (htx : is_i32 to_.x) (hty : is_i32 to_.y)
    (hpx : is_i32 (to_.x - sx * rx)) (hpy : is_i32 (to_.y - sy * ry)) :
    canvas_line_step to_ a sx (-b) sy error (walk_pos to_ sx sy (rx, ry))
      = (bres_step a b error rx ry).map
          (fun r => (r.1, walk_pos to_ sx sy (r.2.1, r.2.2))) := by
  unfold is_i32 at htx hty hpx hpy
  have hx0 : to_.x - sx * rx = to_.x ↔ rx = 0 := by
    rcases hsx with rfl | rfl <;> constructor <;> intro h <;> omega
  have hy0 : to_.y - sy * ry = to_.y ↔ ry = 0 := by
    rcases hsy with rfl | rfl <;> constructor <;> intro h <;> omega
  have hwx : rx ≠ 0 → wrap32 (to_.x - sx * rx + sx) = to_.x - sx * (rx - 1) := by
    intro h
    have : to_.x - sx * rx + sx = to_.x - sx * (rx - 1) := by ring
    rw [this]
    apply wrap32_id <;> rcases hsx with rfl | rfl <;> omega
  have hwy : ry ≠ 0 → wrap32 (to_.y - sy * ry + sy) = to_.y - sy * (ry - 1) := by
    intro h
    have : to_.y - sy * ry + sy = to_.y - sy * (ry - 1) := by ring
    rw [this]
    apply wrap32_id <;> rcases hsy with rfl | rfl <;> omega
  simp only [canvas_line_step, bres_step, walk_pos, hx0, hy0]
  split_ifs <;> simp_all

/-- Every iteration of the walk that does not stop moves closer to the end
point, provided `-b ≤ a`. -/
theorem bres_step_progress (a b error rx ry : Int) (hab : -b ≤ a) (hrx : 0 ≤ rx) (hry : 0 ≤ ry)
    (r : Int × Int × Int) (h : bres_step a b error rx ry = some r) :
    0 ≤ r.2.1 ∧ r.2.1 ≤ rx ∧ 0 ≤ r.2.2 ∧ r.2.2 ≤ ry ∧ r.2.1 + r.2.2 + 1 ≤ rx + ry := by
  unfold bres_step at h
  simp only [] at h
  split_ifs at h <;> simp only [Option.some.injEq] at h <;> subst h <;> simp only [] <;> omega

/-- The loop of `canvas_line` ends: started at remaining distances `rx`, `ry`
from `to_`, it returns after at most `rx + ry + 1` iterations. -/
theorem canvas_line_loop_terminates (draw : XImage → Pair → XImage) (to_ : Pair)
    (a b sx sy : Int) (hab : -b ≤ a) (hsx : sx = 1 ∨ sx = -1) (hsy : sy = 1 ∨ sy = -1)
    (htx : is_i32 to_.x) (hty : is_i32 to_.y) :
    ∀ (n fuel : Nat) (im : XImage) (error rx ry : Int), 0 ≤ rx → 0 ≤ ry → rx + ry ≤ n →
      n + 1 ≤ fuel → is_i32 (to_.x - sx * rx) → is_i32 (to_.y - sy * ry) →
      ∃ r, canvas_line_loop draw to_ a sx (-b) sy fuel im error (walk_pos to_ sx sy (rx, ry))
        = some r := by
  intro n
  induction n with
  | zero =>
    intro fuel im error rx ry hrx hry hn hfuel hpx hpy
    obtain ⟨f, rfl⟩ : ∃ f, fuel = f + 1 := ⟨fuel - 1, by omega⟩
    have h0x : rx = 0 := by omega
    have h0y : ry = 0 := by push_cast at hn; omega
    subst h0x h0y
    simp only [canvas_line_loop]
    split_ifs
    · simp [canvas_line_step, walk_pos]
    · exact ⟨_, rfl⟩
  | succ n ih =>
    intro fuel im error rx ry hrx hry hn hfuel hpx hpy
    obtain ⟨f, rfl⟩ : ∃ f, fuel = f + 1 := ⟨fuel - 1, by omega⟩
    simp only [canvas_line_loop]
    split_ifs
    · rw [canvas_line_step_eq_i32 to_ a b sx sy hsx hsy error rx ry hrx hry htx hty hpx hpy]
      cases hbs : bres_step a b error rx ry with
      | none => exact ⟨_, rfl⟩
      | some r =>
        obtain ⟨e1, rx1, ry1⟩ := r
        have hp := bres_step_progress a b error rx ry hab hrx hry _ hbs
        simp only [] at hp
        have hpx1 : is_i32 (to_.x - sx * rx1) := by
          unfold is_i32 at *
          rcases hsx with rfl | rfl <;> omega
        have hpy1 : is_i32 (to_.y - sy * ry1) := by
          unfold is_i32 at *
          rcases hsy with rfl | rfl <;> omega
        obtain ⟨r', hr'⟩ := ih f (draw im (walk_pos to_ sx sy (rx, ry))) e1 rx1 ry1 hp.1 hp.2.2.1
          (by push_cast at hn; omega) (by omega) hpx1 hpy1
        simp only [Option.map_some']
        rw [hr']
        exact ⟨_, rfl⟩
    · exact ⟨_, rfl⟩

/-- The coordinates between `-2^30` and `2^30`, whose differences are `i32`
values. -/
theorem abs32_diff (p q : Int) (hp : -1073741824 ≤ p ∧ p < 1073741824)
    (hq : -1073741824 ≤ q ∧ q < 1073741824) : abs32 (wrap32 (q - p)) = |q - p| := by
  rw [wrap32_id _ (by omega) (by omega)]
  unfold abs32
  split_ifs with h
  · rw [wrap32_id _ (by omega) (by omega), abs_of_neg h]
  · rw [abs_of_nonneg (by omega)]

/-- The function `canvas_line` returns, for every stamp function and every image,
when the coordinates of `from` and `to` lie between `-2^30` and `2^30`. -/
theorem canvas_line_terminates (draw : XImage → Pair → XImage) (im : XImage)
    (from_ to_ : Pair)
    (hfx : -1073741824 ≤ from_.x ∧ from_.x < 1073741824)
    (hfy : -1073741824 ≤ from_.y ∧ from_.y < 1073741824)
    (htx : -1073741824 ≤ to_.x ∧ to_.x < 1073741824)
    (hty : -1073741824 ≤ to_.y ∧ to_.y < 1073741824) :
    ∀ fuel : Nat, (|to_.x - from_.x| + |to_.y - from_.y|).toNat + 1 ≤ fuel →
      ∃ r, canvas_line fuel draw im from_ to_ = some r := by
  intro fuel hfuel
  have hdx := abs32_diff from_.x to_.x hfx htx
  have hdy := abs32_diff from_.y to_.y hfy hty
  have hax0 : 0 ≤ |to_.x - from_.x| := abs_nonneg _
  have hay0 : 0 ≤ |to_.y - from_.y| := abs_nonneg _
  have haxW : |to_.x - from_.x| < 2147483648 := by
    rw [abs_lt]; constructor <;> omega
  have hayH : |to_.y - from_.y| < 2147483648 := by
    rw [abs_lt]; constructor <;> omega
  have hsx : (if from_.x < to_.x then (1 : Int) else -1) = 1 ∨
      (if from_.x < to_.x then (1 : Int) else -1) = -1 := by
    split_ifs <;> simp
  have hsy : (if from_.y < to_.y then (1 : Int) else -1) = 1 ∨
      (if from_.y < to_.y then (1 : Int) else -1) = -1 := by
    split_ifs <;> simp
  have hpx : to_.x - (if from_.x < to_.x then 1 else -1) * |to_.x - from_.x| = from_.x := by
    split_ifs with h
    · rw [abs_of_nonneg (by omega)]; ring
    · rw [abs_of_nonpos (by omega)]; ring
  have hpy : to_.y - (if from_.y < to_.y then 1 else -1) * |to_.y - from_.y| = from_.y := by
    split_ifs with h
    · rw [abs_of_nonneg (by omega)]; ring
    · rw [abs_of_nonpos (by omega)]; ring
  have hpos : walk_pos to_ (if from_.x < to_.x then 1 else -1)
      (if from_.y < to_.y then 1 else -1) (|to_.x - from_.x|, |to_.y - from_.y|) = from_ := by
    simp only [walk_pos, hpx, hpy]
  have key := canvas_line_loop_terminates draw to_ |to_.x - from_.x| |to_.y - from_.y| _ _
    (by omega) hsx hsy (by unfold is_i32; omega) (by unfold is_i32; omega)
    (|to_.x - from_.x| + |to_.y - from_.y|).toNat fuel im
    (|to_.x - from_.x| - |to_.y - from_.y|) |to_.x - from_.x| |to_.y - from_.y|
    hax0 hay0 (by omega) hfuel (by rw [hpx]; unfold is_i32; omega)
    (by rw [hpy]; unfold is_i32; omega)
  rw [hpos] at key
  obtain ⟨r, hr⟩ := key
  refine ⟨r, ?_⟩
  rw [← hr]
  simp only [canvas_line, hdx, hdy]
  rw [wrap32_id (-|to_.y - from_.y|) (by omega) (by omega),
    wrap32_id (|to_.x - from_.x| + -|to_.y - from_.y|) (by omega) (by omega)]
  rfl

/-! ## Tool handlers -/

/-- C19: `tool_picker_on_release` stores the canvas pixel at the release point
in the active palette entry when the point has `0 < x < width` and
`0 < y < height`, keeping the canvas and the colour indices; otherwise, so also
on row 0 and on column 0, it changes nothing. -/
theorem tool_picker_on_release_strict (P : FloatPrims) (ctx : Ctx) (event : XButtonEvent)
    (hwf : ctx.dc.cv.im.int_sized) :
    ((0 < (P.point_from_scr_to_cv_xy event.x event.y).x ∧
        (P.point_from_scr_to_cv_xy event.x event.y).x < ctx.dc.cv.im.width ∧
        0 < (P.point_from_scr_to_cv_xy event.x event.y).y ∧
        (P.point_from_scr_to_cv_xy event.x event.y).y < ctx.dc.cv.im.height) →
      tool_picker_on_release P ctx event
          = { ctx with
              tc := tc_set_curr_col ctx.tc
                (ctx.dc.cv.im.pix (P.point_from_scr_to_cv_xy event.x event.y).x
                  (P.point_from_scr_to_cv_xy event.x event.y).y) } ∧
        (tool_picker_on_release P ctx event).dc = ctx.dc ∧
        (tool_picker_on_release P ctx event).tc.sdata.curr_col = ctx.tc.sdata.curr_col ∧
        (tool_picker_on_release P ctx event).tc.sdata.prev_col = ctx.tc.sdata.prev_col ∧
        (ctx.tc.sdata.curr_col < ctx.tc.sdata.colarr.length →
          tc_curr_col (tool_picker_on_release P ctx event).tc
            = ctx.dc.cv.im.pix (P.point_from_scr_to_cv_xy event.x event.y).x
                (P.point_from_scr_to_cv_xy event.x event.y).y)) ∧
    (¬ (0 < (P.point_from_scr_to_cv_xy event.x event.y).x ∧
        (P.point_from_scr_to_cv_xy event.x event.y).x < ctx.dc.cv.im.width ∧
        0 < (P.point_from_scr_to_cv_xy event.x event.y).y ∧
        (P.point_from_scr_to_cv_xy event.x event.y).y < ctx.dc.cv.im.height) →
      tool_picker_on_release P ctx event = ctx) := by
  obtain ⟨w0, _, h0, _⟩ := hwf
  have hrect : point_in_rect (P.point_from_scr_to_cv_xy event.x event.y) ⟨0, 0⟩
      ⟨ctx.dc.cv.im.width, ctx.dc.cv.im.height⟩ = true ↔
      (0 < (P.point_from_scr_to_cv_xy event.x event.y).x ∧
        (P.point_from_scr_to_cv_xy event.x event.y).x < ctx.dc.cv.im.width ∧
        0 < (P.point_from_scr_to_cv_xy event.x event.y).y ∧
        (P.point_from_scr_to_cv_xy event.x event.y).y < ctx.dc.cv.im.height) := by
    simp only [point_in_rect, Bool.and_eq_true, decide_eq_true_eq, min_eq_left w0,
      max_eq_right w0, min_eq_left h0, max_eq_right h0]
    tauto
  constructor
  · intro hin
    have hres : tool_picker_on_release P ctx event
        = { ctx with
            tc := tc_set_curr_col ctx.tc
              (ctx.dc.cv.im.pix (P.point_from_scr_to_cv_xy event.x event.y).x
                (P.point_from_scr_to_cv_xy event.x event.y).y) } := by
      simp only [tool_picker_on_release, hrect.2 hin, if_true, XGetPixel]
    rw [hres]
    refine ⟨rfl, rfl, rfl, rfl, ?_⟩
    intro hlen
    simp only [tc_curr_col, tc_set_curr_col]
    rw [List.getD_eq_getElem?_getD, List.getElem?_set_eq_of_lt _ hlen]
    rfl
  · intro hout
    have hf : point_in_rect (P.point_from_scr_to_cv_xy event.x event.y) ⟨0, 0⟩
        ⟨ctx.dc.cv.im.width, ctx.dc.cv.im.height⟩ = false := by
      rw [Bool.eq_false_iff]
      exact fun h => hout (hrect.1 h)
    simp only [tool_picker_on_release, hf, Bool.false_eq_true, if_false]

/-- A release at (2,3) and one at (0,3) on the 7×5 pattern image, an instance of
C19: the first picks the pixel value 33, the second picks nothing. -/
theorem tool_picker_on_release_strict_witness :
    XImage.pattern.int_sized ∧
    tc_curr_col (tool_picker_on_release FloatPrims.unzoomed
      { dc := ⟨⟨XImage.pattern⟩⟩, hist_prevarr := [], hist_nextarr := [],
        tc := ToolCtx.sample .Tool_Picker ⟨0, 0⟩ } ⟨2, 3, 0, 1⟩).tc = 33 ∧
    tool_picker_on_release FloatPrims.unzoomed
      { dc := ⟨⟨XImage.pattern⟩⟩, hist_prevarr := [], hist_nextarr := [],
        tc := ToolCtx.sample .Tool_Picker ⟨0, 0⟩ } ⟨0, 3, 0, 1⟩
      = { dc := ⟨⟨XImage.pattern⟩⟩, hist_prevarr := [], hist_nextarr := [],
          tc := ToolCtx.sample .Tool_Picker ⟨0, 0⟩ } :=
  ⟨by decide,
    ((tool_picker_on_release_strict FloatPrims.unzoomed
      { dc := ⟨⟨XImage.pattern⟩⟩, hist_prevarr := [], hist_nextarr := [],
        tc := ToolCtx.sample .Tool_Picker ⟨0, 0⟩ } ⟨2, 3, 0, 1⟩ (by decide)).1
        (by decide)).2.2.2.2 (by decide),
    (tool_picker_on_release_strict FloatPrims.unzoomed
      { dc := ⟨⟨XImage.pattern⟩⟩, hist_prevarr := [], hist_nextarr := [],
        tc := ToolCtx.sample .Tool_Picker ⟨0, 0⟩ } ⟨0, 3, 0, 1⟩ (by decide)).2 (by decide)⟩

set_option maxRecDepth 1000000 in
/-- C16 as stated fails: with the selection (1,1)-(4,4) picked up at (2,2), the
last processed drag at (3,2) and the release at (4,2), the handler moves the
rectangle by (2,0), so pixel (2,1) gets the background colour; a move by
`drag_to - drag_from = (1,0)` would put the original pixel (1,1), of value 12,
there. -/
theorem tool_selection_on_release_ignores_drag_to :
    Ctx.sample_selection.tc.d.get_sel.drag_to = ⟨3, 2⟩ ∧
    (tool_selection_on_release FloatPrims.unzoomed Ctx.sample_selection
      ⟨4, 2, 0, XLeftMouseBtn⟩).dc.cv.im.pix 2 1 = CANVAS_background_argb ∧
    (canvas_copy_region XImage.pattern ⟨1, 1⟩ ⟨3, 3⟩ ⟨1 + (3 - 2), 1 + (2 - 2)⟩ true).pix 2 1
      = 12 := by
  refine ⟨by decide, by decide, by decide⟩

/-- C16, amended: a main-button release while the selection is dragging copies
the selection rectangle to `area + (release point - drag_from)`, clearing the
source unless Shift is held, and then makes `begin`, `end`, `drag_from` and
`drag_to` absent; a processed drag while dragging only sets `drag_to`, which the
release does not read. -/
theorem tool_selection_on_release_moves (P : FloatPrims) (ctx : Ctx) (event : XButtonEvent)
    (hbtn : event.button = XLeftMouseBtn) (hdrag : SELECTION_DRAGGING ctx.tc = true) :
    (tool_selection_on_release P ctx event).dc.cv.im
      = canvas_copy_region ctx.dc.cv.im
          ⟨min ctx.tc.d.get_sel.begin_.x ctx.tc.d.get_sel.end_.x,
            min ctx.tc.d.get_sel.begin_.y ctx.tc.d.get_sel.end_.y⟩
          ⟨wrap32 (max ctx.tc.d.get_sel.begin_.x ctx.tc.d.get_sel.end_.x
              - min ctx.tc.d.get_sel.begin_.x ctx.tc.d.get_sel.end_.x),
            wrap32 (max ctx.tc.d.get_sel.begin_.y ctx.tc.d.get_sel.end_.y
              - min ctx.tc.d.get_sel.begin_.y ctx.tc.d.get_sel.end_.y)⟩
          ⟨wrap32 (min ctx.tc.d.get_sel.begin_.x ctx.tc.d.get_sel.end_.x
              + wrap32 ((P.point_from_scr_to_cv_xy event.x event.y).x
                  - ctx.tc.d.get_sel.drag_from.x)),
            wrap32 (min ctx.tc.d.get_sel.begin_.y ctx.tc.d.get_sel.end_.y
              + wrap32 ((P.point_from_scr_to_cv_xy event.x event.y).y
                  - ctx.tc.d.get_sel.drag_from.y))⟩
          (decide (Nat.land event.state ShiftMask = 0)) ∧
    (tool_selection_on_release P ctx event).tc.d
      = .sel { begin_ := PNIL, end_ := PNIL, drag_from := PNIL, drag_to := PNIL } ∧
    SELECTION_DRAGGING (tool_selection_on_release P ctx event).tc = false ∧
    HAS_SELECTION (tool_selection_on_release P ctx event).tc = false ∧
    ∀ motion : XMotionEvent, ctx.input.holding_button = XLeftMouseBtn →
      (tool_selection_on_drag P ctx motion).tc.d
          = .sel { ctx.tc.d.get_sel with
              drag_to := P.point_from_scr_to_cv_xy motion.x motion.y } ∧
        (tool_selection_on_drag P ctx motion).dc = ctx.dc ∧
        (tool_selection_on_release P (tool_selection_on_drag P ctx motion) event).dc.cv.im
          = (tool_selection_on_release P ctx event).dc.cv.im := by
  have hrel : tool_selection_on_release P ctx event
      = { ctx.with_canvas (canvas_copy_region ctx.dc.cv.im
          ⟨min ctx.tc.d.get_sel.begin_.x ctx.tc.d.get_sel.end_.x,
            min ctx.tc.d.get_sel.begin_.y ctx.tc.d.get_sel.end_.y⟩
          ⟨wrap32 (max ctx.tc.d.get_sel.begin_.x ctx.tc.d.get_sel.end_.x
              - min ctx.tc.d.get_sel.begin_.x ctx.tc.d.get_sel.end_.x),
            wrap32 (max ctx.tc.d.get_sel.begin_.y ctx.tc.d.get_sel.end_.y
              - min ctx.tc.d.get_sel.begin_.y ctx.tc.d.get_sel.end_.y)⟩
          ⟨wrap32 (min ctx.tc.d.get_sel.begin_.x ctx.tc.d.get_sel.end_.x
              + wrap32 ((P.point_from_scr_to_cv_xy event.x event.y).x
                  - ctx.tc.d.get_sel.drag_from.x)),
            wrap32 (min ctx.tc.d.get_sel.begin_.y ctx.tc.d.get_sel.end_.y
              + wrap32 ((P.point_from_scr_to_cv_xy event.x event.y).y
                  - ctx.tc.d.get_sel.drag_from.y))⟩
          (decide (Nat.land event.state ShiftMask = 0))) with
          tc := { ctx.tc with d := .sel SelectionData.unselected } } := by
    simp only [tool_selection_on_release, hbtn, ne_eq, not_true_eq_false, if_false, hdrag,
      if_true]
  have ht : ctx.tc.t = .Tool_Selection := by
    simp only [SELECTION_DRAGGING, Bool.and_eq_true, decide_eq_true_eq] at hdrag
    exact hdrag.1.1
  refine ⟨by rw [hrel]; rfl, by rw [hrel]; rfl, ?_, ?_, ?_⟩
  · rw [hrel]
    simp [SELECTION_DRAGGING, SelectionData.unselected, ToolData.get_sel, PNIL]
  · rw [hrel]
    simp [HAS_SELECTION, SelectionData.unselected, ToolData.get_sel, PNIL]
  · intro motion hhold
    have hdragm : tool_selection_on_drag P ctx motion
        = { ctx with
            tc := { ctx.tc with
              d := .sel { ctx.tc.d.get_sel with
                drag_to := P.point_from_scr_to_cv_xy motion.x motion.y } } } := by
      simp only [tool_selection_on_drag, hhold, ne_eq, not_true_eq_false, if_false, hdrag,
        if_true]
    have hdrag' : SELECTION_DRAGGING (tool_selection_on_drag P ctx motion).tc = true := by
      rw [hdragm]
      simp only [SELECTION_DRAGGING, Bool.and_eq_true, decide_eq_true_eq] at hdrag ⊢
      exact ⟨⟨ht, hdrag.1.2⟩, hdrag.2⟩
    refine ⟨by rw [hdragm], by rw [hdragm], ?_⟩
    rw [hrel]
    simp only [tool_selection_on_release, hbtn, ne_eq, not_true_eq_false, if_false, hdrag',
      if_true]
    rw [hdragm]
    rfl

/-- The release at (4,2) of the sample selection picked up at (2,2), an instance
of the amended C16: the rectangle is moved by (2,0). -/
theorem tool_selection_on_release_moves_witness :
    (⟨4, 2, 0, XLeftMouseBtn⟩ : XButtonEvent).button = XLeftMouseBtn ∧
    SELECTION_DRAGGING Ctx.sample_selection.tc = true ∧
    (tool_selection_on_release FloatPrims.unzoomed Ctx.sample_selection
        ⟨4, 2, 0, XLeftMouseBtn⟩).tc.d
      = .sel { begin_ := PNIL, end_ := PNIL, drag_from := PNIL, drag_to := PNIL } :=
  ⟨rfl, by decide,
    (tool_selection_on_release_moves FloatPrims.unzoomed Ctx.sample_selection
      ⟨4, 2, 0, XLeftMouseBtn⟩ rfl (by decide)).2.1⟩

/-- The C division by 2 of an `i32` lies between 0 and the dividend. -/
theorem tdiv_two_between (x : Int) :
    (0 ≤ x → 0 ≤ Int.tdiv x 2 ∧ Int.tdiv x 2 ≤ x) ∧
    (x ≤ 0 → x ≤ Int.tdiv x 2 ∧ Int.tdiv x 2 ≤ 0) := by
  constructor
  · intro h
    rw [Int.tdiv_eq_ediv h (by decide)]
    omega
  · intro h
    have h1 : Int.tdiv x 2 = -Int.tdiv (-x) 2 := by
      rw [Int.neg_tdiv, neg_neg]
    rw [h1, Int.tdiv_eq_ediv (by omega) (by decide)]
    omega

/-- The function `canvas_triangle` returns when the corner `c` and the opposite
corner `c + dims` have coordinates between `-2^29` and `2^29`. -/
theorem canvas_triangle_terminates (tc : ToolCtx) (im : XImage) (c dims : Pair)
    (hcx : -536870912 ≤ c.x ∧ c.x < 536870912) (hcy : -536870912 ≤ c.y ∧ c.y < 536870912)
    (hdx : -536870912 ≤ c.x + dims.x ∧ c.x + dims.x < 536870912)
    (hdy : -536870912 ≤ c.y + dims.y ∧ c.y + dims.y < 536870912) :
    ∀ fuel : Nat, 4294967296 ≤ fuel → ∃ r, canvas_triangle fuel tc im c dims = some r := by
  intro fuel hfuel
  have ht := tdiv_two_between dims.x
  have he0 : wrap32 (c.x + Int.tdiv dims.x 2) = c.x + Int.tdiv dims.x 2 := by
    apply wrap32_id
    · rcases le_total 0 dims.x with h | h
      · have := ht.1 h; omega
      · have := ht.2 h; omega
    · rcases le_total 0 dims.x with h | h
      · have := ht.1 h; omega
      · have := ht.2 h; omega
  have he0b : -1073741824 ≤ c.x + Int.tdiv dims.x 2 ∧ c.x + Int.tdiv dims.x 2 < 1073741824 := by
    rcases le_total 0 dims.x with h | h
    · have := ht.1 h; omega
    · have := ht.2 h; omega
  have hex : wrap32 (c.x + dims.x) = c.x + dims.x := wrap32_id _ (by omega) (by omega)
  have hey : wrap32 (c.y + dims.y) = c.y + dims.y := wrap32_id _ (by omega) (by omega)
  have hlen : ∀ (p q : Pair), (-1073741824 ≤ p.x ∧ p.x < 1073741824) →
      (-1073741824 ≤ p.y ∧ p.y < 1073741824) → (-1073741824 ≤ q.x ∧ q.x < 1073741824) →
      (-1073741824 ≤ q.y ∧ q.y < 1073741824) →
      (|q.x - p.x| + |q.y - p.y|).toNat + 1 ≤ fuel := by
    intro p q h1 h2 h3 h4
    have a1 : |q.x - p.x| < 2147483648 := by rw [abs_lt]; constructor <;> omega
    have a2 : |q.y - p.y| < 2147483648 := by rw [abs_lt]; constructor <;> omega
    omega
  unfold canvas_triangle
  simp only [he0, hex, hey]
  obtain ⟨r1, hr1⟩ := canvas_line_terminates (canvas_draw_fn_pencil tc) im
    ⟨c.x + Int.tdiv dims.x 2, c.y⟩ ⟨c.x, c.y + dims.y⟩ he0b (by simp only []; omega)
    (by simp only []; omega) (by simp only []; omega) fuel
    (hlen _ _ he0b (by simp only []; omega) (by simp only []; omega) (by simp only []; omega))
  obtain ⟨r2, hr2⟩ := canvas_line_terminates (canvas_draw_fn_pencil tc) r1.1
    ⟨c.x, c.y + dims.y⟩ ⟨c.x + dims.x, c.y + dims.y⟩ (by simp only []; omega)
    (by simp only []; omega) (by simp only []; omega) (by simp only []; omega) fuel
    (hlen _ _ (by simp only []; omega) (by simp only []; omega) (by simp only []; omega)
      (by simp only []; omega))
  obtain ⟨r3, hr3⟩ := canvas_line_terminates (canvas_draw_fn_pencil tc) r2.1
    ⟨c.x + Int.tdiv dims.x 2, c.y⟩ ⟨c.x + dims.x, c.y + dims.y⟩ he0b (by simp only []; omega)
    (by simp only []; omega) (by simp only []; omega) fuel
    (hlen _ _ he0b (by simp only []; omega) (by simp only []; omega) (by simp only []; omega))
  rw [hr1, Option.some_bind, hr2, Option.some_bind, hr3]
  exact ⟨_, rfl⟩

/-- C18 as stated fails: with a filled rectangle anchored at (1,1) on a blank
5×5 canvas, a main-button release at (3,3) that ends a drag (`is_dragging` set)
leaves pixel (1,1) at 0, while the pre-gesture snapshot with the figure drawn to
the release point has the colour 7 there. -/
theorem tool_figure_on_release_skips_after_drag :
    (tool_figure_on_release 8 FloatPrims.unzoomed
      (Ctx.sample_blank ToolCtx.sample_filled_rect true)
      ⟨3, 3, 0, XLeftMouseBtn⟩).map (fun c => c.dc.cv.im.pix 1 1) = some 0 ∧
    (Ctx.sample_blank ToolCtx.sample_filled_rect true).hist_prevarr.head?.map
      (fun h => (canvas_figure 8 FloatPrims.unzoomed ToolCtx.sample_filled_rect h.im
        ⟨3, 3⟩ ⟨1, 1⟩).map (fun im => im.pix 1 1)) = some (some 7) := by
  refine ⟨rfl, by decide⟩

/-- C18, amended: `tool_figure_on_release` changes nothing when the release ends
a drag (`is_dragging` set), so the canvas stays as the last processed drag
preview left it; on a main-button release that ends no drag it draws the current
figure between the anchor and the release point onto the current canvas, and
`canvas_figure` returns for coordinates between `-2^29` and `2^29`. -/
theorem tool_figure_on_release_commit (P : FloatPrims) (ctx : Ctx) (event : XButtonEvent) :
    (ctx.input.is_dragging = true →
      ∀ fuel, tool_figure_on_release fuel P ctx event = some ctx) ∧
    (event.button = XLeftMouseBtn → ctx.input.is_dragging = false →
      ∀ fuel, tool_figure_on_release fuel P ctx event
        = (canvas_figure fuel P ctx.tc ctx.dc.cv.im (P.point_from_scr_to_cv_xy event.x event.y)
            ctx.tc.sdata.anchor).map ctx.with_canvas) ∧
    (∀ p1 p2 : Pair, (-536870912 ≤ p1.x ∧ p1.x < 536870912) →
      (-536870912 ≤ p1.y ∧ p1.y < 536870912) → (-536870912 ≤ p2.x ∧ p2.x < 536870912) →
      (-536870912 ≤ p2.y ∧ p2.y < 536870912) →
      ∀ fuel : Nat, 4294967296 ≤ fuel →
        ∃ im, canvas_figure fuel P ctx.tc ctx.dc.cv.im p1 p2 = some im) := by
  refine ⟨?_, ?_, ?_⟩
  · intro hd fuel
    simp [tool_figure_on_release, hd]
  · intro hbtn hnd fuel
    simp [tool_figure_on_release, hbtn, hnd]
  · intro p1 p2 h1 h2 h3 h4 fuel hfuel
    unfold canvas_figure
    split_ifs with ht
    · exact ⟨_, rfl⟩
    · simp only []
      have hdx : wrap32 (p1.x - p2.x) = p1.x - p2.x := wrap32_id _ (by omega) (by omega)
      have hdy : wrap32 (p1.y - p2.y) = p1.y - p2.y := wrap32_id _ (by omega) (by omega)
      cases ctx.tc.d.get_fig.curr with
      | Figure_Circle => exact ⟨_, rfl⟩
      | Figure_Rectangle =>
        simp only []
        split_ifs <;> exact ⟨_, rfl⟩
      | Figure_Triangle =>
        simp only []
        split_ifs
        · exact ⟨_, rfl⟩
        · rw [hdx, hdy]
          exact canvas_triangle_terminates ctx.tc ctx.dc.cv.im p2 ⟨p1.x - p2.x, p1.y - p2.y⟩
            h3 h4 (by simp only []; omega) (by simp only []; omega) fuel hfuel

/-- A filled rectangle released at (3,3) without a drag, an instance of the
amended C18: the release draws the rectangle from the anchor (1,1). -/
theorem tool_figure_on_release_commit_witness :
    tool_figure_on_release 8 FloatPrims.unzoomed
        (Ctx.sample_blank ToolCtx.sample_filled_rect false) ⟨3, 3, 0, XLeftMouseBtn⟩
      = (canvas_figure 8 FloatPrims.unzoomed ToolCtx.sample_filled_rect (XImage.uniform 5 5 0)
          (FloatPrims.unzoomed.point_from_scr_to_cv_xy 3 3) ⟨1, 1⟩).map
          (Ctx.sample_blank ToolCtx.sample_filled_rect false).with_canvas :=
  (tool_figure_on_release_commit FloatPrims.unzoomed
    (Ctx.sample_blank ToolCtx.sample_filled_rect false) ⟨3, 3, 0, XLeftMouseBtn⟩).2.1 rfl rfl 8

/-! ## Radial menu hit test -/

/-- An integer square root `s` of `m`, plus one half when `m` is no perfect
square, compares with 40 and 225 as the exact square root of `m` does. -/
theorem sqrt_half_compare (m s : Nat) (h1 : s * s ≤ m) (h2 : m < (s + 1) * (s + 1)) :
    (((s : ℚ) + (if s * s = m then 0 else 1 / 2) < ((40 : Nat) : ℚ)) ↔ (m : Int) < 1600) ∧
    ((((225 : Nat) : ℚ) < (s : ℚ) + (if s * s = m then 0 else 1 / 2)) ↔ (50625 : Int) < m) := by
  constructor
  · constructor
    · intro h
      have hs : s < 40 := by
        by_contra hcon
        have : (40 : ℚ) ≤ (s : ℚ) := by exact_mod_cast (by omega : 40 ≤ s)
        split_ifs at h <;> norm_num at h <;> linarith
      have : m < 1600 := by nlinarith
      exact_mod_cast this
    · intro h
      have hm : m < 1600 := by exact_mod_cast h
      have hs : s ≤ 39 := by
        by_contra hcon
        have : 40 ≤ s := by omega
        nlinarith
      have : (s : ℚ) ≤ 39 := by exact_mod_cast hs
      split_ifs <;> norm_num <;> linarith
  · constructor
    · intro h
      have hm : 50625 < m := by
        by_cases hsq : s * s = m
        · rw [if_pos hsq] at h
          norm_num at h
          have : 225 < s := by exact_mod_cast h
          nlinarith
        · rw [if_neg hsq] at h
          have hs : 225 ≤ s := by
            by_contra hcon
            have : (s : ℚ) ≤ 224 := by exact_mod_cast (by omega : s ≤ 224)
            norm_num at h
            linarith
          have : 225 * 225 ≤ s * s := Nat.mul_le_mul hs hs
          omega
      exact_mod_cast hm
    · intro h
      have hm : 50625 < m := by exact_mod_cast h
      have hs : 225 ≤ s := by
        by_contra hcon
        have : s + 1 ≤ 225 := by omega
        have : (s + 1) * (s + 1) ≤ 225 * 225 := Nat.mul_le_mul this this
        omega
      by_cases hs' : s = 225
      · subst hs'
        rw [if_neg (by omega)]
        norm_num
      · have h226 : (226 : ℚ) ≤ (s : ℚ) := by exact_mod_cast (by omega : 226 ≤ s)
        have hhalf : (0 : ℚ) ≤ (if s * s = m then 0 else 1 / 2) := by
          split_ifs <;> norm_num
        have h225 : (((225 : Nat) : ℚ)) = 225 := by norm_num
        rw [h225]
        linarith

theorem libm_sample_sqrt_exact : Libm.sample.sqrt_exact_at_radii := by
  intro n hn
  obtain ⟨m, rfl⟩ : ∃ m : Nat, n = (m : Int) := ⟨n.toNat, by omega⟩
  simp only [Libm.sample, Int.toNat_ofNat, SELECTION_CIRCLE_inner_r_px,
    SELECTION_CIRCLE_outer_r_px]
  exact sqrt_half_compare m (Nat.sqrt m) (Nat.sqrt_le m) (Nat.lt_succ_sqrt m)

theorem libm_sample_atan_zero : Libm.sample.atan_zero := by
  intro x _
  simp [Libm.sample]

/-- An `i32` offset whose square is below `2^31` is below `46341` in size. -/
theorem offset_of_sq_lt (d e : Int) (h : d ^ 2 + e ^ 2 < 2147483648) :
    -46341 < d ∧ d < 46341 ∧ 0 ≤ d * d ∧ d * d < 2147483648 := by
  have he : 0 ≤ e ^ 2 := sq_nonneg e
  have hd : 0 ≤ d * d := mul_self_nonneg d
  refine ⟨?_, ?_, hd, by nlinarith⟩
  · by_contra hcon
    have : d ≤ -46341 := by omega
    nlinarith
  · by_contra hcon
    have : 46341 ≤ d := by omega
    nlinarith

/-- C13: the radial menu hit test yields `NIL` when the pointer is at the
centre, and when the squared distance from the centre is below `40^2` or above
`225^2`, for every item count. -/
theorem sel_circ_curr_item_nil (L : Libm) (hsqrt : L.sqrt_exact_at_radii)
    (sc : SelectionCircle) (x y : Int)
    (hrange : (x - sc.x) ^ 2 + (y - sc.y) ^ 2 < 2147483648) :
    ((x = sc.x ∧ y = sc.y) → sel_circ_curr_item L sc x y = NIL) ∧
    (((x - sc.x) ^ 2 + (y - sc.y) ^ 2 < 40 ^ 2 ∨ 225 ^ 2 < (x - sc.x) ^ 2 + (y - sc.y) ^ 2) →
      sel_circ_curr_item L sc x y = NIL) := by
  have hx := offset_of_sq_lt (x - sc.x) (y - sc.y) hrange
  have hy := offset_of_sq_lt (y - sc.y) (x - sc.x) (by rw [add_comm]; exact hrange)
  have hwx : wrap32 (x - sc.x) = x - sc.x := wrap32_id _ (by omega) (by omega)
  have hwy : wrap32 (y - sc.y) = y - sc.y := wrap32_id _ (by omega) (by omega)
  have hsum : (x - sc.x) * (x - sc.x) + (y - sc.y) * (y - sc.y)
      = (x - sc.x) ^ 2 + (y - sc.y) ^ 2 := by ring
  have hwxx : wrap32 ((x - sc.x) * (x - sc.x)) = (x - sc.x) * (x - sc.x) :=
    wrap32_id _ (by omega) (by omega)
  have hwyy : wrap32 ((y - sc.y) * (y - sc.y)) = (y - sc.y) * (y - sc.y) :=
    wrap32_id _ (by omega) (by omega)
  have hwsum : wrap32 ((x - sc.x) * (x - sc.x) + (y - sc.y) * (y - sc.y))
      = (x - sc.x) ^ 2 + (y - sc.y) ^ 2 := by
    rw [wrap32_id _ (by omega) (by omega), hsum]
  constructor
  · rintro ⟨rfl, rfl⟩
    simp [sel_circ_curr_item, wrap32]
  · intro hout
    have hn0 : 0 ≤ (x - sc.x) ^ 2 + (y - sc.y) ^ 2 := by
      have := sq_nonneg (x - sc.x)
      have := sq_nonneg (y - sc.y)
      omega
    obtain ⟨hin, hout'⟩ := hsqrt _ hn0
    have hrad : L.sqrt ((x - sc.x) ^ 2 + (y - sc.y) ^ 2) > (SELECTION_CIRCLE_outer_r_px : ℚ)
        ∨ L.sqrt ((x - sc.x) ^ 2 + (y - sc.y) ^ 2) < (SELECTION_CIRCLE_inner_r_px : ℚ) := by
      rcases hout with h | h
      · exact Or.inr (hin.2 (by norm_num at h; exact h))
      · exact Or.inl (hout'.2 (by norm_num at h; exact h))
    unfold sel_circ_curr_item
    simp only [hwx, hwy, hwxx, hwyy, hwsum]
    by_cases hc : x - sc.x = 0 ∧ y - sc.y = 0
    · rw [if_pos hc]
    · rw [if_neg hc, if_pos hrad]

/-- A pointer at the centre (300,300) and one at distance 30 from it, an instance
of C13. -/
theorem sel_circ_curr_item_nil_witness :
    Libm.sample.sqrt_exact_at_radii ∧
    ((330 : Int) - 300) ^ 2 + ((300 : Int) - 300) ^ 2 < 2147483648 ∧
    sel_circ_curr_item Libm.sample ⟨true, 300, 300, 6⟩ 330 300 = NIL :=
  ⟨libm_sample_sqrt_exact, by decide,
    (sel_circ_curr_item_nil Libm.sample libm_sample_sqrt_exact ⟨true, 300, 300, 6⟩ 330 300
      (by decide)).2 (Or.inl (by decide))⟩

/-- C14 (the code departs from the claim): for a menu of 5 or 6 items and a
pointer at `(center.x + r, center.y)` with `40 ≤ r ≤ 225`, the hit test returns
the item count, not the item index 0. -/
theorem sel_circ_curr_item_angle_zero (L : Libm) (hsqrt : L.sqrt_exact_at_radii)
    (hatan : L.atan_zero) (cx cy r : Int) (n : Nat) (hn : n = 5 ∨ n = 6)
    (hr : 40 ≤ r ∧ r ≤ 225) :
    sel_circ_curr_item L ⟨true, cx, cy, n⟩ (cx + r) cy = n ∧
    sel_circ_curr_item L ⟨true, cx, cy, n⟩ (cx + r) cy ≠ 0 := by
  have hwx : wrap32 (cx + r - cx) = r := by
    rw [show cx + r - cx = r by ring]
    exact wrap32_id _ (by omega) (by omega)
  have hwy : wrap32 (cy - cy) = 0 := by
    rw [sub_self]; rfl
  have hrr0 : 0 ≤ r * r := mul_self_nonneg r
  have hrr1 : 1600 ≤ r * r := by nlinarith
  have hrr2 : r * r ≤ 50625 := by nlinarith
  have hwrr : wrap32 (wrap32 (r * r) + wrap32 (0 * 0)) = r * r := by
    rw [wrap32_id (r * r) (by omega) (by omega), show (0 : Int) * 0 = 0 by ring,
      show wrap32 0 = 0 by rfl, add_zero, wrap32_id (r * r) (by omega) (by omega)]
  obtain ⟨hin, hout⟩ := hsqrt (r * r) hrr0
  have h1 : ¬ ((SELECTION_CIRCLE_outer_r_px : ℚ) < L.sqrt (r * r)
      ∨ L.sqrt (r * r) < (SELECTION_CIRCLE_inner_r_px : ℚ)) := by
    rintro (h | h)
    · have := hout.1 h; omega
    · have := hin.1 h; omega
  have hval : sel_circ_curr_item L ⟨true, cx, cy, n⟩ (cx + r) cy = n := by
    unfold sel_circ_curr_item
    simp only [hwx, hwy, hwrr]
    rw [if_neg (by omega), if_neg (by simpa [gt_iff_lt] using h1), hatan r (by omega),
      if_neg (by omega), if_pos (by omega)]
    rcases hn with rfl | rfl <;> norm_num [PI, double_to_i32] <;> rfl
  refine ⟨hval, ?_⟩
  rw [hval]
  rcases hn with rfl | rfl <;> decide

/-- The menu of 6 items centred at (300,300) with the pointer at (400,300), the
failing input of C14: the hit test returns 6. -/
theorem sel_circ_curr_item_angle_zero_witness :
    Libm.sample.sqrt_exact_at_radii ∧ Libm.sample.atan_zero ∧
    sel_circ_curr_item Libm.sample ⟨true, 300, 300, 6⟩ (300 + 100) 300 = (6 : Nat) :=
  ⟨libm_sample_sqrt_exact, libm_sample_atan_zero,
    (sel_circ_curr_item_angle_zero Libm.sample libm_sample_sqrt_exact libm_sample_atan_zero
      300 300 100 6 (Or.inr rfl) (by decide)).1⟩

/-! ## Alpha blending -/

/-- One blended channel: for 8-bit channel values and `a ≤ 255` the mixed value
`((a + 1) * f + (256 - a) * b) >> 8` lies between the two inputs. -/
theorem blend_channel_between (f b a : Nat) (hf : f < 256) (hb : b < 256) (ha : a ≤ 255) :
    min f b ≤ u32 (u32 (a + 1) * f + u32_sub 256 a * b) >>> 8 ∧
      u32 (u32 (a + 1) * f + u32_sub 256 a * b) >>> 8 ≤ max f b := by
  have h1 : u32 (a + 1) = a + 1 := by unfold u32; omega
  have h2 : u32_sub 256 a = 256 - a := by unfold u32_sub; omega
  have hfa : (a + 1) * f ≤ 256 * 255 := Nat.mul_le_mul (by omega) (by omega)
  have hba : (256 - a) * b ≤ 256 * 255 := Nat.mul_le_mul (by omega) (by omega)
  have h3 : u32 ((a + 1) * f + (256 - a) * b) = (a + 1) * f + (256 - a) * b := by
    unfold u32; omega
  rw [h1, h2, h3, Nat.shiftRight_eq_div_pow]
  obtain ⟨k, hk⟩ : ∃ k, 256 - a = k := ⟨_, rfl⟩
  rw [hk]
  have hka : a + 1 + k = 257 := by omega
  rcases Nat.le_total f b with hfb | hfb
  · rw [Nat.min_eq_left hfb, Nat.max_eq_right hfb]
    have e1 : (a + 1) * f + k * f = 257 * f := by rw [← Nat.add_mul, hka]
    have e2 : (a + 1) * b + k * b = 257 * b := by rw [← Nat.add_mul, hka]
    have l1 : k * f ≤ k * b := Nat.mul_le_mul_left k hfb
    have l2 : (a + 1) * f ≤ (a + 1) * b := Nat.mul_le_mul_left _ hfb
    constructor
    · rw [Nat.le_div_iff_mul_le (by norm_num)]; omega
    · have : (a + 1) * f + k * b < (b + 1) * 2 ^ 8 := by omega
      exact Nat.le_of_lt_succ ((Nat.div_lt_iff_lt_mul (by norm_num)).2 this)
  · rw [Nat.min_eq_right hfb, Nat.max_eq_left hfb]
    have e1 : (a + 1) * f + k * f = 257 * f := by rw [← Nat.add_mul, hka]
    have e2 : (a + 1) * b + k * b = 257 * b := by rw [← Nat.add_mul, hka]
    have l1 : k * b ≤ k * f := Nat.mul_le_mul_left k hfb
    have l2 : (a + 1) * b ≤ (a + 1) * f := Nat.mul_le_mul_left _ hfb
    constructor
    · rw [Nat.le_div_iff_mul_le (by norm_num)]; omega
    · have : (a + 1) * f + k * b < (f + 1) * 2 ^ 8 := by omega
      exact Nat.le_of_lt_succ ((Nat.div_lt_iff_lt_mul (by norm_num)).2 this)

/-- A byte mask is a remainder modulo 256. -/
theorem and_255_eq_mod (x : Nat) : x &&& 0xFF = x % 256 :=
  Nat.and_pow_two_sub_one_eq_mod x 8

/-- Packing four bytes with shifts and `|` is the positional sum. -/
theorem pack_bytes_eq (r g b : Nat) (hr : r < 256) (hg : g < 256) (hb : b < 256) :
    u32 (0xFF <<< 24) ||| u32 (r <<< 16) ||| u32 (g <<< 8) ||| b =
      4278190080 + r * 65536 + g * 256 + b := by
  have e0 : u32 (0xFF <<< 24) = 2 ^ 24 * 255 := by decide
  have e1 : u32 (r <<< 16) = 2 ^ 16 * r := by
    rw [Nat.shiftLeft_eq]; unfold u32; omega
  have e2 : u32 (g <<< 8) = 2 ^ 8 * g := by
    rw [Nat.shiftLeft_eq]; unfold u32; omega
  rw [e0, e1, e2]
  have s1 : 2 ^ 24 * 255 ||| 2 ^ 16 * r = 2 ^ 16 * (256 * 255 + r) := by
    rw [← Nat.mul_add_lt_is_or (by omega) 255]; omega
  have s2 : 2 ^ 16 * (256 * 255 + r) ||| 2 ^ 8 * g = 2 ^ 8 * (65536 * 255 + 256 * r + g) := by
    rw [← Nat.mul_add_lt_is_or (by omega) (256 * 255 + r)]; omega
  have s3 : 2 ^ 8 * (65536 * 255 + 256 * r + g) ||| b =
      2 ^ 8 * (65536 * 255 + 256 * r + g) + b := by
    rw [← Nat.mul_add_lt_is_or (by omega) (65536 * 255 + 256 * r + g)]
  rw [s1, s2, s3]; omega

/-- The bytes of a packed opaque pixel. -/
theorem packed_bytes (r g b : Nat) (hr : r < 256) (hg : g < 256) (hb : b < 256) :
    argb_alpha (4278190080 + r * 65536 + g * 256 + b) = 0xFF ∧
      argb_red (4278190080 + r * 65536 + g * 256 + b) = r ∧
      argb_green (4278190080 + r * 65536 + g * 256 + b) = g ∧
      argb_blue (4278190080 + r * 65536 + g * 256 + b) = b := by
  simp only [argb_alpha, argb_red, argb_green, argb_blue, and_255_eq_mod,
    Nat.shiftRight_eq_div_pow]
  refine ⟨?_, ?_, ?_, ?_⟩ <;> omega

/-- One mixed channel of `blend_background`, as the source computes it. -/
theorem blend_background_packed (fg bg : argb) (a : Nat) (ha : a ≤ 255) :
    (blend_background fg bg a : Nat) =
      4278190080 +
        (u32 (u32 (a + 1) * argb_red fg + u32_sub 256 a * argb_red bg) >>> 8) * 65536 +
        (u32 (u32 (a + 1) * argb_green fg + u32_sub 256 a * argb_green bg) >>> 8) * 256 +
        (u32 (u32 (a + 1) * argb_blue fg + u32_sub 256 a * argb_blue bg) >>> 8) ∧
      u32 (u32 (a + 1) * argb_red fg + u32_sub 256 a * argb_red bg) >>> 8 < 256 ∧
      u32 (u32 (a + 1) * argb_green fg + u32_sub 256 a * argb_green bg) >>> 8 < 256 ∧
      u32 (u32 (a + 1) * argb_blue fg + u32_sub 256 a * argb_blue bg) >>> 8 < 256 := by
  have hr : argb_red fg < 256 ∧ argb_red bg < 256 := by
    simp only [argb_red, and_255_eq_mod]; omega
  have hg : argb_green fg < 256 ∧ argb_green bg < 256 := by
    simp only [argb_green, and_255_eq_mod]; omega
  have hb : argb_blue fg < 256 ∧ argb_blue bg < 256 := by
    simp only [argb_blue, and_255_eq_mod]; omega
  have br := blend_channel_between _ _ a hr.1 hr.2 ha
  have bgn := blend_channel_between _ _ a hg.1 hg.2 ha
  have bb := blend_channel_between _ _ a hb.1 hb.2 ha
  have e : blend_background fg bg a =
      u32 (0xFF <<< 24) |||
        u32 ((u32 (u32 (a + 1) * argb_red fg + u32_sub 256 a * argb_red bg) >>> 8) <<< 16) |||
        u32 ((u32 (u32 (a + 1) * argb_green fg + u32_sub 256 a * argb_green bg) >>> 8) <<< 8) |||
        (u32 (u32 (a + 1) * argb_blue fg + u32_sub 256 a * argb_blue bg) >>> 8) := rfl
  refine ⟨?_, by omega, by omega, by omega⟩
  rw [e, pack_bytes_eq _ _ _ (by omega) (by omega) (by omega)]

/-- The result of `blend_background` for `a ≤ 255`, byte by byte: the alpha byte is
`0xFF` and every colour byte is the mixed channel. -/
theorem blend_background_bytes (fg bg : argb) (a : Nat) (ha : a ≤ 255) :
    argb_alpha (blend_background fg bg a) = 0xFF ∧
      argb_red (blend_background fg bg a) =
        u32 (u32 (a + 1) * argb_red fg + u32_sub 256 a * argb_red bg) >>> 8 ∧
      argb_green (blend_background fg bg a) =
        u32 (u32 (a + 1) * argb_green fg + u32_sub 256 a * argb_green bg) >>> 8 ∧
      argb_blue (blend_background fg bg a) =
        u32 (u32 (a + 1) * argb_blue fg + u32_sub 256 a * argb_blue bg) >>> 8 := by
  obtain ⟨e, h1, h2, h3⟩ := blend_background_packed fg bg a ha
  rw [e]
  exact packed_bytes _ _ _ h1 h2 h3

/-- A mixed channel at full alpha is the foreground channel, and at alpha zero the
background channel. -/
theorem blend_channel_extremes (f b : Nat) (hf : f < 256) (hb : b < 256) :
    u32 (u32 (255 + 1) * f + u32_sub 256 255 * b) >>> 8 = f ∧
      u32 (u32 (0 + 1) * f + u32_sub 256 0 * b) >>> 8 = b := by
  have h1 : u32 (255 + 1) = 256 := by decide
  have h2 : u32_sub 256 255 = 1 := by decide
  have h3 : u32 (0 + 1) = 1 := by decide
  have h4 : u32_sub 256 0 = 256 := by decide
  rw [h1, h2, h3, h4, Nat.shiftRight_eq_div_pow, Nat.shiftRight_eq_div_pow]
  unfold u32
  constructor <;> omega

/-- Claim C21: for all pixels `fg`, `bg` and every alpha in [0, 255] the result of
`blend_background` is fully opaque: it is a 32-bit value whose top eight bits, the
alpha byte, are `0xFF`. -/
theorem blend_background_opaque (fg bg : argb) (a : Nat) (ha : a ≤ 255) :
    (blend_background fg bg a : Nat) < 4294967296 ∧
      (blend_background fg bg a : Nat) >>> 24 = 0xFF ∧
      argb_alpha (blend_background fg bg a) = 0xFF := by
  obtain ⟨e, h1, h2, h3⟩ := blend_background_packed fg bg a ha
  refine ⟨?_, ?_, (blend_background_bytes fg bg a ha).1⟩
  · rw [e]; show @LT.lt Nat _ _ _; omega
  · rw [e, Nat.shiftRight_eq_div_pow]; show @Eq Nat _ _; omega

/-- Witness for claim C21 at a half-transparent red over blue. -/
theorem blend_background_opaque_witness :
    (blend_background 0x80FF0000 0x000000FF 128 : Nat) < 4294967296 ∧
      (blend_background 0x80FF0000 0x000000FF 128 : Nat) >>> 24 = 0xFF ∧
      argb_alpha (blend_background 0x80FF0000 0x000000FF 128) = 0xFF :=
  blend_background_opaque 0x80FF0000 0x000000FF 128 (by decide)

/-- Claim C22: at alpha 255 the red, green and blue bytes of the result of
`blend_background` are exactly those of `fg`, and at alpha 0 exactly those of `bg`,
for all pixels `fg` and `bg`. -/
theorem blend_background_extremes (fg bg : argb) :
    (argb_red (blend_background fg bg 255) = argb_red fg ∧
      argb_green (blend_background fg bg 255) = argb_green fg ∧
      argb_blue (blend_background fg bg 255) = argb_blue fg) ∧
    (argb_red (blend_background fg bg 0) = argb_red bg ∧
      argb_green (blend_background fg bg 0) = argb_green bg ∧
      argb_blue (blend_background fg bg 0) = argb_blue bg) := by
  have hr : argb_red fg < 256 ∧ argb_red bg < 256 := by
    simp only [argb_red, and_255_eq_mod]; omega
  have hg : argb_green fg < 256 ∧ argb_green bg < 256 := by
    simp only [argb_green, and_255_eq_mod]; omega
  have hb : argb_blue fg < 256 ∧ argb_blue bg < 256 := by
    simp only [argb_blue, and_255_eq_mod]; omega
  obtain ⟨-, r1, g1, b1⟩ := blend_background_bytes fg bg 255 (by decide)
  obtain ⟨-, r0, g0, b0⟩ := blend_background_bytes fg bg 0 (by decide)
  rw [r1, g1, b1, r0, g0, b0]
  exact ⟨⟨(blend_channel_extremes _ _ hr.1 hr.2).1, (blend_channel_extremes _ _ hg.1 hg.2).1,
      (blend_channel_extremes _ _ hb.1 hb.2).1⟩,
    (blend_channel_extremes _ _ hr.1 hr.2).2, (blend_channel_extremes _ _ hg.1 hg.2).2,
      (blend_channel_extremes _ _ hb.1 hb.2).2⟩

/-- Claim C30: for all pixels `fg`, `bg` and every alpha in [0, 255], each of the
red, green and blue bytes of the result of `blend_background` lies between the
corresponding bytes of `fg` and `bg`, which are at most 255; the mixed channel
value itself (before packing) obeys the same bounds, so nothing carries into the
neighbouring byte; and blending a colour over itself returns its red, green and
blue bytes. -/
theorem blend_background_between (fg bg : argb) (a : Nat) (ha : a ≤ 255) :
    (min (argb_red fg) (argb_red bg) ≤ argb_red (blend_background fg bg a) ∧
      argb_red (blend_background fg bg a) ≤ max (argb_red fg) (argb_red bg) ∧
      max (argb_red fg) (argb_red bg) ≤ 255) ∧
    (min (argb_green fg) (argb_green bg) ≤ argb_green (blend_background fg bg a) ∧
      argb_green (blend_background fg bg a) ≤ max (argb_green fg) (argb_green bg) ∧
      max (argb_green fg) (argb_green bg) ≤ 255) ∧
    (min (argb_blue fg) (argb_blue bg) ≤ argb_blue (blend_background fg bg a) ∧
      argb_blue (blend_background fg bg a) ≤ max (argb_blue fg) (argb_blue bg) ∧
      max (argb_blue fg) (argb_blue bg) ≤ 255) ∧
    (blend_background fg bg a : Nat) =
      4278190080 + argb_red (blend_background fg bg a) * 65536 +
        argb_green (blend_background fg bg a) * 256 + argb_blue (blend_background fg bg a) ∧
    (argb_red (blend_background fg fg a) = argb_red fg ∧
      argb_green (blend_background fg fg a) = argb_green fg ∧
      argb_blue (blend_background fg fg a) = argb_blue fg) := by
  have hr : argb_red fg < 256 ∧ argb_red bg < 256 := by
    simp only [argb_red, and_255_eq_mod]; omega
  have hg : argb_green fg < 256 ∧ argb_green bg < 256 := by
    simp only [argb_green, and_255_eq_mod]; omega
  have hb : argb_blue fg < 256 ∧ argb_blue bg < 256 := by
    simp only [argb_blue, and_255_eq_mod]; omega
  obtain ⟨-, r1, g1, b1⟩ := blend_background_bytes fg bg a ha
  obtain ⟨-, r0, g0, b0⟩ := blend_background_bytes fg fg a ha
  have br := blend_channel_between _ _ a hr.1 hr.2 ha
  have bgn := blend_channel_between _ _ a hg.1 hg.2 ha
  have bb := blend_channel_between _ _ a hb.1 hb.2 ha
  have sr := blend_channel_between _ _ a hr.1 hr.1 ha
  have sg := blend_channel_between _ _ a hg.1 hg.1 ha
  have sb := blend_channel_between _ _ a hb.1 hb.1 ha
  rw [Nat.min_self, Nat.max_self] at sr sg sb
  refine ⟨⟨?_, ?_, by omega⟩, ⟨?_, ?_, by omega⟩, ⟨?_, ?_, by omega⟩, ?_, ?_, ?_, ?_⟩
  · rw [r1]; exact br.1
  · rw [r1]; exact br.2
  · rw [g1]; exact bgn.1
  · rw [g1]; exact bgn.2
  · rw [b1]; exact bb.1
  · rw [b1]; exact bb.2
  · rw [r1, g1, b1]; exact (blend_background_packed fg bg a ha).1
  · rw [r0]; omega
  · rw [g0]; omega
  · rw [b0]; omega

/-- Witness for claim C30 at a half-transparent red over blue. -/
theorem blend_background_between_witness :
    argb_red (blend_background 0x80FF0000 0x000000FF 128) ≤ 255 ∧
      argb_red (blend_background 0x80FF0000 0x80FF0000 128) = 255 := by
  have h := blend_background_between 0x80FF0000 0x000000FF 128 (by decide)
  have h2 := blend_background_between 0x80FF0000 0x80FF0000 128 (by decide)
  exact ⟨le_trans h.1.2.1 h.1.2.2, h2.2.2.2.2.1⟩

/-! ## flood_fill: the pushes -/

/-- Dropping the record of pushes from one direction step gives the step of
`flood_fill_dir`. -/
theorem flood_fill_dir_log_fst (area_col targ_col : argb) (curr : Pair)
    (st : (XImage × List Pair) × List Pair) (d : Int × Int) :
    (flood_fill_dir_log area_col targ_col curr st d).1 =
      flood_fill_dir area_col targ_col curr st.1 d := by
  unfold flood_fill_dir_log flood_fill_dir
  simp only []
  split_ifs <;> rfl

/-- Dropping the record of pushes from the four direction steps gives the steps of
`flood_fill_dir`. -/
theorem flood_dirs_fold_log_fst (area_col targ_col : argb) (curr : Pair)
    (st : (XImage × List Pair) × List Pair) :
    (flood_dirs.foldl (flood_fill_dir_log area_col targ_col curr) st).1 =
      flood_dirs.foldl (flood_fill_dir area_col targ_col curr) st.1 := by
  simp only [flood_dirs, List.foldl, flood_fill_dir_log_fst]

/-- Dropping the record of pushes from the worklist loop gives `flood_fill_loop`. -/
theorem flood_fill_loop_log_fst (area_col targ_col : argb) :
    ∀ (fuel : Nat) (im : XImage) (queue_arr pushed : List Pair),
      (flood_fill_loop_log area_col targ_col fuel im queue_arr pushed).map Prod.fst =
        flood_fill_loop area_col targ_col fuel im queue_arr := by
  intro fuel
  induction fuel with
  | zero =>
    intro im queue_arr pushed
    cases queue_arr <;> simp [flood_fill_loop_log, flood_fill_loop]
  | succ n ih =>
    intro im queue_arr pushed
    cases queue_arr with
    | nil => simp [flood_fill_loop_log, flood_fill_loop]
    | cons c q =>
      simp only [flood_fill_loop_log, flood_fill_loop]
      rw [ih]
      have h := flood_dirs_fold_log_fst area_col targ_col c ((im, q), pushed)
      simp only [] at h
      rw [h]

/-- Dropping the record of pushes from `flood_fill_log` gives `flood_fill`. -/
theorem flood_fill_log_fst (fuel : Nat) (im : XImage) (targ_col : argb) (x y : Int) :
    (flood_fill_log fuel im targ_col x y).map Prod.fst = flood_fill fuel im targ_col x y := by
  unfold flood_fill_log flood_fill
  by_cases hb : x < 0 ∨ y < 0 ∨ x ≥ im.width ∨ y ≥ im.height
  · simp only [if_pos hb, Option.map_some']
  · simp only [if_neg hb]
    by_cases hc : XGetPixel im x y = targ_col
    · simp only [if_pos hc, Option.map_some']
    · simp only [if_neg hc]
      exact flood_fill_loop_log_fst _ _ _ _ _ _

/-- One direction step: the number of recorded pushes plus the number of pixels
of the area colour does not grow, that is, every push recolours a pixel of the
area colour. -/
theorem flood_fill_dir_log_measure (area_col targ_col : argb) (hne : area_col ≠ targ_col)
    (curr : Pair) (d : Int × Int) (st : (XImage × List Pair) × List Pair) :
    (flood_fill_dir_log area_col targ_col curr st d).2.length
        + (flood_fill_dir_log area_col targ_col curr st d).1.1.count_col area_col
      ≤ st.2.length + st.1.1.count_col area_col := by
  unfold flood_fill_dir_log
  simp only []
  split_ifs with hb hc
  · exact le_refl _
  · have hinb : st.1.1.inb (curr.x + d.1) (curr.y + d.2) := by
      unfold XImage.inb
      omega
    have := count_col_put_lt st.1.1 _ _ area_col targ_col hinb hc hne
    simp only [List.length_append, List.length_singleton]
    omega
  · exact le_refl _

/-- The four direction steps: the number of recorded pushes plus the number of
pixels of the area colour does not grow. -/
theorem flood_dirs_fold_log_measure (area_col targ_col : argb) (hne : area_col ≠ targ_col)
    (curr : Pair) (st : (XImage × List Pair) × List Pair) :
    (flood_dirs.foldl (flood_fill_dir_log area_col targ_col curr) st).2.length
        + (flood_dirs.foldl (flood_fill_dir_log area_col targ_col curr) st).1.1.count_col
          area_col
      ≤ st.2.length + st.1.1.count_col area_col := by
  simp only [flood_dirs, List.foldl]
  refine le_trans (flood_fill_dir_log_measure area_col targ_col hne curr _ _) ?_
  refine le_trans (flood_fill_dir_log_measure area_col targ_col hne curr _ _) ?_
  refine le_trans (flood_fill_dir_log_measure area_col targ_col hne curr _ _) ?_
  exact flood_fill_dir_log_measure area_col targ_col hne curr _ _

/-- The worklist loop with the record of pushes ends when the fuel covers the
pixels of the area colour plus the worklist entries, and at the end the number of
recorded pushes is at most the number recorded at the start plus the number of
pixels that had the area colour at the start. -/
theorem flood_fill_loop_log_bound (area_col targ_col : argb) (hne : area_col ≠ targ_col) :
    ∀ (fuel : Nat) (im : XImage) (queue_arr pushed : List Pair),
      im.count_col area_col + queue_arr.length ≤ fuel →
      ∃ res, flood_fill_loop_log area_col targ_col fuel im queue_arr pushed = some res ∧
        res.2.length ≤ pushed.length + im.count_col area_col := by
  intro fuel
  induction fuel with
  | zero =>
    intro im queue_arr pushed hle
    cases queue_arr with
    | nil => exact ⟨(im, pushed), by simp [flood_fill_loop_log], by simp⟩
    | cons c q => simp at hle
  | succ n ih =>
    intro im queue_arr pushed hle
    cases queue_arr with
    | nil => exact ⟨(im, pushed), by simp [flood_fill_loop_log], by simp⟩
    | cons c q =>
      simp only [flood_fill_loop_log]
      have hm := flood_dirs_fold_measure area_col targ_col hne c (im, q)
      have hf := flood_dirs_fold_log_fst area_col targ_col c ((im, q), pushed)
      have hl := flood_dirs_fold_log_measure area_col targ_col hne c ((im, q), pushed)
      simp only [List.length_cons] at hle
      simp only [] at hm hf hl
      rw [← hf] at hm
      obtain ⟨res, hres, hlen⟩ := ih
        (flood_dirs.foldl (flood_fill_dir_log area_col targ_col c) ((im, q), pushed)).1.1
        (flood_dirs.foldl (flood_fill_dir_log area_col targ_col c) ((im, q), pushed)).1.2
        (flood_dirs.foldl (flood_fill_dir_log area_col targ_col c) ((im, q), pushed)).2
        (by omega)
      exact ⟨res, hres, by omega⟩

/-- Claim C26 (the code departs from the claim): on a 2×1 buffer of colour 0,
`flood_fill` at (0,0) with colour 1 pushes the coordinates (0,0), (1,0), (0,0) in
this order: the start pixel is pushed a second time, from its neighbour, because
the first push does not recolour it. -/
theorem flood_fill_pushes_start_twice :
    ∀ fuel : Nat, (flood_fill_log (fuel + 3) (XImage.uniform 2 1 0) 1 0 0).map Prod.snd =
        some [⟨0, 0⟩, ⟨1, 0⟩, ⟨0, 0⟩] ∧
      ¬ ([⟨0, 0⟩, ⟨1, 0⟩, ⟨0, 0⟩] : List Pair).Nodup ∧
      ([⟨0, 0⟩, ⟨1, 0⟩, ⟨0, 0⟩] : List Pair).count ⟨0, 0⟩ = 2 := by
  intro fuel
  refine ⟨?_, by decide, by decide⟩
  simp [flood_fill_log, flood_fill_loop_log, flood_dirs, flood_fill_dir_log, XImage.uniform,
    XGetPixel, XPutPixel]

/-- Claim C29: `flood_fill` returns for every buffer, start point and target
colour: from some amount of fuel on the worklist loop ends, with the image that
`flood_fill` computes, and the number of pushes made is at most one plus the number
of pixels of the buffer that have the colour of the start pixel at the call. In
each direction step of the loop the pushes made so far plus the pixels that still
have the start colour do not grow, so every push after the first removes one pixel
of the start colour. -/
theorem flood_fill_terminates_push_bound (im : XImage) (targ_col : argb) (x y : Int) :
    (∃ n, ∀ fuel ≥ n, ∃ res, flood_fill_log fuel im targ_col x y = some res ∧
      flood_fill fuel im targ_col x y = some res.1 ∧
      res.2.length ≤ 1 + im.count_col (im.pix x y)) ∧
    (im.pix x y ≠ targ_col → ∀ curr d st,
      (flood_fill_dir_log (im.pix x y) targ_col curr st d).2.length
          + (flood_fill_dir_log (im.pix x y) targ_col curr st d).1.1.count_col (im.pix x y)
        ≤ st.2.length + st.1.1.count_col (im.pix x y)) := by
  refine ⟨?_, fun hne curr d st => flood_fill_dir_log_measure _ _ hne curr d st⟩
  refine ⟨im.count_col (im.pix x y) + 1, fun fuel hfuel => ?_⟩
  have hfst := flood_fill_log_fst fuel im targ_col x y
  by_cases hb : x < 0 ∨ y < 0 ∨ x ≥ im.width ∨ y ≥ im.height
  · refine ⟨(im, []), ?_, ?_, by simp⟩
    · simp only [flood_fill_log, if_pos hb]
    · simp only [flood_fill, if_pos hb]
  · by_cases hc : XGetPixel im x y = targ_col
    · refine ⟨(im, []), ?_, ?_, by simp⟩
      · simp only [flood_fill_log, if_neg hb, if_pos hc]
      · simp only [flood_fill, if_neg hb, if_pos hc]
    · obtain ⟨res, hres, hlen⟩ := flood_fill_loop_log_bound (XGetPixel im x y) targ_col hc
        fuel im [⟨x, y⟩] [⟨x, y⟩] (by simp only [XGetPixel, List.length_singleton]; omega)
      have hlog : flood_fill_log fuel im targ_col x y = some res := by
        simp only [flood_fill_log, if_neg hb, if_neg hc]
        exact hres
      refine ⟨res, hlog, ?_, ?_⟩
      · rw [← hfst, hlog]; rfl
      · simp only [XGetPixel, List.length_singleton] at hlen
        omega

/-! ## canvas_line: termination and the number of stamps -/

/-- The loop of `canvas_line`, started at remaining distances `rx`, `ry` from
`to_`, returns after at most `rx + ry + 1` iterations and stamps at most that many
points. -/
theorem canvas_line_loop_stamps (draw : XImage → Pair → XImage) (to_ : Pair)
    (a b sx sy : Int) (hab : -b ≤ a) (hsx : sx = 1 ∨ sx = -1) (hsy : sy = 1 ∨ sy = -1)
    (htx : is_i32 to_.x) (hty : is_i32 to_.y) :
    ∀ (n fuel : Nat) (im : XImage) (error rx ry : Int), 0 ≤ rx → 0 ≤ ry → rx + ry ≤ n →
      n + 1 ≤ fuel → is_i32 (to_.x - sx * rx) → is_i32 (to_.y - sy * ry) →
      ∃ r, canvas_line_loop draw to_ a sx (-b) sy fuel im error (walk_pos to_ sx sy (rx, ry))
        = some r ∧ r.2.length ≤ n + 1 := by
  intro n
  induction n with
  | zero =>
    intro fuel im error rx ry hrx hry hn hfuel hpx hpy
    obtain ⟨f, rfl⟩ : ∃ f, fuel = f + 1 := ⟨fuel - 1, by omega⟩
    have h0x : rx = 0 := by omega
    have h0y : ry = 0 := by push_cast at hn; omega
    subst h0x h0y
    simp only [canvas_line_loop]
    split_ifs
    · simp [canvas_line_step, walk_pos]
    · exact ⟨_, rfl, by simp⟩
  | succ n ih =>
    intro fuel im error rx ry hrx hry hn hfuel hpx hpy
    obtain ⟨f, rfl⟩ : ∃ f, fuel = f + 1 := ⟨fuel - 1, by omega⟩
    simp only [canvas_line_loop]
    split_ifs
    · rw [canvas_line_step_eq_i32 to_ a b sx sy hsx hsy error rx ry hrx hry htx hty hpx hpy]
      cases hbs : bres_step a b error rx ry with
      | none => exact ⟨_, rfl, by simp⟩
      | some r =>
        obtain ⟨e1, rx1, ry1⟩ := r
        have hp := bres_step_progress a b error rx ry hab hrx hry _ hbs
        simp only [] at hp
        have hpx1 : is_i32 (to_.x - sx * rx1) := by
          unfold is_i32 at *
          rcases hsx with rfl | rfl <;> omega
        have hpy1 : is_i32 (to_.y - sy * ry1) := by
          unfold is_i32 at *
          rcases hsy with rfl | rfl <;> omega
        obtain ⟨r', hr', hlen⟩ := ih f (draw im (walk_pos to_ sx sy (rx, ry))) e1 rx1 ry1
          hp.1 hp.2.2.1 (by push_cast at hn; omega) (by omega) hpx1 hpy1
        simp only [Option.map_some']
        rw [hr']
        exact ⟨_, rfl, by simp only [Option.map_some', List.length_cons]; omega⟩
    · exact ⟨_, rfl, by simp⟩

/-- The distance between two `i32` coordinates whose difference is below `2^31` in
absolute value, as `canvas_line` computes it. -/
theorem abs32_of_small_diff (p q : Int) (h : |q - p| < 2147483648) :
    abs32 (wrap32 (q - p)) = |q - p| := by
  rw [abs_lt] at h
  rw [wrap32_id _ (by omega) (by omega)]
  unfold abs32
  split_ifs with hneg
  · rw [wrap32_id _ (by omega) (by omega), abs_of_neg hneg]
  · rw [abs_of_nonneg (by omega)]

/-- Where the difference overflows: when `to.x - from.x` is `-2^31` the wrapped
`abs` stays negative and the loop body can leave `error` and `from` as they are. -/
theorem canvas_line_step_stalls_at_int_min :
    canvas_line_step ⟨-2147483648, -5⟩ (abs32 (wrap32 (-2147483648 - 0))) (-1)
        (wrap32 (-(abs32 (wrap32 (-5 - 0))))) (-1)
        (wrap32 (abs32 (wrap32 (-2147483648 - 0)) + wrap32 (-(abs32 (wrap32 (-5 - 0))))))
        ⟨0, 0⟩ =
      some (wrap32 (abs32 (wrap32 (-2147483648 - 0)) + wrap32 (-(abs32 (wrap32 (-5 - 0))))),
        ⟨0, 0⟩) := by
  decide

/-- The loop of `canvas_line` for the walk from (0,0) towards `(-2^31, -5)` on an
image of 5×5 pixels: every iteration stamps (0,0) and leaves `error` and `from`
as they are, so no amount of fuel lets the loop return. -/
theorem canvas_line_loop_stalls_at_int_min :
    ∀ (fuel : Nat) (im : XImage), im.width = 5 → im.height = 5 →
      canvas_line_loop (stamp_pixel 1) ⟨-2147483648, -5⟩ (-2147483648) (-1) (-5) (-1) fuel im
        2147483643 ⟨0, 0⟩ = none := by
  intro fuel
  induction fuel with
  | zero => intro im _ _; rfl
  | succ n ih =>
    intro im hw hh
    have hstep : canvas_line_step ⟨-2147483648, -5⟩ (-2147483648) (-1) (-5) (-1) 2147483643
        ⟨0, 0⟩ = some (2147483643, ⟨0, 0⟩) := by decide
    simp only [canvas_line_loop]
    rw [if_pos (by rw [hw, hh]; decide), hstep]
    simp only []
    rw [ih (stamp_pixel 1 im ⟨0, 0⟩) hw hh]
    rfl

/-- Claim C27 as stated fails for points whose difference overflows: the line
from (0,0) to `(-2^31, -5)` on a 5×5 image, with the `i32` arithmetic wrapping
around, never returns, whatever the fuel; the wrapped `abs` of `to.x - from.x` is
negative, and the loop body at (0,0) neither leaves the loop nor moves the point or
changes `error`. -/
theorem canvas_line_never_returns_at_int_min :
    (∀ fuel : Nat,
      canvas_line fuel (stamp_pixel 1) (XImage.uniform 5 5 0) ⟨0, 0⟩ ⟨-2147483648, -5⟩ = none) ∧
    abs32 (wrap32 (-2147483648 - 0)) = -2147483648 ∧
    canvas_line_step ⟨-2147483648, -5⟩ (abs32 (wrap32 (-2147483648 - 0))) (-1)
        (wrap32 (-(abs32 (wrap32 (-5 - 0))))) (-1)
        (wrap32 (abs32 (wrap32 (-2147483648 - 0)) + wrap32 (-(abs32 (wrap32 (-5 - 0))))))
        ⟨0, 0⟩ =
      some (wrap32 (abs32 (wrap32 (-2147483648 - 0)) + wrap32 (-(abs32 (wrap32 (-5 - 0))))),
        ⟨0, 0⟩) := by
  refine ⟨fun fuel => ?_, by decide, canvas_line_step_stalls_at_int_min⟩
  have hdx : abs32 (wrap32 ((-2147483648 : Int) - 0)) = -2147483648 := by decide
  have hdy : wrap32 (-(abs32 (wrap32 ((-5 : Int) - 0)))) = -5 := by decide
  have he : wrap32 ((-2147483648 : Int) + -5) = 2147483643 := by decide
  have hsx : (if (0 : Int) < -2147483648 then (1 : Int) else -1) = -1 := by decide
  have hsy : (if (0 : Int) < -5 then (1 : Int) else -1) = -1 := by decide
  simp only [canvas_line, hdx, hdy, he, hsx, hsy]
  exact canvas_line_loop_stalls_at_int_min fuel (XImage.uniform 5 5 0) rfl rfl

/-- Claim C27, amended: `canvas_line` returns for every stamp function, every
canvas size and all `i32` points `from`, `to` whose coordinate differences are
below `2^31` in absolute value (so that `abs` and the subtraction do not
overflow), inside the canvas or not, axis-aligned or not, equal or not: with fuel for
`|to.x - from.x| + |to.y - from.y| + 1` iterations the loop has ended, and it has
stamped at most that many points. Every iteration of the loop body, at a point
between `from` and `to` and for every value of `error`, either leaves the loop or
moves to a point that is no farther from `to` in either coordinate and at least one
step closer in one of them. -/
theorem canvas_line_terminates_stamps (draw : XImage → Pair → XImage) (im : XImage)
    (from_ to_ : Pair)
    (hfx : is_i32 from_.x) (hfy : is_i32 from_.y) (htx : is_i32 to_.x) (hty : is_i32 to_.y)
    (hdx : |to_.x - from_.x| < 2147483648) (hdy : |to_.y - from_.y| < 2147483648) :
    (∀ fuel : Nat, (|to_.x - from_.x| + |to_.y - from_.y|).toNat + 1 ≤ fuel →
      ∃ r, canvas_line fuel draw im from_ to_ = some r ∧
        (r.2.length : Int) ≤ |to_.x - from_.x| + |to_.y - from_.y| + 1) ∧
    (∀ error rx ry : Int, 0 ≤ rx → rx ≤ |to_.x - from_.x| → 0 ≤ ry → ry ≤ |to_.y - from_.y| →
      canvas_line_step to_ (abs32 (wrap32 (to_.x - from_.x))) (if from_.x < to_.x then 1 else -1)
          (wrap32 (-(abs32 (wrap32 (to_.y - from_.y))))) (if from_.y < to_.y then 1 else -1)
          error
          (walk_pos to_ (if from_.x < to_.x then 1 else -1) (if from_.y < to_.y then 1 else -1)
            (rx, ry)) = none ∨
      ∃ e1 rx1 ry1,
        canvas_line_step to_ (abs32 (wrap32 (to_.x - from_.x)))
            (if from_.x < to_.x then 1 else -1)
            (wrap32 (-(abs32 (wrap32 (to_.y - from_.y))))) (if from_.y < to_.y then 1 else -1)
            error
            (walk_pos to_ (if from_.x < to_.x then 1 else -1)
              (if from_.y < to_.y then 1 else -1) (rx, ry)) =
          some (e1, walk_pos to_ (if from_.x < to_.x then 1 else -1)
            (if from_.y < to_.y then 1 else -1) (rx1, ry1)) ∧
        0 ≤ rx1 ∧ rx1 ≤ rx ∧ 0 ≤ ry1 ∧ ry1 ≤ ry ∧ rx1 + ry1 + 1 ≤ rx + ry) := by
  have hdx' := abs32_of_small_diff from_.x to_.x hdx
  have hdy' := abs32_of_small_diff from_.y to_.y hdy
  have hax0 : 0 ≤ |to_.x - from_.x| := abs_nonneg _
  have hay0 : 0 ≤ |to_.y - from_.y| := abs_nonneg _
  have hsx : (if from_.x < to_.x then (1 : Int) else -1) = 1 ∨
      (if from_.x < to_.x then (1 : Int) else -1) = -1 := by
    split_ifs <;> simp
  have hsy : (if from_.y < to_.y then (1 : Int) else -1) = 1 ∨
      (if from_.y < to_.y then (1 : Int) else -1) = -1 := by
    split_ifs <;> simp
  have hpx : to_.x - (if from_.x < to_.x then 1 else -1) * |to_.x - from_.x| = from_.x := by
    split_ifs with h
    · rw [abs_of_nonneg (by omega)]; ring
    · rw [abs_of_nonpos (by omega)]; ring
  have hpy : to_.y - (if from_.y < to_.y then 1 else -1) * |to_.y - from_.y| = from_.y := by
    split_ifs with h
    · rw [abs_of_nonneg (by omega)]; ring
    · rw [abs_of_nonpos (by omega)]; ring
  have hpos : walk_pos to_ (if from_.x < to_.x then 1 else -1)
      (if from_.y < to_.y then 1 else -1) (|to_.x - from_.x|, |to_.y - from_.y|) = from_ := by
    simp only [walk_pos, hpx, hpy]
  have hwy : wrap32 (-|to_.y - from_.y|) = -|to_.y - from_.y| :=
    wrap32_id _ (by omega) (by omega)
  constructor
  · intro fuel hfuel
    have key := canvas_line_loop_stamps draw to_ |to_.x - from_.x| |to_.y - from_.y| _ _
      (by omega) hsx hsy htx hty
      (|to_.x - from_.x| + |to_.y - from_.y|).toNat fuel im
      (wrap32 (|to_.x - from_.x| + -|to_.y - from_.y|)) |to_.x - from_.x| |to_.y - from_.y|
      hax0 hay0 (by omega) hfuel (by rw [hpx]; exact hfx) (by rw [hpy]; exact hfy)
    rw [hpos] at key
    obtain ⟨r, hr, hlen⟩ := key
    refine ⟨r, ?_, by omega⟩
    rw [← hr]
    simp only [canvas_line, hdx', hdy', hwy]
  · intro error rx ry hrx0 hrx hry0 hry
    rw [hdx', hdy', hwy]
    have hpx1 : is_i32 (to_.x - (if from_.x < to_.x then 1 else -1) * rx) := by
      unfold is_i32 at *
      rw [abs_lt] at hdx
      split_ifs with h
      · rw [abs_of_nonneg (by omega)] at hrx; omega
      · rw [abs_of_nonpos (by omega)] at hrx; omega
    have hpy1 : is_i32 (to_.y - (if from_.y < to_.y then 1 else -1) * ry) := by
      unfold is_i32 at *
      rw [abs_lt] at hdy
      split_ifs with h
      · rw [abs_of_nonneg (by omega)] at hry; omega
      · rw [abs_of_nonpos (by omega)] at hry; omega
    rw [canvas_line_step_eq_i32 to_ _ _ _ _ hsx hsy error rx ry hrx0 hry0 htx hty hpx1 hpy1]
    cases hbs : bres_step |to_.x - from_.x| |to_.y - from_.y| error rx ry with
    | none => exact Or.inl rfl
    | some r =>
      obtain ⟨e1, rx1, ry1⟩ := r
      have hp := bres_step_progress _ _ error rx ry (by omega) hrx0 hry0 _ hbs
      exact Or.inr ⟨e1, rx1, ry1, rfl, hp⟩

/-- Witness for claim C27: a vertical line (`to.x = from.x`) that leaves a 4×4
canvas through its lower edge. -/
theorem canvas_line_terminates_stamps_witness :
    ∃ r, canvas_line 10 (stamp_pixel 7) (XImage.uniform 4 4 0) ⟨1, 1⟩ ⟨1, 9⟩ = some r ∧
      (r.2.length : Int) ≤ |(9 : Int) - 1| + 1 := by
  have h := (canvas_line_terminates_stamps (stamp_pixel 7) (XImage.uniform 4 4 0) ⟨1, 1⟩ ⟨1, 9⟩
    (by decide) (by decide) (by decide) (by decide) (by decide) (by decide)).1 10 (by decide)
  obtain ⟨r, hr, hlen⟩ := h
  exact ⟨r, hr, by simpa using hlen⟩

/-! ## Figure drag previews -/

/-- The function `canvas_figure` returns for coordinates between `-2^29` and
`2^29`. -/
theorem canvas_figure_terminates (P : FloatPrims) (tc : ToolCtx) (im : XImage) (p1 p2 : Pair)
    (h1 : -536870912 ≤ p1.x ∧ p1.x < 536870912) (h2 : -536870912 ≤ p1.y ∧ p1.y < 536870912)
    (h3 : -536870912 ≤ p2.x ∧ p2.x < 536870912) (h4 : -536870912 ≤ p2.y ∧ p2.y < 536870912)
    (fuel : Nat) (hfuel : 4294967296 ≤ fuel) :
    ∃ res, canvas_figure fuel P tc im p1 p2 = some res := by
  unfold canvas_figure
  split_ifs with ht
  · exact ⟨_, rfl⟩
  · simp only []
    have hdx : wrap32 (p1.x - p2.x) = p1.x - p2.x := wrap32_id _ (by omega) (by omega)
    have hdy : wrap32 (p1.y - p2.y) = p1.y - p2.y := wrap32_id _ (by omega) (by omega)
    cases tc.d.get_fig.curr with
    | Figure_Circle => exact ⟨_, rfl⟩
    | Figure_Rectangle =>
      simp only []
      split_ifs <;> exact ⟨_, rfl⟩
    | Figure_Triangle =>
      simp only []
      split_ifs
      · exact ⟨_, rfl⟩
      · rw [hdx, hdy]
        exact canvas_triangle_terminates tc im p2 ⟨p1.x - p2.x, p1.y - p2.y⟩
          h3 h4 (by simp only []; omega) (by simp only []; omega) fuel hfuel

/-- With the main button held and a snapshot on the undo stack,
`tool_figure_on_drag` draws the figure on the top snapshot. -/
theorem tool_figure_on_drag_eq (fuel : Nat) (P : FloatPrims) (ctx : Ctx) (top : History)
    (rest : List History) (event : XMotionEvent)
    (hbtn : ctx.input.holding_button = XLeftMouseBtn) (hhist : ctx.hist_prevarr = top :: rest) :
    tool_figure_on_drag fuel P ctx event =
      (canvas_figure fuel P ctx.tc top.im (P.point_from_scr_to_cv_xy event.x event.y)
        ctx.tc.sdata.anchor).map ctx.with_canvas := by
  unfold tool_figure_on_drag
  rw [if_neg (by rw [hbtn]; exact fun h => h rfl)]
  simp only [history_restore, hhist, history_clone_eq]
  rfl

/-- Claim C25: with the main button held and a snapshot on the undo stack, the
context after `tool_figure_on_drag` is the context before the call with the canvas
replaced by the current figure (of the tool context: sub-state, colour, width)
drawn between the anchor and the pointer on the top undo snapshot. It is the same
for every canvas content before the call, the stacks, the input state and the tool
context (with the anchor) are kept, so a drag to `P` followed by a drag to `Q`
gives what a single drag to `Q` gives; and the handler returns for pointer and
anchor coordinates between `-2^29` and `2^29`. -/
theorem tool_figure_on_drag_no_accumulation (P : FloatPrims) (ctx : Ctx) (top : History)
    (rest : List History) (evP evQ : XMotionEvent)
    (hbtn : ctx.input.holding_button = XLeftMouseBtn) (hhist : ctx.hist_prevarr = top :: rest) :
    (∀ fuel, tool_figure_on_drag fuel P ctx evQ =
      (canvas_figure fuel P ctx.tc top.im (P.point_from_scr_to_cv_xy evQ.x evQ.y)
        ctx.tc.sdata.anchor).map ctx.with_canvas) ∧
    (∀ fuel im0, tool_figure_on_drag fuel P (ctx.with_canvas im0) evQ =
      tool_figure_on_drag fuel P ctx evQ) ∧
    (∀ fuel c1, tool_figure_on_drag fuel P ctx evP = some c1 →
      c1.hist_prevarr = ctx.hist_prevarr ∧ c1.hist_nextarr = ctx.hist_nextarr ∧
      c1.input = ctx.input ∧ c1.tc = ctx.tc ∧
      tool_figure_on_drag fuel P c1 evQ = tool_figure_on_drag fuel P ctx evQ) ∧
    ((-536870912 ≤ (P.point_from_scr_to_cv_xy evP.x evP.y).x ∧
        (P.point_from_scr_to_cv_xy evP.x evP.y).x < 536870912) →
      (-536870912 ≤ (P.point_from_scr_to_cv_xy evP.x evP.y).y ∧
        (P.point_from_scr_to_cv_xy evP.x evP.y).y < 536870912) →
      (-536870912 ≤ ctx.tc.sdata.anchor.x ∧ ctx.tc.sdata.anchor.x < 536870912) →
      (-536870912 ≤ ctx.tc.sdata.anchor.y ∧ ctx.tc.sdata.anchor.y < 536870912) →
      ∀ fuel : Nat, 4294967296 ≤ fuel → ∃ c1, tool_figure_on_drag fuel P ctx evP = some c1) := by
  have hcv : ∀ im0 fuel, tool_figure_on_drag fuel P (ctx.with_canvas im0) evQ =
      tool_figure_on_drag fuel P ctx evQ := by
    intro im0 fuel
    rw [tool_figure_on_drag_eq fuel P (ctx.with_canvas im0) top rest evQ hbtn hhist,
      tool_figure_on_drag_eq fuel P ctx top rest evQ hbtn hhist]
    rfl
  refine ⟨fun fuel => tool_figure_on_drag_eq fuel P ctx top rest evQ hbtn hhist,
    fun fuel im0 => hcv im0 fuel, ?_, ?_⟩
  · intro fuel c1 h1
    rw [tool_figure_on_drag_eq fuel P ctx top rest evP hbtn hhist] at h1
    cases hfig : canvas_figure fuel P ctx.tc top.im (P.point_from_scr_to_cv_xy evP.x evP.y)
        ctx.tc.sdata.anchor with
    | none => rw [hfig] at h1; simp at h1
    | some im1 =>
      rw [hfig] at h1
      simp only [Option.map_some', Option.some.injEq] at h1
      subst h1
      exact ⟨rfl, rfl, rfl, rfl, hcv im1 fuel⟩
  · intro h1 h2 h3 h4 fuel hfuel
    rw [tool_figure_on_drag_eq fuel P ctx top rest evP hbtn hhist]
    obtain ⟨res, hres⟩ := canvas_figure_terminates P ctx.tc top.im _ _ h1 h2 h3 h4 fuel hfuel
    rw [hres]
    exact ⟨_, rfl⟩

/-- Witness for claim C25: a filled rectangle dragged from the anchor (1,1) on a
5×5 canvas, with a canvas of colour 3 before the call and a blank top snapshot. -/
theorem tool_figure_on_drag_no_accumulation_witness :
    tool_figure_on_drag 8 FloatPrims.unzoomed
        ((Ctx.sample_blank ToolCtx.sample_filled_rect true).with_canvas (XImage.uniform 5 5 3))
        ⟨2, 2, 0⟩ =
      tool_figure_on_drag 8 FloatPrims.unzoomed
        (Ctx.sample_blank ToolCtx.sample_filled_rect true) ⟨2, 2, 0⟩ :=
  (tool_figure_on_drag_no_accumulation FloatPrims.unzoomed
    (Ctx.sample_blank ToolCtx.sample_filled_rect true) ⟨XImage.uniform 5 5 0⟩ []
    ⟨3, 3, 0⟩ ⟨2, 2, 0⟩ rfl rfl).2.1 8 (XImage.uniform 5 5 3)

/-- A drag to (3,3) followed by a drag to (2,2) on the sample canvas: the pixel
(2,2), inside the first preview and outside the second, is blank again, and the
pixel (1,1) carries the colour of the figure. -/
theorem tool_figure_on_drag_sample :
    ((tool_figure_on_drag 8 FloatPrims.unzoomed
        (Ctx.sample_blank ToolCtx.sample_filled_rect true) ⟨3, 3, 0⟩).map
      (fun c => c.dc.cv.im.pix 2 2) = some 7) ∧
    (((tool_figure_on_drag 8 FloatPrims.unzoomed
        (Ctx.sample_blank ToolCtx.sample_filled_rect true) ⟨3, 3, 0⟩).bind
      (fun c => tool_figure_on_drag 8 FloatPrims.unzoomed c ⟨2, 2, 0⟩)).map
      (fun c => (c.dc.cv.im.pix 1 1, c.dc.cv.im.pix 2 2)) = some (7, 0)) := by
  refine ⟨by decide, by decide⟩

/-! ## Radial menu: range of the hit test -/

/-- The value of the hit test on the ray of angle 0: for a menu of 5 or 6 items
and a pointer at `(center.x + r, center.y)` with `40 ≤ r ≤ 225` it is the item
count. -/
theorem sel_circ_curr_item_on_ray (L : Libm) (hsqrt : L.sqrt_exact_at_radii)
    (hatan : L.atan_zero) (cx cy r : Int) (n : Nat) (hn : n = 5 ∨ n = 6)
    (hr : 40 ≤ r ∧ r ≤ 225) :
    sel_circ_curr_item L ⟨true, cx, cy, n⟩ (cx + r) cy = n := by
  have hwx : wrap32 (cx + r - cx) = r := by
    rw [show cx + r - cx = r by ring]
    exact wrap32_id _ (by omega) (by omega)
  have hwy : wrap32 (cy - cy) = 0 := by
    rw [sub_self]; rfl
  have hrr0 : 0 ≤ r * r := mul_self_nonneg r
  have hrr1 : 1600 ≤ r * r := by nlinarith
  have hrr2 : r * r ≤ 50625 := by nlinarith
  have hwrr : wrap32 (wrap32 (r * r) + wrap32 (0 * 0)) = r * r := by
    rw [wrap32_id (r * r) (by omega) (by omega), show (0 : Int) * 0 = 0 by ring,
      show wrap32 0 = 0 by rfl, add_zero, wrap32_id (r * r) (by omega) (by omega)]
  obtain ⟨hin, hout⟩ := hsqrt (r * r) hrr0
  have h1 : ¬ ((SELECTION_CIRCLE_outer_r_px : ℚ) < L.sqrt (r * r)
      ∨ L.sqrt (r * r) < (SELECTION_CIRCLE_inner_r_px : ℚ)) := by
    rintro (h | h)
    · have := hout.1 h; omega
    · have := hin.1 h; omega
  unfold sel_circ_curr_item
  simp only [hwx, hwy, hwrr]
  rw [if_neg (by omega), if_neg (by simpa [gt_iff_lt] using h1), hatan r (by omega),
    if_neg (by omega), if_pos (by omega)]
  rcases hn with rfl | rfl <;> norm_num [PI, double_to_i32] <;> rfl

/-- Claim C28 (the code departs from the claim): for the menu that `sel_circ_init`
sets up, of 5 items for the Figure tool and of 6 items otherwise, and a pointer at
`(center.x + r, center.y)` with `40 ≤ r ≤ 225`, the hit test returns the item
count: a value that is neither `NIL` nor an index below the item count, so that the
access `items[selected_item]` of `button_release_hdlr` is outside the array. -/
theorem sel_circ_curr_item_out_of_range (L : Libm) (hsqrt : L.sqrt_exact_at_radii)
    (hatan : L.atan_zero) (ctx : Ctx) (cx cy r : Int) (hr : 40 ≤ r ∧ r ≤ 225) :
    ((sel_circ_init ctx cx cy).1.item_count = 5 ∨ (sel_circ_init ctx cx cy).1.item_count = 6) ∧
    (sel_circ_init ctx cx cy).2.length = (sel_circ_init ctx cx cy).1.item_count ∧
    sel_circ_curr_item L (sel_circ_init ctx cx cy).1 (cx + r) cy
      = (sel_circ_init ctx cx cy).1.item_count ∧
    sel_circ_curr_item L (sel_circ_init ctx cx cy).1 (cx + r) cy ≠ NIL ∧
    ¬ (0 ≤ sel_circ_curr_item L (sel_circ_init ctx cx cy).1 (cx + r) cy ∧
      sel_circ_curr_item L (sel_circ_init ctx cx cy).1 (cx + r) cy
        < (sel_circ_init ctx cx cy).1.item_count) ∧
    button_release_item L (sel_circ_init ctx cx cy) (cx + r) cy = some none := by
  have hcount : (sel_circ_callbacks ctx.tc.t).length = 5 ∨
      (sel_circ_callbacks ctx.tc.t).length = 6 := by
    unfold sel_circ_callbacks
    split_ifs
    · exact Or.inl rfl
    · exact Or.inr rfl
  have hval := sel_circ_curr_item_on_ray L hsqrt hatan cx cy r
    (sel_circ_callbacks ctx.tc.t).length hcount hr
  have hv : sel_circ_curr_item L (sel_circ_init ctx cx cy).1 (cx + r) cy
      = ((sel_circ_callbacks ctx.tc.t).length : Int) := hval
  refine ⟨hcount, rfl, hv, ?_, ?_, ?_⟩
  · rw [hv]; unfold NIL; omega
  · rw [hv]
    show ¬ (_ ∧ ((sel_circ_callbacks ctx.tc.t).length : Int)
      < ((sel_circ_callbacks ctx.tc.t).length : Int))
    omega
  · unfold button_release_item
    simp only [hv]
    rw [if_pos (by unfold NIL; omega), if_neg (by omega)]
    simp [sel_circ_init]

/-- The failing input of claim C28: the menu of 6 items of the Pencil tool centred
at (300,300) with the pointer at (400,300); the hit test returns 6 and the item
read is outside the array of 6 items. -/
theorem sel_circ_curr_item_out_of_range_witness :
    sel_circ_curr_item Libm.sample
        (sel_circ_init (Ctx.sample_blank (ToolCtx.sample .Tool_Pencil ⟨0, 0⟩) false) 300 300).1
        (300 + 100) 300 = (6 : Nat) ∧
      button_release_item Libm.sample
        (sel_circ_init (Ctx.sample_blank (ToolCtx.sample .Tool_Pencil ⟨0, 0⟩) false) 300 300)
        (300 + 100) 300 = some none :=
  have h := sel_circ_curr_item_out_of_range Libm.sample libm_sample_sqrt_exact
    libm_sample_atan_zero (Ctx.sample_blank (ToolCtx.sample .Tool_Pencil ⟨0, 0⟩) false)
    300 300 100 (by decide)
  ⟨h.2.2.1, h.2.2.2.2.2⟩

/-! ## canvas_rect -/

/-- One more `canvas_fill_rect` on an image `cur` that so far differs from `im0`
by the colour `col` on the raster points of `S`: afterwards the points of the
normalized span of the call, from `(lx, ly)` to `(hx, hy)`, are coloured as well. -/
theorem canvas_fill_rect_paints (im0 cur : XImage) (hwf : im0.int_sized) (col : argb)
    (S : Int → Int → Prop) (c dims : Pair)
    (hcx : is_i32 c.x) (hcy : is_i32 c.y)
    (hdx : is_i32 (c.x + dims.x)) (hdy : is_i32 (c.y + dims.y))
    (lx hx ly hy : Int)
    (hlx : min c.x (c.x + dims.x) = lx) (hhx : max c.x (c.x + dims.x) = hx)
    (hly : min c.y (c.y + dims.y) = ly) (hhy : max c.y (c.y + dims.y) = hy)
    (hw : cur.width = im0.width) (hh : cur.height = im0.height)
    (hp : ∀ x y, (im0.inb x y ∧ S x y → cur.pix x y = col) ∧
      (¬ (im0.inb x y ∧ S x y) → cur.pix x y = im0.pix x y)) :
    (canvas_fill_rect cur c dims col).width = im0.width ∧
    (canvas_fill_rect cur c dims col).height = im0.height ∧
    ∀ x y,
      (im0.inb x y ∧ (S x y ∨ (lx ≤ x ∧ x < hx ∧ ly ≤ y ∧ y < hy)) →
        (canvas_fill_rect cur c dims col).pix x y = col) ∧
      (¬ (im0.inb x y ∧ (S x y ∨ (lx ≤ x ∧ x < hx ∧ ly ≤ y ∧ y < hy))) →
        (canvas_fill_rect cur c dims col).pix x y = im0.pix x y) := by
  subst hlx hhx hly hhy
  have hwf1 : cur.int_sized := by
    unfold XImage.int_sized at hwf ⊢
    rw [hw, hh]; exact hwf
  obtain ⟨h1, h2, h3⟩ := canvas_fill_rect_span cur hwf1 c dims col hcx hcy hdx hdy
  have hinb : ∀ x y, cur.inb x y ↔ im0.inb x y := by
    intro x y
    unfold XImage.inb
    rw [hw, hh]
  refine ⟨h1.trans hw, h2.trans hh, ?_⟩
  intro x y
  rw [h3 x y]
  constructor
  · rintro ⟨hin, hS | hR⟩
    · split_ifs
      · rfl
      · exact (hp x y).1 ⟨hin, hS⟩
    · rw [if_pos ⟨(hinb x y).2 hin, hR⟩]
  · intro hn
    rw [if_neg (fun h => hn ⟨(hinb x y).1 h.1, Or.inr h.2⟩)]
    exact (hp x y).2 (fun h => hn ⟨h.1, Or.inl h.2⟩)

/-- Claim C23: for a stroke width `w ≥ 1` and `dims` with `|dims.x| ≥ w` and
`|dims.y| ≥ w`, of either sign, `canvas_rect` colours exactly the pixels of the
raster that lie in the normalized span of `c` and `c + dims` and outside the inner
rectangle obtained by shrinking the span by `w` on every side; every other pixel
and the size of the image are kept. The corners `c` and `c + dims` have coordinates
between `-2^29` and `2^29`, so that the `i32` arithmetic does not overflow. -/
theorem canvas_rect_outline (im : XImage) (hwf : im.int_sized) (c dims : Pair) (col : argb)
    (w : Nat) (hw1 : 1 ≤ w) (hwx : (w : Int) ≤ |dims.x|) (hwy : (w : Int) ≤ |dims.y|)
    (hcx : -536870912 ≤ c.x ∧ c.x < 536870912) (hcy : -536870912 ≤ c.y ∧ c.y < 536870912)
    (hdx : -536870912 ≤ c.x + dims.x ∧ c.x + dims.x < 536870912)
    (hdy : -536870912 ≤ c.y + dims.y ∧ c.y + dims.y < 536870912) :
    (canvas_rect im c dims col w).width = im.width ∧
    (canvas_rect im c dims col w).height = im.height ∧
    ∀ x y, (canvas_rect im c dims col w).pix x y
      = if im.inb x y ∧
            (min c.x (c.x + dims.x) ≤ x ∧ x < max c.x (c.x + dims.x) ∧
              min c.y (c.y + dims.y) ≤ y ∧ y < max c.y (c.y + dims.y)) ∧
            ¬ (min c.x (c.x + dims.x) + w ≤ x ∧ x < max c.x (c.x + dims.x) - w ∧
              min c.y (c.y + dims.y) + w ≤ y ∧ y < max c.y (c.y + dims.y) - w)
        then col else im.pix x y := by
  have hW : wrap32 (w : Int) = w := by
    have : (w : Int) ≤ 1073741824 := by
      rcases abs_cases dims.x with ⟨h, _⟩ | ⟨h, _⟩ <;> omega
    exact wrap32_id _ (by omega) (by omega)
  have hax : (dims.x < 0 → (w : Int) ≤ -dims.x) ∧ (¬ dims.x < 0 → (w : Int) ≤ dims.x) := by
    rcases abs_cases dims.x with ⟨h, _⟩ | ⟨h, _⟩ <;> constructor <;> intro <;> omega
  have hay : (dims.y < 0 → (w : Int) ≤ -dims.y) ∧ (¬ dims.y < 0 → (w : Int) ≤ dims.y) := by
    rcases abs_cases dims.y with ⟨h, _⟩ | ⟨h, _⟩ <;> constructor <;> intro <;> omega
  have h0 : ∀ x y, (im.inb x y ∧ False → im.pix x y = col) ∧
      (¬ (im.inb x y ∧ False) → im.pix x y = im.pix x y) :=
    fun x y => ⟨fun h => h.2.elim, fun _ => rfl⟩
  have hw1' : (1 : Int) ≤ w := by exact_mod_cast hw1
  by_cases hx : dims.x < 0 <;> by_cases hy : dims.y < 0
  · have hwx' := hax.1 hx
    have hwy' := hay.1 hy
    have e : canvas_rect im c dims col w =
        canvas_fill_rect (canvas_fill_rect (canvas_fill_rect (canvas_fill_rect (canvas_fill_rect (canvas_fill_rect im ⟨c.x - w, c.y - w⟩ ⟨dims.x + w, w⟩ col) ⟨c.x - w, c.y - w⟩ ⟨w, dims.y + w⟩ col) ⟨c.x + dims.x + w, c.y + dims.y + w⟩ ⟨-dims.x - w, -w⟩ col) ⟨c.x + dims.x + w, c.y + dims.y + w⟩ ⟨-w, -dims.y - w⟩ col) ⟨c.x - w, c.y - w⟩ ⟨w, w⟩ col) ⟨c.x + dims.x + w, c.y + dims.y + w⟩ ⟨-w, -w⟩ col := by
      unfold canvas_rect
      simp only [hx, hy, if_true, if_false, hW, and_self, and_false, false_and, sub_zero, add_zero]
      simp only [wrap32_id (c.x) (by omega) (by omega),
        wrap32_id (c.y) (by omega) (by omega),
        wrap32_id (c.x - w) (by omega) (by omega),
        wrap32_id (c.y - w) (by omega) (by omega),
        wrap32_id (c.x + dims.x) (by omega) (by omega),
        wrap32_id (c.y + dims.y) (by omega) (by omega),
        wrap32_id (c.x + dims.x + w) (by omega) (by omega),
        wrap32_id (c.y + dims.y + w) (by omega) (by omega),
        wrap32_id (dims.x) (by omega) (by omega),
        wrap32_id (dims.y) (by omega) (by omega),
        wrap32_id (dims.x + w) (by omega) (by omega),
        wrap32_id (dims.y + w) (by omega) (by omega),
        wrap32_id (-dims.x) (by omega) (by omega),
        wrap32_id (-dims.y) (by omega) (by omega),
        wrap32_id (-dims.x - w) (by omega) (by omega),
        wrap32_id (-dims.y - w) (by omega) (by omega),
        wrap32_id (-(w : Int)) (by omega) (by omega)]
    obtain ⟨a1, b1, p1⟩ := canvas_fill_rect_paints im im hwf col (fun _ _ => False)
      ⟨c.x - w, c.y - w⟩ ⟨dims.x + w, w⟩
      (by unfold is_i32; simp only []; omega) (by unfold is_i32; simp only []; omega)
      (by unfold is_i32; simp only []; omega) (by unfold is_i32; simp only []; omega)
      (c.x + dims.x) (c.x - w) (c.y - w) (c.y - w + w)
      (by simp only []; omega) (by simp only []; omega) (by simp only []; omega)
      (by simp only []; omega)
      rfl rfl h0
    obtain ⟨a2, b2, p2⟩ := canvas_fill_rect_paints im _ hwf col _
      ⟨c.x - w, c.y - w⟩ ⟨w, dims.y + w⟩
      (by unfold is_i32; simp only []; omega) (by unfold is_i32; simp only []; omega)
      (by unfold is_i32; simp only []; omega) (by unfold is_i32; simp only []; omega)
      (c.x - w) (c.x - w + w) (c.y + dims.y) (c.y - w)
      (by simp only []; omega) (by simp only []; omega) (by simp only []; omega)
      (by simp only []; omega)
      a1 b1 p1
    obtain ⟨a3, b3, p3⟩ := canvas_fill_rect_paints im _ hwf col _
      ⟨c.x + dims.x + w, c.y + dims.y + w⟩ ⟨-dims.x - w, -w⟩
      (by unfold is_i32; simp only []; omega) (by unfold is_i32; simp only []; omega)
      (by unfold is_i32; simp only []; omega) (by unfold is_i32; simp only []; omega)
      (c.x + dims.x + w) (c.x) (c.y + dims.y + w - w) (c.y + dims.y + w)
      (by simp only []; omega) (by simp only []; omega) (by simp only []; omega)
      (by simp only []; omega)
      a2 b2 p2
    obtain ⟨a4, b4, p4⟩ := canvas_fill_rect_paints im _ hwf col _
      ⟨c.x + dims.x + w, c.y + dims.y + w⟩ ⟨-w, -dims.y - w⟩
      (by unfold is_i32; simp only []; omega) (by unfold is_i32; simp only []; omega)
      (by unfold is_i32; simp only []; omega) (by unfold is_i32; simp only []; omega)
      (c.x + dims.x + w - w) (c.x + dims.x + w) (c.y + dims.y + w) (c.y)
      (by simp only []; omega) (by simp only []; omega) (by simp only []; omega)
      (by simp only []; omega)
      a3 b3 p3
    obtain ⟨a5, b5, p5⟩ := canvas_fill_rect_paints im _ hwf col _
      ⟨c.x - w, c.y - w⟩ ⟨w, w⟩
      (by unfold is_i32; simp only []; omega) (by unfold is_i32; simp only []; omega)
      (by unfold is_i32; simp only []; omega) (by unfold is_i32; simp only []; omega)
      (c.x - w) (c.x - w + w) (c.y - w) (c.y - w + w)
      (by simp only []; omega) (by simp only []; omega) (by simp only []; omega)
      (by simp only []; omega)
      a4 b4 p4
    obtain ⟨a6, b6, p6⟩ := canvas_fill_rect_paints im _ hwf col _
      ⟨c.x + dims.x + w, c.y + dims.y + w⟩ ⟨-w, -w⟩
      (by unfold is_i32; simp only []; omega) (by unfold is_i32; simp only []; omega)
      (by unfold is_i32; simp only []; omega) (by unfold is_i32; simp only []; omega)
      (c.x + dims.x + w - w) (c.x + dims.x + w) (c.y + dims.y + w - w) (c.y + dims.y + w)
      (by simp only []; omega) (by simp only []; omega) (by simp only []; omega)
      (by simp only []; omega)
      a5 b5 p5
    have hmx : min c.x (c.x + dims.x) = c.x + dims.x := by omega
    have hMx : max c.x (c.x + dims.x) = c.x := by omega
    have hmy : min c.y (c.y + dims.y) = c.y + dims.y := by omega
    have hMy : max c.y (c.y + dims.y) = c.y := by omega
    rw [e, hmx, hMx, hmy, hMy]
    refine ⟨a6, b6, fun x y => ?_⟩
    split_ifs with hc
    · apply (p6 x y).1
      refine ⟨hc.1, ?_⟩
      obtain ⟨-, hs, hn⟩ := hc
      simp only [false_or]
      omega
    · apply (p6 x y).2
      rintro ⟨hin, hs⟩
      apply hc
      refine ⟨hin, ?_⟩
      simp only [false_or] at hs
      omega
  · have hwx' := hax.1 hx
    have hwy' := hay.2 hy
    have e : canvas_rect im c dims col w =
        canvas_fill_rect (canvas_fill_rect (canvas_fill_rect (canvas_fill_rect im ⟨c.x - w, c.y⟩ ⟨dims.x + w, w⟩ col) ⟨c.x - w, c.y⟩ ⟨w, dims.y⟩ col) ⟨c.x + dims.x + w, c.y + dims.y⟩ ⟨-dims.x - w, -w⟩ col) ⟨c.x + dims.x + w, c.y + dims.y⟩ ⟨-w, -dims.y⟩ col := by
      unfold canvas_rect
      simp only [hx, hy, if_true, if_false, hW, and_self, and_false, false_and, sub_zero, add_zero]
      simp only [wrap32_id (c.x) (by omega) (by omega),
        wrap32_id (c.y) (by omega) (by omega),
        wrap32_id (c.x - w) (by omega) (by omega),
        wrap32_id (c.x + dims.x) (by omega) (by omega),
        wrap32_id (c.y + dims.y) (by omega) (by omega),
        wrap32_id (c.x + dims.x + w) (by omega) (by omega),
        wrap32_id (dims.x) (by omega) (by omega),
        wrap32_id (dims.y) (by omega) (by omega),
        wrap32_id (dims.x + w) (by omega) (by omega),
        wrap32_id (-dims.x) (by omega) (by omega),
        wrap32_id (-dims.y) (by omega) (by omega),
        wrap32_id (-dims.x - w) (by omega) (by omega),
        wrap32_id (-(w : Int)) (by omega) (by omega)]
    obtain ⟨a1, b1, p1⟩ := canvas_fill_rect_paints im im hwf col (fun _ _ => False)
      ⟨c.x - w, c.y⟩ ⟨dims.x + w, w⟩
      (by unfold is_i32; simp only []; omega) (by unfold is_i32; simp only []; omega)
      (by unfold is_i32; simp only []; omega) (by unfold is_i32; simp only []; omega)
      (c.x + dims.x) (c.x - w) (c.y) (c.y + w)
      (by simp only []; omega) (by simp only []; omega) (by simp only []; omega)
      (by simp only []; omega)
      rfl rfl h0
    obtain ⟨a2, b2, p2⟩ := canvas_fill_rect_paints im _ hwf col _
      ⟨c.x - w, c.y⟩ ⟨w, dims.y⟩
      (by unfold is_i32; simp only []; omega) (by unfold is_i32; simp only []; omega)
      (by unfold is_i32; simp only []; omega) (by unfold is_i32; simp only []; omega)
      (c.x - w) (c.x - w + w) (c.y) (c.y + dims.y)
      (by simp only []; omega) (by simp only []; omega) (by simp only []; omega)
      (by simp only []; omega)
      a1 b1 p1
    obtain ⟨a3, b3, p3⟩ := canvas_fill_rect_paints im _ hwf col _
      ⟨c.x + dims.x + w, c.y + dims.y⟩ ⟨-dims.x - w, -w⟩
      (by unfold is_i32; simp only []; omega) (by unfold is_i32; simp only []; omega)
      (by unfold is_i32; simp only []; omega) (by unfold is_i32; simp only []; omega)
      (c.x + dims.x + w) (c.x) (c.y + dims.y - w) (c.y + dims.y)
      (by simp only []; omega) (by simp only []; omega) (by simp only []; omega)
      (by simp only []; omega)
      a2 b2 p2
    obtain ⟨a4, b4, p4⟩ := canvas_fill_rect_paints im _ hwf col _
      ⟨c.x + dims.x + w, c.y + dims.y⟩ ⟨-w, -dims.y⟩
      (by unfold is_i32; simp only []; omega) (by unfold is_i32; simp only []; omega)
      (by unfold is_i32; simp only []; omega) (by unfold is_i32; simp only []; omega)
      (c.x + dims.x + w - w) (c.x + dims.x + w) (c.y) (c.y + dims.y)
      (by simp only []; omega) (by simp only []; omega) (by simp only []; omega)
      (by simp only []; omega)
      a3 b3 p3
    have hmx : min c.x (c.x + dims.x) = c.x + dims.x := by omega
    have hMx : max c.x (c.x + dims.x) = c.x := by omega
    have hmy : min c.y (c.y + dims.y) = c.y := by omega
    have hMy : max c.y (c.y + dims.y) = c.y + dims.y := by omega
    rw [e, hmx, hMx, hmy, hMy]
    refine ⟨a4, b4, fun x y => ?_⟩
    split_ifs with hc
    · apply (p4 x y).1
      refine ⟨hc.1, ?_⟩
      obtain ⟨-, hs, hn⟩ := hc
      simp only [false_or]
      omega
    · apply (p4 x y).2
      rintro ⟨hin, hs⟩
      apply hc
      refine ⟨hin, ?_⟩
      simp only [false_or] at hs
      omega
  · have hwx' := hax.2 hx
    have hwy' := hay.1 hy
    have e : canvas_rect im c dims col w =
        canvas_fill_rect (canvas_fill_rect (canvas_fill_rect (canvas_fill_rect im ⟨c.x, c.y - w⟩ ⟨dims.x, w⟩ col) ⟨c.x, c.y - w⟩ ⟨w, dims.y + w⟩ col) ⟨c.x + dims.x, c.y + dims.y + w⟩ ⟨-dims.x, -w⟩ col) ⟨c.x + dims.x, c.y + dims.y + w⟩ ⟨-w, -dims.y - w⟩ col := by
      unfold canvas_rect
      simp only [hx, hy, if_true, if_false, hW, and_self, and_false, false_and, sub_zero, add_zero]
      simp only [wrap32_id (c.x) (by omega) (by omega),
        wrap32_id (c.y) (by omega) (by omega),
        wrap32_id (c.y - w) (by omega) (by omega),
        wrap32_id (c.x + dims.x) (by omega) (by omega),
        wrap32_id (c.y + dims.y) (by omega) (by omega),
        wrap32_id (c.y + dims.y + w) (by omega) (by omega),
        wrap32_id (dims.x) (by omega) (by omega),
        wrap32_id (dims.y) (by omega) (by omega),
        wrap32_id (dims.y + w) (by omega) (by omega),
        wrap32_id (-dims.x) (by omega) (by omega),
        wrap32_id (-dims.y) (by omega) (by omega),
        wrap32_id (-dims.y - w) (by omega) (by omega),
        wrap32_id (-(w : Int)) (by omega) (by omega)]
    obtain ⟨a1, b1, p1⟩ := canvas_fill_rect_paints im im hwf col (fun _ _ => False)
      ⟨c.x, c.y - w⟩ ⟨dims.x, w⟩
      (by unfold is_i32; simp only []; omega) (by unfold is_i32; simp only []; omega)
      (by unfold is_i32; simp only []; omega) (by unfold is_i32; simp only []; omega)
      (c.x) (c.x + dims.x) (c.y - w) (c.y - w + w)
      (by simp only []; omega) (by simp only []; omega) (by simp only []; omega)
      (by simp only []; omega)
      rfl rfl h0
    obtain ⟨a2, b2, p2⟩ := canvas_fill_rect_paints im _ hwf col _
      ⟨c.x, c.y - w⟩ ⟨w, dims.y + w⟩
      (by unfold is_i32; simp only []; omega) (by unfold is_i32; simp only []; omega)
      (by unfold is_i32; simp only []; omega) (by unfold is_i32; simp only []; omega)
      (c.x) (c.x + w) (c.y + dims.y) (c.y - w)
      (by simp only []; omega) (by simp only []; omega) (by simp only []; omega)
      (by simp only []; omega)
      a1 b1 p1
    obtain ⟨a3, b3, p3⟩ := canvas_fill_rect_paints im _ hwf col _
      ⟨c.x + dims.x, c.y + dims.y + w⟩ ⟨-dims.x, -w⟩
      (by unfold is_i32; simp only []; omega) (by unfold is_i32; simp only []; omega)
      (by unfold is_i32; simp only []; omega) (by unfold is_i32; simp only []; omega)
      (c.x) (c.x + dims.x) (c.y + dims.y + w - w) (c.y + dims.y + w)
      (by simp only []; omega) (by simp only []; omega) (by simp only []; omega)
      (by simp only []; omega)
      a2 b2 p2
    obtain ⟨a4, b4, p4⟩ := canvas_fill_rect_paints im _ hwf col _
      ⟨c.x + dims.x, c.y + dims.y + w⟩ ⟨-w, -dims.y - w⟩
      (by unfold is_i32; simp only []; omega) (by unfold is_i32; simp only []; omega)
      (by unfold is_i32; simp only []; omega) (by unfold is_i32; simp only []; omega)
      (c.x + dims.x - w) (c.x + dims.x) (c.y + dims.y + w) (c.y)
      (by simp only []; omega) (by simp only []; omega) (by simp only []; omega)
      (by simp only []; omega)
      a3 b3 p3
    have hmx : min c.x (c.x + dims.x) = c.x := by omega
    have hMx : max c.x (c.x + dims.x) = c.x + dims.x := by omega
    have hmy : min c.y (c.y + dims.y) = c.y + dims.y := by omega
    have hMy : max c.y (c.y + dims.y) = c.y := by omega
    rw [e, hmx, hMx, hmy, hMy]
    refine ⟨a4, b4, fun x y => ?_⟩
    split_ifs with hc
    · apply (p4 x y).1
      refine ⟨hc.1, ?_⟩
      obtain ⟨-, hs, hn⟩ := hc
      simp only [false_or]
      omega
    · apply (p4 x y).2
      rintro ⟨hin, hs⟩
      apply hc
      refine ⟨hin, ?_⟩
      simp only [false_or] at hs
      omega
  · have hwx' := hax.2 hx
    have hwy' := hay.2 hy
    have e : canvas_rect im c dims col w =
        canvas_fill_rect (canvas_fill_rect (canvas_fill_rect (canvas_fill_rect im ⟨c.x, c.y⟩ ⟨dims.x, w⟩ col) ⟨c.x, c.y⟩ ⟨w, dims.y⟩ col) ⟨c.x + dims.x, c.y + dims.y⟩ ⟨-dims.x, -w⟩ col) ⟨c.x + dims.x, c.y + dims.y⟩ ⟨-w, -dims.y⟩ col := by
      unfold canvas_rect
      simp only [hx, hy, if_true, if_false, hW, and_self, and_false, false_and, sub_zero, add_zero]
      simp only [wrap32_id (c.x) (by omega) (by omega),
        wrap32_id (c.y) (by omega) (by omega),
        wrap32_id (c.x + dims.x) (by omega) (by omega),
        wrap32_id (c.y + dims.y) (by omega) (by omega),
        wrap32_id (dims.x) (by omega) (by omega),
        wrap32_id (dims.y) (by omega) (by omega),
        wrap32_id (-dims.x) (by omega) (by omega),
        wrap32_id (-dims.y) (by omega) (by omega),
        wrap32_id (-(w : Int)) (by omega) (by omega)]
    obtain ⟨a1, b1, p1⟩ := canvas_fill_rect_paints im im hwf col (fun _ _ => False)
      ⟨c.x, c.y⟩ ⟨dims.x, w⟩
      (by unfold is_i32; simp only []; omega) (by unfold is_i32; simp only []; omega)
      (by unfold is_i32; simp only []; omega) (by unfold is_i32; simp only []; omega)
      (c.x) (c.x + dims.x) (c.y) (c.y + w)
      (by simp only []; omega) (by simp only []; omega) (by simp only []; omega)
      (by simp only []; omega)
      rfl rfl h0
    obtain ⟨a2, b2, p2⟩ := canvas_fill_rect_paints im _ hwf col _
      ⟨c.x, c.y⟩ ⟨w, dims.y⟩
      (by unfold is_i32; simp only []; omega) (by unfold is_i32; simp only []; omega)
      (by unfold is_i32; simp only []; omega) (by unfold is_i32; simp only []; omega)
      (c.x) (c.x + w) (c.y) (c.y + dims.y)
      (by simp only []; omega) (by simp only []; omega) (by simp only []; omega)
      (by simp only []; omega)
      a1 b1 p1
    obtain ⟨a3, b3, p3⟩ := canvas_fill_rect_paints im _ hwf col _
      ⟨c.x + dims.x, c.y + dims.y⟩ ⟨-dims.x, -w⟩
      (by unfold is_i32; simp only []; omega) (by unfold is_i32; simp only []; omega)
      (by unfold is_i32; simp only []; omega) (by unfold is_i32; simp only []; omega)
      (c.x) (c.x + dims.x) (c.y + dims.y - w) (c.y + dims.y)
      (by simp only []; omega) (by simp only []; omega) (by simp only []; omega)
      (by simp only []; omega)
      a2 b2 p2
    obtain ⟨a4, b4, p4⟩ := canvas_fill_rect_paints im _ hwf col _
      ⟨c.x + dims.x, c.y + dims.y⟩ ⟨-w, -dims.y⟩
      (by unfold is_i32; simp only []; omega) (by unfold is_i32; simp only []; omega)
      (by unfold is_i32; simp only []; omega) (by unfold is_i32; simp only []; omega)
      (c.x + dims.x - w) (c.x + dims.x) (c.y) (c.y + dims.y)
      (by simp only []; omega) (by simp only []; omega) (by simp only []; omega)
      (by simp only []; omega)
      a3 b3 p3
    have hmx : min c.x (c.x + dims.x) = c.x := by omega
    have hMx : max c.x (c.x + dims.x) = c.x + dims.x := by omega
    have hmy : min c.y (c.y + dims.y) = c.y := by omega
    have hMy : max c.y (c.y + dims.y) = c.y + dims.y := by omega
    rw [e, hmx, hMx, hmy, hMy]
    refine ⟨a4, b4, fun x y => ?_⟩
    split_ifs with hc
    · apply (p4 x y).1
      refine ⟨hc.1, ?_⟩
      obtain ⟨-, hs, hn⟩ := hc
      simp only [false_or]
      omega
    · apply (p4 x y).2
      rintro ⟨hin, hs⟩
      apply hc
      refine ⟨hin, ?_⟩
      simp only [false_or] at hs
      omega

/-- Witness for claim C23: an outline of width 1 dragged from (4,4) to the upper
left by (-3,-3) on a 6×6 image. The span is [1,4)×[1,4) and the inner rectangle
is the single pixel (2,2). -/
theorem canvas_rect_outline_witness :
    (canvas_rect (XImage.uniform 6 6 0) ⟨4, 4⟩ ⟨-3, -3⟩ 9 1).pix 1 1 = 9 ∧
    (canvas_rect (XImage.uniform 6 6 0) ⟨4, 4⟩ ⟨-3, -3⟩ 9 1).pix 3 1 = 9 ∧
    (canvas_rect (XImage.uniform 6 6 0) ⟨4, 4⟩ ⟨-3, -3⟩ 9 1).pix 2 2 = 0 ∧
    (canvas_rect (XImage.uniform 6 6 0) ⟨4, 4⟩ ⟨-3, -3⟩ 9 1).pix 4 4 = 0 := by
  have h := canvas_rect_outline (XImage.uniform 6 6 0) (by decide) ⟨4, 4⟩ ⟨-3, -3⟩ 9 1
    (by decide) (by decide) (by decide) (by decide) (by decide) (by decide) (by decide)
  refine ⟨?_, ?_, ?_, ?_⟩
  · rw [h.2.2 1 1]; decide
  · rw [h.2.2 3 1]; decide
  · rw [h.2.2 2 2]; decide
  · rw [h.2.2 4 4]; decide

/-! ## canvas_fill_triangle -/

/-- Two nested loops, the inner range depending on the outer value, are one loop
over the pairs of their values. -/
theorem foldl_nested_eq_bind {σ α β : Type} (f : σ → α → β → σ) (g : α → List β) :
    ∀ (l1 : List α) (s : σ),
      l1.foldl (fun s a => (g a).foldl (fun s b => f s a b) s) s
        = (l1.flatMap (fun a => (g a).map (fun b => (a, b)))).foldl (fun s p => f s p.1 p.2) s := by
  intro l1
  induction l1 with
  | nil => intro s; rfl
  | cons a l ih =>
    intro s
    rw [List.flatMap_cons, List.foldl_append, List.foldl_cons, ih, List.foldl_map]

/-- The libc `abs` on an `int` other than `INT_MIN`. -/
theorem abs32_eq_abs (n : Int) (h1 : -2147483648 < n) (h2 : n < 2147483648) :
    abs32 n = |n| := by
  unfold abs32
  split_ifs with h
  · rw [wrap32_id _ (by omega) (by omega), abs_of_neg h]
  · rw [abs_of_nonneg (by omega)]

/-- The cast to `i32` of a value between 0 and `a` lies between 0 and `a`. -/
theorem double_to_i32_range (d : ℚ) (a : Int) (h0 : 0 ≤ d) (h1 : d ≤ (a : ℚ)) :
    0 ≤ double_to_i32 d ∧ double_to_i32 d ≤ a := by
  unfold double_to_i32
  rw [if_pos h0]
  show 0 ≤ ⌊d⌋ ∧ ⌊d⌋ ≤ a
  constructor
  · exact Int.floor_nonneg.2 h0
  · have : ⌊d⌋ ≤ ⌊(a : ℚ)⌋ := Int.floor_le_floor h1
    rwa [Int.floor_intCast] at this

/-- The exact stand-in has the range the loops rely on. -/
theorem scale_exact_in_range : scale_in_range scale_exact := by
  intro a i b ha hi hib
  unfold scale_exact
  have hb : (0 : ℚ) < (b : ℚ) := by exact_mod_cast (by omega : 0 < b)
  have ha' : (0 : ℚ) ≤ (a : ℚ) := by exact_mod_cast ha
  have hi' : (0 : ℚ) ≤ (i : ℚ) := by exact_mod_cast hi
  have hq0 : (0 : ℚ) ≤ (i : ℚ) / (b : ℚ) := div_nonneg hi' hb.le
  have hq1 : (i : ℚ) / (b : ℚ) ≤ 1 := by
    rw [div_le_one hb]; exact_mod_cast hib.le
  constructor
  · exact mul_nonneg ha' hq0
  · calc (a : ℚ) * ((i : ℚ) / (b : ℚ)) ≤ (a : ℚ) * 1 := mul_le_mul_of_nonneg_left hq1 ha'
      _ = (a : ℚ) := mul_one _

/-- The cast to `i32` of the exact stand-in is the integer quotient: the value is
truncated, not rounded. -/
theorem double_to_i32_scale_exact (a i b : Int) (ha : 0 ≤ a) (hi : 0 ≤ i) (hb : 0 < b) :
    double_to_i32 (scale_exact a i b) = a * i / b := by
  unfold double_to_i32 scale_exact
  have hb' : (0 : ℚ) < (b : ℚ) := by exact_mod_cast hb
  have h0 : (0 : ℚ) ≤ (a : ℚ) * ((i : ℚ) / (b : ℚ)) :=
    mul_nonneg (by exact_mod_cast ha) (div_nonneg (by exact_mod_cast hi) hb'.le)
  rw [if_pos h0]
  have e : (a : ℚ) * ((i : ℚ) / (b : ℚ)) = ((a * i : Int) : ℚ) / ((b : Int) : ℚ) := by
    push_cast; ring
  rw [e]
  obtain ⟨k, rfl⟩ : ∃ k : Nat, b = (k : Int) := ⟨b.toNat, by omega⟩
  exact Rat.floor_intCast_div_natCast (a * i) k

/-- The function `canvas_fill_triangle` as one sequence of checked writes, over the
pairs of a column index `i` and a row index `j` below the row count of the
column. -/
theorem canvas_fill_triangle_eq_foldl (D : Int → Int → Int → ℚ) (im : XImage) (c dims : Pair)
    (col : argb) :
    canvas_fill_triangle D im c dims col =
      (((int_range 0 (abs32 dims.x)).flatMap (fun i =>
          (int_range 0 (double_to_i32 (D (abs32 dims.y) i (abs32 dims.x)))).map
            (fun j => (i, j)))).map
        (fun p : Int × Int =>
          (wrap32 (c.x + (if dims.x > 0 then p.1 else wrap32 (-p.1))),
            wrap32 (c.y + (if dims.y > 0 then p.2 else wrap32 (-p.2)))))).foldl
        (fun im p => (ximage_put_checked im (to_u32 p.1) (to_u32 p.2) col).2) im := by
  unfold canvas_fill_triangle
  simp only [for_range_eq_foldl]
  rw [foldl_nested_eq_bind
    (fun im i j => (ximage_put_checked im
      (to_u32 (wrap32 (c.x + (if dims.x > 0 then i else wrap32 (-i)))))
      (to_u32 (wrap32 (c.y + (if dims.y > 0 then j else wrap32 (-j))))) col).2)
    (fun i => int_range 0 (double_to_i32 (D (abs32 dims.y) i (abs32 dims.x)))),
    List.foldl_map]

/-- The pixels after `canvas_fill_triangle`, column by column: in the column of
index `i` the rows at the offsets `0 ≤ j < line_w` from the corner row are
coloured, `line_w` being the cast to `i32` of the `double` value; other columns
and the size are kept. -/
theorem canvas_fill_triangle_columns (D : Int → Int → Int → ℚ) (hD : scale_in_range D)
    (im : XImage) (hwf : im.int_sized) (c dims : Pair) (col : argb)
    (hcx : -536870912 ≤ c.x ∧ c.x < 536870912) (hcy : -536870912 ≤ c.y ∧ c.y < 536870912)
    (hdx : -536870912 ≤ c.x + dims.x ∧ c.x + dims.x < 536870912)
    (hdy : -536870912 ≤ c.y + dims.y ∧ c.y + dims.y < 536870912) :
    (canvas_fill_triangle D im c dims col).width = im.width ∧
    (canvas_fill_triangle D im c dims col).height = im.height ∧
    (∀ i y : Int, 0 ≤ i → i < |dims.x| →
      (canvas_fill_triangle D im c dims col).pix (c.x + (if dims.x > 0 then i else -i)) y
        = if im.inb (c.x + (if dims.x > 0 then i else -i)) y ∧
              0 ≤ (if dims.y > 0 then y - c.y else c.y - y) ∧
              (if dims.y > 0 then y - c.y else c.y - y)
                < double_to_i32 (D |dims.y| i |dims.x|)
          then col else im.pix (c.x + (if dims.x > 0 then i else -i)) y) ∧
    (∀ x y : Int, ¬ (0 ≤ (if dims.x > 0 then x - c.x else c.x - x) ∧
        (if dims.x > 0 then x - c.x else c.x - x) < |dims.x|) →
      (canvas_fill_triangle D im c dims col).pix x y = im.pix x y) := by
  have hax : abs32 dims.x = |dims.x| := abs32_eq_abs _ (by omega) (by omega)
  have hay : abs32 dims.y = |dims.y| := abs32_eq_abs _ (by omega) (by omega)
  have hax0 : 0 ≤ |dims.x| := abs_nonneg _
  have hay0 : 0 ≤ |dims.y| := abs_nonneg _
  have hsx : (dims.x > 0 → |dims.x| = dims.x) ∧ (¬ dims.x > 0 → |dims.x| = -dims.x) :=
    ⟨fun h => abs_of_pos h, fun h => abs_of_nonpos (by omega)⟩
  have hsy : (dims.y > 0 → |dims.y| = dims.y) ∧ (¬ dims.y > 0 → |dims.y| = -dims.y) :=
    ⟨fun h => abs_of_pos h, fun h => abs_of_nonpos (by omega)⟩
  have hL : ∀ i, 0 ≤ i → i < |dims.x| →
      0 ≤ double_to_i32 (D |dims.y| i |dims.x|) ∧
        double_to_i32 (D |dims.y| i |dims.x|) ≤ |dims.y| := by
    intro i hi0 hi1
    obtain ⟨h0, h1⟩ := hD |dims.y| i |dims.x| hay0 hi0 hi1
    exact double_to_i32_range _ _ h0 h1
  have hpts : ∀ p ∈ ((int_range 0 |dims.x|).flatMap (fun i =>
        (int_range 0 (double_to_i32 (D |dims.y| i |dims.x|))).map (fun j => (i, j)))).map
      (fun p : Int × Int =>
        (wrap32 (c.x + (if dims.x > 0 then p.1 else wrap32 (-p.1))),
          wrap32 (c.y + (if dims.y > 0 then p.2 else wrap32 (-p.2))))),
      is_i32 p.1 ∧ is_i32 p.2 := by
    intro p _
    rw [List.mem_map] at *
    rename_i hp
    obtain ⟨q, _, rfl⟩ := hp
    unfold is_i32 wrap32
    simp only []
    omega
  have hmem : ∀ a b : Int,
      (a, b) ∈ ((int_range 0 |dims.x|).flatMap (fun i =>
          (int_range 0 (double_to_i32 (D |dims.y| i |dims.x|))).map (fun j => (i, j)))).map
        (fun p : Int × Int =>
          (wrap32 (c.x + (if dims.x > 0 then p.1 else wrap32 (-p.1))),
            wrap32 (c.y + (if dims.y > 0 then p.2 else wrap32 (-p.2))))) ↔
      ∃ i j : Int, (0 ≤ i ∧ i < |dims.x|) ∧ (0 ≤ j ∧ j < double_to_i32 (D |dims.y| i |dims.x|)) ∧
        a = c.x + (if dims.x > 0 then i else -i) ∧ b = c.y + (if dims.y > 0 then j else -j) := by
    intro a b
    have hpix : ∀ i j : Int, (0 ≤ i ∧ i < |dims.x|) →
        (0 ≤ j ∧ j < double_to_i32 (D |dims.y| i |dims.x|)) →
        (wrap32 (c.x + (if dims.x > 0 then i else wrap32 (-i))),
          wrap32 (c.y + (if dims.y > 0 then j else wrap32 (-j)))) =
        (c.x + (if dims.x > 0 then i else -i), c.y + (if dims.y > 0 then j else -j)) := by
      intro i j hi hj
      have hLi := hL i hi.1 hi.2
      have e1 : wrap32 (-i) = -i := wrap32_id _ (by omega) (by omega)
      have e2 : wrap32 (-j) = -j := wrap32_id _ (by omega) (by omega)
      rw [e1, e2]
      have e3 : wrap32 (c.x + (if dims.x > 0 then i else -i))
          = c.x + (if dims.x > 0 then i else -i) := by
        apply wrap32_id
        · split_ifs with h
          · omega
          · have := hsx.2 h; omega
        · split_ifs with h
          · have := hsx.1 h; omega
          · omega
      have e4 : wrap32 (c.y + (if dims.y > 0 then j else -j))
          = c.y + (if dims.y > 0 then j else -j) := by
        apply wrap32_id
        · split_ifs with h
          · omega
          · have := hsy.2 h; omega
        · split_ifs with h
          · have := hsy.1 h; omega
          · omega
      rw [e3, e4]
    rw [List.mem_map]
    constructor
    · rintro ⟨⟨i, j⟩, hq, heq⟩
      rw [List.mem_flatMap] at hq
      obtain ⟨i', hi', hj'⟩ := hq
      rw [List.mem_map] at hj'
      obtain ⟨j', hj', hij⟩ := hj'
      rw [Prod.mk.injEq] at hij
      obtain ⟨rfl, rfl⟩ := hij
      rw [mem_int_range] at hi' hj'
      simp only [] at heq
      rw [hpix i' j' hi' hj', Prod.mk.injEq] at heq
      exact ⟨i', j', hi', hj', heq.1.symm, heq.2.symm⟩
    · rintro ⟨i, j, hi, hj, rfl, rfl⟩
      refine ⟨(i, j), ?_, hpix i j hi hj⟩
      rw [List.mem_flatMap]
      refine ⟨i, (mem_int_range _ _ _).2 hi, ?_⟩
      rw [List.mem_map]
      exact ⟨j, (mem_int_range _ _ _).2 hj, rfl⟩
  have heq := canvas_fill_triangle_eq_foldl D im c dims col
  rw [hax, hay] at heq
  obtain ⟨h1, h2, h3⟩ := foldl_put_checked col _ im hwf hpts
  rw [heq]
  refine ⟨h1, h2, ?_, ?_⟩
  · intro i y hi0 hi1
    rw [h3]
    apply if_congr _ rfl rfl
    rw [hmem]
    constructor
    · rintro ⟨hin, i', j', hi', hj', hxe, hye⟩
      have hii : i' = i := by
        split_ifs at hxe <;> omega
      subst hii
      refine ⟨hin, ?_, ?_⟩ <;> split_ifs at hye ⊢ <;> omega
    · rintro ⟨hin, ht0, ht1⟩
      refine ⟨hin, i, (if dims.y > 0 then y - c.y else c.y - y), ⟨hi0, hi1⟩, ⟨ht0, ht1⟩, rfl, ?_⟩
      split_ifs <;> omega
  · intro x y hx
    rw [h3, if_neg]
    rintro ⟨_, hm⟩
    rw [hmem] at hm
    obtain ⟨i, j, hi, _, hxe, _⟩ := hm
    apply hx
    split_ifs at hxe ⊢ <;> omega

/-- Claim C24 as stated fails: for `dims = (3, 5)` the column of index 1 gets one
row, the truncation of `5 * (1 / 3)`, where rounding to the nearest integer gives
2 rows; the pixel (1,1) keeps its colour. -/
theorem canvas_fill_triangle_truncates :
    round ((5 : ℚ) * 1 / 3) = 2 ∧
    double_to_i32 (scale_exact 5 1 3) = 1 ∧
    (canvas_fill_triangle scale_exact (XImage.uniform 4 6 0) ⟨0, 0⟩ ⟨3, 5⟩ 9).pix 1 0 = 9 ∧
    (canvas_fill_triangle scale_exact (XImage.uniform 4 6 0) ⟨0, 0⟩ ⟨3, 5⟩ 9).pix 1 1 = 0 := by
  have h := canvas_fill_triangle_columns scale_exact scale_exact_in_range (XImage.uniform 4 6 0)
    (by decide) ⟨0, 0⟩ ⟨3, 5⟩ 9 (by decide) (by decide) (by decide) (by decide)
  have e : double_to_i32 (scale_exact |(5 : Int)| 1 |(3 : Int)|) = 1 := by
    rw [double_to_i32_scale_exact _ _ _ (by decide) (by decide) (by decide)]; decide
  have h10 := h.2.2.1 1 0 (by decide) (by decide)
  have h11 := h.2.2.1 1 1 (by decide) (by decide)
  simp only [e] at h10 h11
  refine ⟨?_, ?_, h10.trans (by decide), h11.trans (by decide)⟩
  · rw [round_eq, Int.floor_eq_iff]
    norm_num
  · rw [double_to_i32_scale_exact _ _ _ (by decide) (by decide) (by decide)]; decide

/-- Claim C24, amended: for corners `c` and `c + dims` with coordinates between
`-2^29` and `2^29`, `canvas_fill_triangle` keeps the size of the image and colours,
in the column `c.x + i` (`c.x - i` for `dims.x ≤ 0`) with `0 ≤ i < |dims.x|`,
exactly the rows of the raster at the offsets `0 ≤ j < line_w` from the corner row,
downwards for `dims.y > 0` and upwards otherwise, where `line_w` is the cast to
`i32`, a truncation, of the `double` value `|dims.y| * (i / |dims.x|)`; pixels of
other columns are kept. For the exact value the row count is the integer quotient
`|dims.y| * i / |dims.x|` rounded down, not to the nearest integer. -/
theorem canvas_fill_triangle_rows (D : Int → Int → Int → ℚ) (hD : scale_in_range D)
    (im : XImage) (hwf : im.int_sized) (c dims : Pair) (col : argb)
    (hcx : -536870912 ≤ c.x ∧ c.x < 536870912) (hcy : -536870912 ≤ c.y ∧ c.y < 536870912)
    (hdx : -536870912 ≤ c.x + dims.x ∧ c.x + dims.x < 536870912)
    (hdy : -536870912 ≤ c.y + dims.y ∧ c.y + dims.y < 536870912) :
    (canvas_fill_triangle D im c dims col).width = im.width ∧
    (canvas_fill_triangle D im c dims col).height = im.height ∧
    (∀ i y : Int, 0 ≤ i → i < |dims.x| →
      (canvas_fill_triangle D im c dims col).pix (c.x + (if dims.x > 0 then i else -i)) y
        = if im.inb (c.x + (if dims.x > 0 then i else -i)) y ∧
              0 ≤ (if dims.y > 0 then y - c.y else c.y - y) ∧
              (if dims.y > 0 then y - c.y else c.y - y)
                < double_to_i32 (D |dims.y| i |dims.x|)
          then col else im.pix (c.x + (if dims.x > 0 then i else -i)) y) ∧
    (∀ x y : Int, ¬ (0 ≤ (if dims.x > 0 then x - c.x else c.x - x) ∧
        (if dims.x > 0 then x - c.x else c.x - x) < |dims.x|) →
      (canvas_fill_triangle D im c dims col).pix x y = im.pix x y) ∧
    (∀ i : Int, 0 ≤ i → i < |dims.x| →
      double_to_i32 (scale_exact |dims.y| i |dims.x|) = |dims.y| * i / |dims.x|) := by
  obtain ⟨h1, h2, h3, h4⟩ := canvas_fill_triangle_columns D hD im hwf c dims col hcx hcy hdx hdy
  refine ⟨h1, h2, h3, h4, ?_⟩
  intro i hi0 hi1
  exact double_to_i32_scale_exact _ _ _ (abs_nonneg _) hi0 (by omega)

/-- Witness for the amended claim C24: the triangle with `dims = (3, 5)` at the
corner (0,0) of a 4×6 image. Column 2 gets `5 * 2 / 3 = 3` rows. -/
theorem canvas_fill_triangle_rows_witness :
    (canvas_fill_triangle scale_exact (XImage.uniform 4 6 0) ⟨0, 0⟩ ⟨3, 5⟩ 9).pix 2 2 = 9 ∧
    (canvas_fill_triangle scale_exact (XImage.uniform 4 6 0) ⟨0, 0⟩ ⟨3, 5⟩ 9).pix 2 3 = 0 := by
  have h := canvas_fill_triangle_rows scale_exact scale_exact_in_range (XImage.uniform 4 6 0)
    (by decide) ⟨0, 0⟩ ⟨3, 5⟩ 9 (by decide) (by decide) (by decide) (by decide)
  have hrows := h.2.2.2.2 2 (by decide) (by decide)
  have e : double_to_i32 (scale_exact |(5 : Int)| 2 |(3 : Int)|) = 3 := by
    rw [hrows]; decide
  have h22 := h.2.2.1 2 2 (by decide) (by decide)
  have h23 := h.2.2.1 2 3 (by decide) (by decide)
  simp only [e] at h22 h23
  exact ⟨h22.trans (by decide), h23.trans (by decide)⟩

end XPaint
